import Mathlib

/-!
# x-compressor: bit coder (`bio.c`) and byte-pair splitter (`split.c`)

A shallow embedding of the two C sources and proofs of the properties the
specification states about them.

Conventions of the embedding

* `uint32` (a type of `common.h`, 32 bits wide by the assertion in
  `bio_flush_buffer`) holds natural numbers below `2 ^ 32`; every operation that
  can leave that range is reduced modulo `2 ^ 32` where the C code is.
  `size_t` values are natural numbers, reduced modulo `2 ^ 64` where the code
  can overflow them.
* C leaves `x << n` and `x >> n` undefined on a 32-bit `x` when `n ≥ 32`.
  The code performs such shifts (`bio_write_bits` with `m = 32`,
  `bio_read_bits` with `s = 32`, `bio_get_zeros_and_drop_bit` on an all-zero
  word, `bio_write_gr`/`bio_read_gr` with `k = 32`), so the embedding is
  parametric in what the target does with them: `ShiftSem.modular` reduces the
  count modulo 32 (x86, AArch64, RISC-V), `ShiftSem.flushing` shifts every bit
  out (ARM32, PowerPC).
* The code reaches the caller's buffer only through 4-byte loads and stores at
  the cursor, so the buffer is a finite list of 32-bit words; `ptr` is the byte
  offset of the cursor from the start of that buffer, and the word under the
  cursor has index `ptr / 4`.  A flush or a reload outside the buffer, a
  failed `assert`, and a loop that runs out of fuel all give `none`.
* The function `ctzu32` is the `__builtin_ctz` branch; `ctzu32_lut_eq` shows
  that the table of the portable branch returns the same.
-/

namespace Xcomp

/-! ## Machine arithmetic -/

/-- How the target treats a 32-bit shift whose count is 32 or more. -/
inductive ShiftSem
  | modular
  | flushing
  deriving DecidableEq

/-- The shift count the hardware really applies. -/
def ShiftSem.count : ShiftSem → Nat → Nat
  | .modular, n => n % 32
  | .flushing, n => n

/-- The value of `(uint32)(x << n)`. -/
def shl32 (S : ShiftSem) (x n : Nat) : Nat := (x <<< S.count n) % 2 ^ 32

/-- The value of `x >> n` on a `uint32`. -/
def shr32 (S : ShiftSem) (x n : Nat) : Nat := x >>> S.count n

/-- The value of `((uint32)1 << m) - 1`, the subtraction being a `uint32` one. -/
def mask32 (S : ShiftSem) (m : Nat) : Nat := (shl32 S 1 m + (2 ^ 32 - 1)) % 2 ^ 32

/-! ## `bio.c` -/

/-- Modelled from the spec: `bio.h` is not among the sources; the spec gives
the two modes `Read | Write` of a bit buffer. -/
inductive Mode
  | BIO_MODE_READ
  | BIO_MODE_WRITE
  deriving DecidableEq

/-- Modelled from the spec: `struct bio` is declared in `bio.h`, which is not
among the sources; the spec gives it a mode, a cursor, a 32-bit accumulator
and a bit count in `[0, 32]`, and the code uses the fields `mode`, `ptr`, `b`
and `c`.  The buffer `ptr` points into is kept with it. -/
structure Bio where
  mode : Mode
  ptr : Nat
  b : Nat
  c : Nat
  buf : List Nat
  deriving DecidableEq

def bio_reset_after_flush (bio : Bio) : Bio :=
  { bio with b := 0, c := 0 }

/-- The call `bio_open(bio, ptr, mode)`: `bio` is the structure as it was before the
call (its `b` survives a read-mode open), `buf` the buffer `ptr` points to. -/
def bio_open (bio : Bio) (buf : List Nat) (mode : Mode) : Bio :=
  let bio1 : Bio := { bio with mode := mode, ptr := 0, buf := buf }
  match mode with
  | .BIO_MODE_READ => { bio1 with c := 32 }
  | .BIO_MODE_WRITE => bio_reset_after_flush bio1

def bio_flush_buffer (bio : Bio) : Option Bio :=
  if bio.ptr / 4 < bio.buf.length then
    some { bio with buf := bio.buf.set (bio.ptr / 4) bio.b, ptr := bio.ptr + 4 }
  else none

def bio_reload_buffer (bio : Bio) : Option Bio :=
  match bio.buf.get? (bio.ptr / 4) with
  | some w => some { bio with b := w, ptr := bio.ptr + 4 }
  | none => none

/-- The tail of the write primitives: `if (bio->c == 32) { flush; reset }`. -/
def bio_flush_if_full (bio : Bio) : Option Bio :=
  if bio.c = 32 then (bio_flush_buffer bio).map bio_reset_after_flush else some bio

def bio_put_nonzero_bit (S : ShiftSem) (bio : Bio) : Option Bio :=
  if bio.c < 32 then
    bio_flush_if_full { bio with b := bio.b ||| shl32 S 1 bio.c, c := bio.c + 1 }
  else none

def minsize (a b : Nat) : Nat := if a < b then a else b

/-- Number of trailing zero bits of a positive number (`__builtin_ctz`). -/
def ctz_loop : Nat → Nat → Nat
  | 0, _ => 0
  | fuel + 1, n => if n % 2 = 1 then 0 else 1 + ctz_loop fuel (n / 2)

/-- The function `ctzu32`, as built by a GNU compiler (the `__builtin_ctz` branch). -/
def ctzu32 (n : Nat) : Nat := if n = 0 then 32 else ctz_loop 32 n

/-- The table of the portable branch of `ctzu32`. -/
def ctz_lut : List Nat :=
  [0, 1, 28, 2, 29, 14, 24, 3, 30, 22, 20, 15, 25, 17, 4, 8,
   31, 27, 13, 23, 21, 19, 16, 7, 26, 12, 18, 6, 11, 5, 10, 9]

/-- The portable branch of `ctzu32`: `lut[((uint32)((n & -n) * 0x077CB531U)) >> 27]`. -/
def ctzu32_lut (n : Nat) : Nat :=
  if n = 0 then 32
  else ctz_lut.getD ((((n &&& ((2 ^ 32 - n) % 2 ^ 32)) * 0x077CB531) % 2 ^ 32) >>> 27) 0

/-- The `reload?` block: `if (bio->c == 32) { reload; bio->c = 0; }`. -/
def bio_reload_if_empty (bio : Bio) : Option Bio :=
  if bio.c = 32 then (bio_reload_buffer bio).map (fun r => { r with c := 0 }) else some bio

/-- The `do ... while (bio->c == 32)` loop of `bio_get_zeros_and_drop_bit`. -/
def bio_get_zeros_loop (S : ShiftSem) : Nat → Bio → Nat → Option (Nat × Bio)
  | 0, _, _ => none
  | fuel + 1, bio, total_zeros =>
    match bio_reload_if_empty bio with
    | none => none
    | some bio1 =>
      let s := minsize (32 - bio1.c) (ctzu32 bio1.b)
      let bio2 : Bio := { bio1 with b := shr32 S bio1.b s, c := bio1.c + s }
      let total := (total_zeros + s) % 2 ^ 32
      if bio2.c = 32 then bio_get_zeros_loop S fuel bio2 total else some (total, bio2)

/-- The function `bio_get_zeros_and_drop_bit`.  Every pass of the loop but the first
reloads a word, so it makes at most one pass more than there are words left. -/
def bio_get_zeros_and_drop_bit (S : ShiftSem) (bio : Bio) : Option (Nat × Bio) :=
  match bio_get_zeros_loop S (bio.buf.length + 1 - bio.ptr / 4) bio 0 with
  | none => none
  | some (total_zeros, bio1) =>
    if bio1.c < 32 then
      some (total_zeros, { bio1 with b := shr32 S bio1.b 1, c := bio1.c + 1 })
    else none

/-- The `while (n > 0)` loop of `bio_write_bits`. -/
def bio_write_bits_loop (S : ShiftSem) : Nat → Bio → Nat → Nat → Option Bio
  | _, bio, _, 0 => some bio
  | 0, _, _, _ + 1 => none
  | fuel + 1, bio, b, n + 1 =>
    if bio.c < 32 then
      let m := minsize (32 - bio.c) (n + 1)
      if 32 ≥ bio.c + m then
        match bio_flush_if_full
            { bio with b := bio.b ||| shl32 S (b &&& mask32 S m) bio.c, c := bio.c + m } with
        | none => none
        | some bio1 => bio_write_bits_loop S fuel bio1 (shr32 S b m) (n + 1 - m)
      else none
    else none

def bio_write_bits (S : ShiftSem) (bio : Bio) (b n : Nat) : Option Bio :=
  if n ≤ 32 then bio_write_bits_loop S n bio b n else none

/-- The `while (n > 0)` loop of `bio_write_zero_bits`. -/
def bio_write_zero_bits_loop : Nat → Bio → Nat → Option Bio
  | _, bio, 0 => some bio
  | 0, _, _ + 1 => none
  | fuel + 1, bio, n + 1 =>
    if bio.c < 32 then
      let m := minsize (32 - bio.c) (n + 1)
      if 32 ≥ bio.c + m then
        match bio_flush_if_full { bio with c := bio.c + m } with
        | none => none
        | some bio1 => bio_write_zero_bits_loop fuel bio1 (n + 1 - m)
      else none
    else none

def bio_write_zero_bits (bio : Bio) (n : Nat) : Option Bio :=
  if n ≤ 32 then bio_write_zero_bits_loop n bio n else none

def bio_read_bits (S : ShiftSem) (bio : Bio) (n : Nat) : Option (Nat × Bio) :=
  match bio_reload_if_empty bio with
  | none => none
  | some bio1 =>
    let s := minsize (32 - bio1.c) n
    let w := bio1.b &&& mask32 S s
    let bio2 : Bio := { bio1 with b := shr32 S bio1.b s, c := bio1.c + s }
    let n1 := n - s
    if n1 > 0 then
      if bio2.c = 32 then
        match bio_reload_buffer bio2 with
        | none => none
        | some bio3 =>
          let w1 := w ||| shl32 S (bio3.b &&& mask32 S n1) s
          some (w1, { bio3 with b := shr32 S bio3.b n1, c := 0 + n1 })
      else none
    else some (w, bio2)

def bio_close (bio : Bio) : Option Bio :=
  if bio.mode = Mode.BIO_MODE_WRITE ∧ bio.c > 0 then bio_flush_buffer bio else some bio

/-- The `while (N > 32)` loop of `bio_write_unary`. -/
def bio_write_unary_loop : Nat → Bio → Nat → Option (Bio × Nat)
  | 0, bio, N => if N > 32 then none else some (bio, N)
  | fuel + 1, bio, N =>
    if N > 32 then
      match bio_write_zero_bits bio 32 with
      | none => none
      | some bio1 => bio_write_unary_loop fuel bio1 (N - 32)
    else some (bio, N)

def bio_write_unary (S : ShiftSem) (bio : Bio) (N : Nat) : Option Bio :=
  match bio_write_unary_loop (N / 32) bio N with
  | none => none
  | some (bio1, N1) =>
    match bio_write_zero_bits bio1 N1 with
    | none => none
    | some bio2 => bio_put_nonzero_bit S bio2

def bio_read_unary (S : ShiftSem) (bio : Bio) : Option (Nat × Bio) :=
  bio_get_zeros_and_drop_bit S bio

def bio_write_gr (S : ShiftSem) (bio : Bio) (k N : Nat) : Option Bio :=
  let Q := shr32 S N k
  match bio_write_unary S bio Q with
  | none => none
  | some bio1 => if k ≤ 32 then bio_write_bits S bio1 N k else none

def bio_read_gr (S : ShiftSem) (bio : Bio) (k : Nat) : Option (Nat × Bio) :=
  match bio_read_unary S bio with
  | none => none
  | some (Q, bio1) =>
    let N := shl32 S Q k
    if k ≤ 32 then
      match bio_read_bits S bio1 k with
      | none => none
      | some (r, bio2) => some (N ||| r, bio2)
    else none

/-! ## `split.c` -/

/-- The rank `freq[i]`, the table being a list of 256 `size_t` ranks. -/
def rd (freq : List Nat) (i : Nat) : Nat := freq.getD i 0

/-- The table `init_freq` leaves: the one after the loop `freq[i] = i`. -/
def init_freq : List Nat := List.range 256

def swap_freq (freq : List Nat) (i j : Nat) : List Nat :=
  let t := rd freq i
  (freq.set i (rd freq j)).set j t

/-- The `for` loop of `inc_freq`: the first `i` other than `j` whose rank is
`new_freq`, scanning the table from index `i`. -/
def inc_freq_find (j new_freq : Nat) : List Nat → Nat → Option Nat
  | [], _ => none
  | x :: xs, i =>
    if i ≠ j ∧ x = new_freq then some i else inc_freq_find j new_freq xs (i + 1)

/-- The function `inc_freq`, the depth of the recursion bounded by the first argument. -/
def inc_freq_fuel : Nat → List Nat → Nat → Option (List Nat)
  | 0, _, _ => none
  | fuel + 1, freq, j =>
    let new_freq := (rd freq j + 1) % 2 ^ 64
    match inc_freq_find j new_freq (freq.take 256) 0 with
    | some i => inc_freq_fuel fuel (swap_freq freq i j) j
    | none => some (freq.set j new_freq)

/-- The call `inc_freq(j)`: 256 nested calls are always enough (`inc_freq_total`). -/
def inc_freq (freq : List Nat) (j : Nat) : Option (List Nat) := inc_freq_fuel 256 freq j

/-- Every table `inc_freq` passes through: the table after each `swap_freq`
(which is the table the recursive call starts from) and the final table. -/
def inc_freq_trace : Nat → List Nat → Nat → List (List Nat)
  | 0, _, _ => []
  | fuel + 1, freq, j =>
    let new_freq := (rd freq j + 1) % 2 ^ 64
    match inc_freq_find j new_freq (freq.take 256) 0 with
    | some i => swap_freq freq i j :: inc_freq_trace fuel (swap_freq freq i j) j
    | none => [freq.set j new_freq]

/-- What `assert_uniq_freq` asserts: `freq[i] != freq[j]` for `i < j < 256`. -/
def assert_uniq_freq (freq : List Nat) : Prop :=
  ∀ i, i < 256 → ∀ j, j < 256 → i < j → rd freq i ≠ rd freq j

instance (freq : List Nat) : Decidable (assert_uniq_freq freq) := by
  unfold assert_uniq_freq; infer_instance

/-- Type 0 of `is_in_order_coo`, the one compiled in. -/
def is_in_order_coo (coo : Nat → Nat → Nat) (pair : Nat × Nat) : Int :=
  if coo pair.1 pair.2 > coo pair.2 pair.1 then 1 else 0

def is_in_order_freq (freq : List Nat) (pair : Nat × Nat) : Int :=
  if rd freq pair.1 > rd freq pair.2 then 1 else 0

def update_model_coo (coo : Nat → Nat → Nat) (pair : Nat × Nat) : Nat → Nat → Nat :=
  fun a b => if a = pair.1 ∧ b = pair.2 then (coo a b + 1) % 2 ^ 64 else coo a b

/-- The branch compiled in: `inc_freq(pair[0])` only. -/
def update_model_freq (freq : List Nat) (pair : Nat × Nat) : Option (List Nat) :=
  inc_freq freq pair.1

def swap (pair : Nat × Nat) : Nat × Nat := (pair.2, pair.1)

/-- The call `transform(in_order, in, out)`: the value left in `out`, or `none` when
one of the two assertions fails. -/
def transform (freq : List Nat) (in_order : Int) (inp : Nat × Nat) : Option (Nat × Nat) :=
  let out := inp
  if in_order ≠ 0 then
    if is_in_order_freq freq out = 0 then
      let out1 := swap out
      if is_in_order_freq freq out1 ≠ 0 then some out1 else none
    else some out
  else
    if is_in_order_freq freq out ≠ 0 then
      let out1 := swap out
      if is_in_order_freq freq out1 = 0 then some out1 else none
    else some out

/-- The state `process` works on: the two global tables, `semi[0]`, and what
has been written to the low and to the high stream. -/
structure Split where
  coo : Nat → Nat → Nat
  freq : List Nat
  semi0 : Nat
  lstream : List Nat
  hstream : List Nat

/-- One pass of the `while` loop of `process` on the pair `(p0, p1)`. -/
def process_step (st : Split) (p0 p1 : Nat) : Option Split :=
  let in_order := is_in_order_coo st.coo (p0, p1)
  match transform st.freq in_order (p0, p1) with
  | none => none
  | some out =>
    if is_in_order_freq st.freq out = in_order then
      let coo1 := update_model_coo st.coo (st.semi0, p0)
      let coo2 := update_model_coo coo1 (p0, p1)
      match update_model_freq st.freq out with
      | none => none
      | some freq1 =>
        some { coo := coo2, freq := freq1, semi0 := p1,
               lstream := st.lstream ++ [out.1], hstream := st.hstream ++ [out.2] }
    else none

/-- The `while (fread(pair, 1, 2, istream) == 2)` loop. -/
def process_loop : List Nat → Split → Option Split
  | p0 :: p1 :: rest, st =>
    match process_step st p0 p1 with
    | none => none
    | some st1 => process_loop rest st1
  | _, st => some st

/-- The function `process`, started with the co-occurrence table `coo` (all zero in a
fresh program) on the bytes of `istream`. -/
def process (coo : Nat → Nat → Nat) (istream : List Nat) : Option Split :=
  process_loop istream
    { coo := coo, freq := init_freq, semi0 := 0, lstream := [], hstream := [] }

/-! ## Sequences of calls and the logical bit stream -/

/-- One call of a write primitive of `bio.c`. -/
inductive WOp
  | bits (b n : Nat)
  | zero_bits (n : Nat)
  | nonzero_bit
  | unary (N : Nat)
  | gr (k N : Nat)

def WOp.run (S : ShiftSem) (bio : Bio) : WOp → Option Bio
  | .bits b n => bio_write_bits S bio b n
  | .zero_bits n => bio_write_zero_bits bio n
  | .nonzero_bit => bio_put_nonzero_bit S bio
  | .unary N => bio_write_unary S bio N
  | .gr k N => bio_write_gr S bio k N

/-- The calls of `ops` made one after the other. -/
def runW (S : ShiftSem) : List WOp → Bio → Option Bio
  | [], bio => some bio
  | op :: ops, bio =>
    match op.run S bio with
    | none => none
    | some bio1 => runW S ops bio1

/-- One call of a read primitive of `bio.c`. -/
inductive ROp
  | bits (n : Nat)
  | unary
  | gr (k : Nat)

def ROp.run (S : ShiftSem) (bio : Bio) : ROp → Option (Nat × Bio)
  | .bits n => bio_read_bits S bio n
  | .unary => bio_read_unary S bio
  | .gr k => bio_read_gr S bio k

/-- The calls of `ops` made one after the other, with the values they return. -/
def runR (S : ShiftSem) : List ROp → Bio → Option (List Nat × Bio)
  | [], bio => some ([], bio)
  | op :: ops, bio =>
    match op.run S bio with
    | none => none
    | some (v, bio1) =>
      match runR S ops bio1 with
      | none => none
      | some (vs, bio2) => some (v :: vs, bio2)

/-- The number a list of 32-bit words spells, first word least significant:
bit `j` of word `w` is bit `32 * w + j` of it. -/
def streamVal : List Nat → Nat
  | [] => 0
  | w :: ws => w + 2 ^ 32 * streamVal ws

/-- Number of bits written since the buffer was opened. -/
def Bio.wpos (bio : Bio) : Nat := 32 * (bio.ptr / 4) + bio.c

/-- The bits written since the buffer was opened, as a number: the flushed
words followed by the accumulator. -/
def Bio.wstream (bio : Bio) : Nat :=
  streamVal (bio.buf.take (bio.ptr / 4)) + 2 ^ (32 * (bio.ptr / 4)) * bio.b

/-- Bit `j` of the logical bit stream of a write-mode buffer: a bit of a
flushed word, or a bit of the accumulator. -/
def Bio.bit (bio : Bio) (j : Nat) : Bool :=
  if j / 32 < bio.ptr / 4 then (bio.buf.getD (j / 32) 0).testBit (j % 32)
  else bio.b.testBit (j - 32 * (bio.ptr / 4))

/-- The invariant of a write-mode buffer. -/
def WriteOk (bio : Bio) : Prop :=
  bio.mode = Mode.BIO_MODE_WRITE ∧ bio.ptr % 4 = 0 ∧ bio.c < 32 ∧ bio.b < 2 ^ bio.c ∧
  bio.ptr / 4 ≤ bio.buf.length ∧ ∀ w ∈ bio.buf.take (bio.ptr / 4), w < 2 ^ 32

/-- The state `bio1` is `bio` with the `n` bits of `x` appended to its stream; the words
of the buffer from the cursor on are untouched. -/
def Appends (bio bio1 : Bio) (x n : Nat) : Prop :=
  WriteOk bio1 ∧ bio1.wstream = bio.wstream + 2 ^ bio.wpos * x ∧
  bio1.wpos = bio.wpos + n ∧ bio1.buf.length = bio.buf.length ∧
  bio1.buf.drop (bio1.ptr / 4) = bio.buf.drop (bio1.ptr / 4)

/-- What `bio_write_bits(b, n)` really appends when the bit count is `c`: the
low `n` bits of `b`, except that a modular target masks a whole-word group
with `(1 << 32) - 1 = 0`. -/
def wval (S : ShiftSem) (c b n : Nat) : Nat :=
  if S = ShiftSem.modular ∧ c = 0 ∧ n = 32 then 0 else b % 2 ^ n

/-- Number of bits a call appends. -/
def WOp.len (S : ShiftSem) : WOp → Nat
  | .bits _ n => n
  | .zero_bits n => n
  | .nonzero_bit => 1
  | .unary N => N + 1
  | .gr k N => shr32 S N k + 1 + k

/-- The bits a call appends when the bit count is `c`, as a number. -/
def WOp.val (S : ShiftSem) (c : Nat) : WOp → Nat
  | .bits b n => wval S c b n
  | .zero_bits _ => 0
  | .nonzero_bit => 1
  | .unary N => 2 ^ N
  | .gr k N => 2 ^ shr32 S N k + 2 ^ (shr32 S N k + 1) * wval S ((c + shr32 S N k + 1) % 32) N k

/-- The arguments a call may be given: `n ≤ 32`, `k ≤ 32`, and a `uint32`
number to code. -/
def WOp.valid : WOp → Prop
  | .bits _ n => n ≤ 32
  | .zero_bits n => n ≤ 32
  | .nonzero_bit => True
  | .unary N => N < 2 ^ 32
  | .gr k N => k ≤ 32 ∧ N < 2 ^ 32

/-- Total number of bits a list of calls appends. -/
def bitsLen (S : ShiftSem) : List WOp → Nat
  | [] => 0
  | op :: ops => op.len S + bitsLen S ops

/-- The bits a list of calls appends from stream position `p` on. -/
def encode (S : ShiftSem) : Nat → List WOp → Nat
  | _, [] => 0
  | p, op :: ops => op.val S (p % 32) + 2 ^ op.len S * encode S (p + op.len S) ops

/-- The read call that takes back what a write call appended. -/
def WOp.reader : WOp → ROp
  | .bits _ n => .bits n
  | .zero_bits n => .bits n
  | .nonzero_bit => .bits 1
  | .unary _ => .unary
  | .gr k _ => .gr k

/-- What the read call returns for a write call made at stream position `p`. -/
def WOp.expect (S : ShiftSem) (p : Nat) : WOp → Nat
  | .bits b n => wval S (p % 32) b n
  | .zero_bits _ => 0
  | .nonzero_bit => 1
  | .unary N => N
  | .gr _ N => N

/-- What a list of read calls returns for the write calls `ops` made from
stream position `p` on. -/
def expects (S : ShiftSem) : Nat → List WOp → List Nat
  | _, [] => []
  | p, op :: ops => op.expect S p :: expects S (p + op.len S) ops

/-- Position in the stream of the next bit a read-mode buffer delivers. -/
def Bio.rpos (bio : Bio) : Nat := 32 * (bio.ptr / 4) + bio.c - 32

/-- The invariant of a read-mode buffer: the accumulator holds the bits of
the current word that have not been delivered yet. -/
def ReadOk (bio : Bio) : Prop :=
  bio.ptr % 4 = 0 ∧ bio.c ≤ 32 ∧ bio.ptr / 4 ≤ bio.buf.length ∧
  (∀ w ∈ bio.buf, w < 2 ^ 32) ∧
  (bio.c < 32 → 1 ≤ bio.ptr / 4 ∧
    bio.b = streamVal bio.buf / 2 ^ bio.rpos % 2 ^ (32 - bio.c))

/-- The Golomb-Rice calls for the pairs `(k, N)` of `items`. -/
def grOps (items : List (Nat × Nat)) : List WOp := items.map (fun it => WOp.gr it.1 it.2)

/-- The `bio_write_bits` calls for the pairs `(value, n)` of `items`. -/
def bitsOps (items : List (Nat × Nat)) : List WOp := items.map (fun it => WOp.bits it.1 it.2)

/-- An `inc_freq` call for each symbol of the list, in order. -/
def inc_freq_calls : List Nat → List Nat → Option (List Nat)
  | freq, [] => some freq
  | freq, j :: js =>
    match inc_freq freq j with
    | none => none
    | some freq1 => inc_freq_calls freq1 js

/-- Every table the calls of `inc_freq_calls` pass through. -/
def inc_freq_calls_trace : List Nat → List Nat → List (List Nat)
  | _, [] => []
  | freq, j :: js =>
    inc_freq_trace 256 freq j ++
      (match inc_freq freq j with
       | none => []
       | some freq1 => inc_freq_calls_trace freq1 js)

/-- A rank table as the program holds it: 256 entries of type `size_t`. -/
def FreqOk (freq : List Nat) : Prop := freq.length = 256 ∧ ∀ i, i < 256 → rd freq i < 2 ^ 64

/-- The ranks of the table are pairwise distinct. -/
def Injective256 (freq : List Nat) : Prop :=
  ∀ a, a < 256 → ∀ b, b < 256 → a ≠ b → rd freq a ≠ rd freq b

/-- What a write call that appends the `n` bits of `x` does: it succeeds
exactly when the buffer has room for the words it flushes. -/
def WSpec (r : Option Bio) (bio : Bio) (x n : Nat) : Prop :=
  ((bio.wpos + n) / 32 ≤ bio.buf.length → ∃ bio1, r = some bio1 ∧ Appends bio bio1 x n) ∧
  (¬ (bio.wpos + n) / 32 ≤ bio.buf.length → r = none)

/-- What `bio_read_bits(n)` returns at stream position `p` of the stream `V`:
the `n` bits from `p` on, except that a modular target masks a whole-word
group with `(1 << 32) - 1 = 0`. -/
def rval (S : ShiftSem) (V p n : Nat) : Nat :=
  if S = ShiftSem.modular ∧ n = 32 ∧ p % 32 = 0 then 0 else V / 2 ^ p % 2 ^ n

/-- Write with the calls `ops` into a freshly opened buffer, close it, open
the same buffer for reading and make the calls `rops`: the values read back. -/
def write_then_read (S : ShiftSem) (z z1 : Bio) (buf : List Nat) (ops : List WOp)
    (rops : List ROp) : Option (List Nat) :=
  match runW S ops (bio_open z buf Mode.BIO_MODE_WRITE) with
  | none => none
  | some w =>
    match bio_close w with
    | none => none
    | some w1 =>
      match runR S rops (bio_open z1 w1.buf Mode.BIO_MODE_READ) with
      | none => none
      | some (vs, _) => some vs

/-- A call of `bio_write_bits` or `bio_write_zero_bits` with `n ≤ 32`. -/
def WOp.raw : WOp → Prop
  | .bits _ n => n ≤ 32
  | .zero_bits n => n ≤ 32
  | _ => False

/-- A `struct bio` before it is opened. -/
def bio0 : Bio := { mode := Mode.BIO_MODE_READ, ptr := 0, b := 0, c := 0, buf := [] }

/-! ## Adjacency counts, and the two decision policies compiled out -/

/-- Number of positions `j` of the stream with byte `a` at `j` and byte `b`
at `j + 1`. -/
def adj_count (a b : Nat) : List Nat → Nat
  | x :: y :: rest => (if x = a ∧ y = b then 1 else 0) + adj_count a b (y :: rest)
  | _ => 0

/-- The `struct rec` of `split.c`. -/
structure Rec where
  c : Nat
  freq : Nat
  deriving DecidableEq

def compar (l r : Rec) : Int :=
  if l.freq > r.freq then 1 else if l.freq < r.freq then -1 else 0

/-- What the C library promises of `qsort(R, n, size, compar)`: the array holds
the records it held before, and `compar` of an earlier and a later record is
never positive.  How records that compare equal are ordered is left open. -/
def QsortResult (input R : List Rec) : Prop :=
  R.Perm input ∧ R.Pairwise (fun l r => compar l r ≤ 0)

/-- A sort function that keeps the promise of `qsort`. -/
def IsQsort (qsort : List Rec → List Rec) : Prop := ∀ input, QsortResult input (qsort input)

/-- One sort function that keeps it: insertion sort by `freq`. -/
def qsort_insertion (input : List Rec) : List Rec :=
  input.insertionSort (fun l r => l.freq ≤ r.freq)

/-- The first loop of `is_above_median`: `R[i].c = i; R[i].freq = coo[pair[0]][i]`. -/
def median_records (coo : Nat → Nat → Nat) (pair : Nat × Nat) : List Rec :=
  (List.range 256).map (fun i => { c := i, freq := coo pair.1 i })

/-- The last loop of `is_above_median` over the records it is given. -/
def is_above_median_scan (p1 : Nat) : List Rec → Int
  | [] => 0
  | r :: rs => if p1 = r.c then 1 else is_above_median_scan p1 rs

/-- The function `is_above_median`, with the sort function of the C library
as a parameter: fill the 256 records, sort them, look for `pair[1]` among the
first 128. -/
def is_above_median (qsort : List Rec → List Rec) (coo : Nat → Nat → Nat)
    (pair : Nat × Nat) : Int :=
  is_above_median_scan pair.2 ((qsort (median_records coo pair)).take 128)

/-- How a call of `compare_coo_pairs` ends. -/
inductive Outcome
  | value (v : Int)
  | division_by_zero
  | assertion_failed
  deriving DecidableEq

/-- The sum `D += coo[a][i]` over `i < 256`, in `size_t` arithmetic. -/
def sum_row (coo : Nat → Nat → Nat) (a : Nat) : Nat :=
  (List.range 256).foldl (fun acc i => (acc + coo a i) % 2 ^ 64) 0

/-- The function `compare_coo_pairs`; `~0UL` is `2 ^ 64 - 1`. -/
def compare_coo_pairs (coo : Nat → Nat → Nat) (pair : Nat × Nat) : Outcome :=
  let N0 := coo pair.2 pair.1
  let N1 := coo pair.1 pair.2
  let D0 := sum_row coo pair.2
  let D1 := sum_row coo pair.1
  if D1 = 0 then Outcome.division_by_zero
  else if ¬ N0 ≤ (2 ^ 64 - 1) / D1 then Outcome.assertion_failed
  else if D0 = 0 then Outcome.division_by_zero
  else if ¬ N1 ≤ (2 ^ 64 - 1) / D0 then Outcome.assertion_failed
  else Outcome.value (if (N0 * D1) % 2 ^ 64 > (N1 * D0) % 2 ^ 64 then 1 else 0)

/-- The identity ranks with the rank of symbol 0 raised to the largest
`size_t`. -/
def top_rank_freq : List Nat := init_freq.set 0 (2 ^ 64 - 1)

/-- A co-occurrence table whose counts grow with the second byte: byte `b`
has followed any byte `b` times. -/
def coo_ramp : Nat → Nat → Nat := fun _ b => b

/-! ## Machine arithmetic lemmas -/

theorem shl32_lt (S : ShiftSem) (x n : Nat) (hn : n < 32) :
    shl32 S x n = (x * 2 ^ n) % 2 ^ 32 := by
  cases S <;> simp [shl32, ShiftSem.count, Nat.shiftLeft_eq, Nat.mod_eq_of_lt hn]

theorem shr32_lt (S : ShiftSem) (x n : Nat) (hn : n < 32) :
    shr32 S x n = x / 2 ^ n := by
  cases S <;> simp [shr32, ShiftSem.count, Nat.shiftRight_eq_div_pow, Nat.mod_eq_of_lt hn]

theorem shr32_zero (S : ShiftSem) (n : Nat) : shr32 S 0 n = 0 := by
  simp [shr32]

theorem mask32_lt (S : ShiftSem) (m : Nat) (hm : m < 32) : mask32 S m = 2 ^ m - 1 := by
  have h1 : (2 : Nat) ^ m < 2 ^ 32 := Nat.pow_lt_pow_right (by decide) hm
  have h0 : 0 < (2 : Nat) ^ m := Nat.two_pow_pos _
  rw [mask32, shl32_lt S 1 m hm, Nat.one_mul, Nat.mod_eq_of_lt h1]
  have : 2 ^ m + (2 ^ 32 - 1) = (2 ^ m - 1) + 2 ^ 32 := by omega
  rw [this, Nat.add_mod_right, Nat.mod_eq_of_lt (by omega)]

theorem mask32_flushing : mask32 ShiftSem.flushing 32 = 2 ^ 32 - 1 := by decide

theorem mask32_modular : mask32 ShiftSem.modular 32 = 0 := by decide

theorem and_mask32_lt (S : ShiftSem) (x m : Nat) (hm : m < 32) :
    x &&& mask32 S m = x % 2 ^ m := by
  rw [mask32_lt S m hm, Nat.and_pow_two_sub_one_eq_mod]

/-- The masked chunk `b & ((1 << m) - 1)` of `bio_write_bits`, for `m ≤ 32`. -/
theorem and_mask32 (S : ShiftSem) (x m : Nat) (hm : m ≤ 32) :
    x &&& mask32 S m = if S = ShiftSem.modular ∧ m = 32 then 0 else x % 2 ^ m := by
  rcases Nat.lt_or_ge m 32 with h | h
  · rw [and_mask32_lt S x m h, if_neg (by omega)]
  · have : m = 32 := by omega
    subst this
    cases S
    · simp [mask32_modular]
    · simp only [mask32_flushing, Nat.and_pow_two_sub_one_eq_mod]; simp

theorem or_shift_eq_add (b x c : Nat) (hb : b < 2 ^ c) : b ||| x * 2 ^ c = b + 2 ^ c * x := by
  rw [Nat.lor_comm, Nat.mul_comm x, ← Nat.mul_add_lt_is_or hb, Nat.add_comm]

theorem chunk_lt (b x c m : Nat) (hb : b < 2 ^ c) (hx : x < 2 ^ m) :
    b + 2 ^ c * x < 2 ^ (c + m) := by
  have h1 : 2 ^ c * (x + 1) ≤ 2 ^ c * 2 ^ m := Nat.mul_le_mul_left _ hx
  rw [Nat.pow_add]
  have : 2 ^ c * (x + 1) = 2 ^ c * x + 2 ^ c := by ring
  omega

/-- The accumulator update `bio->b |= (uint32)(x << c)` appends `x`. -/
theorem or_shl32 (S : ShiftSem) (b x c m : Nat) (hb : b < 2 ^ c) (hx : x < 2 ^ m)
    (hcm : c + m ≤ 32) (hc : c < 32) :
    b ||| shl32 S x c = b + 2 ^ c * x := by
  have h1 : x * 2 ^ c < 2 ^ 32 := by
    have := chunk_lt 0 x c m (Nat.two_pow_pos _) hx
    have h2 : (2 : Nat) ^ (c + m) ≤ 2 ^ 32 := Nat.pow_le_pow_right (by decide) hcm
    rw [Nat.mul_comm]; omega
  rw [shl32_lt S x c hc, Nat.mod_eq_of_lt h1, or_shift_eq_add b x c hb]

theorem mod_pow_split (v m k : Nat) :
    v % 2 ^ m + 2 ^ m * (v / 2 ^ m % 2 ^ k) = v % 2 ^ (m + k) := by
  rw [Nat.pow_add, Nat.mod_mul]

theorem wval_lt (S : ShiftSem) (c b n : Nat) : wval S c b n < 2 ^ n := by
  unfold wval
  split
  · exact Nat.two_pow_pos _
  · exact Nat.mod_lt _ (Nat.two_pow_pos _)

/-! ## The stream of a write-mode buffer -/

theorem streamVal_append (xs ys : List Nat) :
    streamVal (xs ++ ys) = streamVal xs + 2 ^ (32 * xs.length) * streamVal ys := by
  induction xs with
  | nil => simp [streamVal]
  | cons x xs ih =>
    show x + 2 ^ 32 * streamVal (xs ++ ys)
      = x + 2 ^ 32 * streamVal xs + 2 ^ (32 * (xs.length + 1)) * streamVal ys
    rw [ih, show 32 * (xs.length + 1) = 32 + 32 * xs.length by ring, Nat.pow_add]
    ring

theorem streamVal_lt (xs : List Nat) (h : ∀ w ∈ xs, w < 2 ^ 32) :
    streamVal xs < 2 ^ (32 * xs.length) := by
  induction xs with
  | nil => simp [streamVal]
  | cons x xs ih =>
    have hx := h x (List.mem_cons_self _ _)
    have ih1 := ih (fun w hw => h w (List.mem_cons_of_mem _ hw))
    simp only [streamVal, List.length_cons]
    rw [show 32 * (xs.length + 1) = 32 + 32 * xs.length by ring]
    exact chunk_lt x (streamVal xs) 32 (32 * xs.length) hx ih1

theorem take_set_succ (l : List Nat) (i v : Nat) (hi : i < l.length) :
    (l.set i v).take (i + 1) = l.take i ++ [v] := by
  induction l generalizing i with
  | nil => simp at hi
  | cons a l ih =>
    cases i with
    | zero => simp
    | succ i =>
      simp only [List.set_cons_succ, List.take_succ_cons, List.cons_append, List.cons.injEq,
        true_and]
      exact ih i (by simpa using hi)

theorem drop_set_succ (l : List Nat) (i v : Nat) :
    (l.set i v).drop (i + 1) = l.drop (i + 1) := by
  induction l generalizing i with
  | nil => simp
  | cons a l ih =>
    cases i with
    | zero => simp
    | succ i => simpa using ih i

theorem WriteOk.wstream_lt {bio : Bio} (h : WriteOk bio) : bio.wstream < 2 ^ bio.wpos := by
  obtain ⟨-, -, -, hb, hlen, hw⟩ := h
  have h1 := streamVal_lt _ hw
  rw [List.length_take, Nat.min_eq_left hlen] at h1
  unfold Bio.wstream Bio.wpos
  exact chunk_lt _ _ _ _ h1 hb

theorem appends_refl (bio : Bio) (h : WriteOk bio) : Appends bio bio 0 0 :=
  ⟨h, by simp, by simp, rfl, rfl⟩

theorem Appends.ptr_le {bio bio1 : Bio} {x n : Nat} (h0 : WriteOk bio)
    (h : Appends bio bio1 x n) : bio.ptr / 4 ≤ bio1.ptr / 4 := by
  obtain ⟨h1, -, h3, -, -⟩ := h
  have c0 := h0.2.2.1
  have c1 := h1.2.2.1
  unfold Bio.wpos at h3
  omega

theorem appends_trans {bio bio1 bio2 : Bio} {x n y m : Nat}
    (h1 : Appends bio bio1 x n) (h2 : Appends bio1 bio2 y m) :
    Appends bio bio2 (x + 2 ^ n * y) (n + m) := by
  have hp := Appends.ptr_le h1.1 h2
  obtain ⟨a1, a2, a3, a4, a5⟩ := h1
  obtain ⟨b1, b2, b3, b4, b5⟩ := h2
  refine ⟨b1, ?_, by omega, by omega, ?_⟩
  · rw [b2, a2, a3, Nat.pow_add]; ring
  · obtain ⟨k, hk⟩ := Nat.exists_eq_add_of_le hp
    rw [b5, hk, ← List.drop_drop, ← List.drop_drop, a5]

/-- One pass of a write loop: the accumulator takes the `m` bits of `x`, and
a full accumulator is flushed.  It fails exactly when the buffer is full. -/
theorem flush_if_full_spec (bio : Bio) (x m : Nat) (hok : WriteOk bio)
    (hm : bio.c + m ≤ 32) (hx : x < 2 ^ m) :
    ((bio.wpos + m) / 32 ≤ bio.buf.length →
      ∃ bio1, bio_flush_if_full { bio with b := bio.b + 2 ^ bio.c * x, c := bio.c + m }
          = some bio1 ∧ Appends bio bio1 x m) ∧
    (¬ (bio.wpos + m) / 32 ≤ bio.buf.length →
      bio_flush_if_full { bio with b := bio.b + 2 ^ bio.c * x, c := bio.c + m } = none) := by
  obtain ⟨hmode, hptr, hc, hb, hlen, hw⟩ := hok
  have hnb := chunk_lt bio.b x bio.c m hb hx
  rcases Nat.lt_or_ge (bio.c + m) 32 with hlt | hge
  · have hcap : (bio.wpos + m) / 32 ≤ bio.buf.length := by unfold Bio.wpos; omega
    refine ⟨fun _ => ⟨{ bio with b := bio.b + 2 ^ bio.c * x, c := bio.c + m }, ?_, ?_⟩,
      fun h => absurd hcap h⟩
    · simp [bio_flush_if_full, Nat.ne_of_lt hlt]
    · refine ⟨⟨hmode, hptr, hlt, hnb, hlen, hw⟩, ?_, ?_, rfl, rfl⟩
      · simp only [Bio.wstream, Bio.wpos, Nat.pow_add]; ring
      · simp only [Bio.wpos]; omega
  · have h32 : bio.c + m = 32 := by omega
    have hq : (bio.wpos + m) / 32 = bio.ptr / 4 + 1 := by unfold Bio.wpos; omega
    rw [hq]
    constructor
    · intro hcap
      have hin : bio.ptr / 4 < bio.buf.length := by omega
      refine ⟨bio_reset_after_flush
        { bio with b := bio.b + 2 ^ bio.c * x, c := bio.c + m,
                   buf := bio.buf.set (bio.ptr / 4) (bio.b + 2 ^ bio.c * x),
                   ptr := bio.ptr + 4 }, ?_, ?_⟩
      · simp only [bio_flush_if_full, h32, if_true, bio_flush_buffer, hin, Option.map_some']
      · have hp4 : (bio.ptr + 4) / 4 = bio.ptr / 4 + 1 := by omega
        have hnb32 : bio.b + 2 ^ bio.c * x < 2 ^ 32 := by rw [h32] at hnb; exact hnb
        refine ⟨⟨hmode, ?_, ?_, ?_, ?_, ?_⟩, ?_, ?_, ?_, ?_⟩
        · simp only [bio_reset_after_flush]; omega
        · simp [bio_reset_after_flush]
        · simp [bio_reset_after_flush]
        · simp only [bio_reset_after_flush, hp4, List.length_set]; omega
        · simp only [bio_reset_after_flush, hp4]
          rw [take_set_succ _ _ _ hin]
          intro w hw1
          rcases List.mem_append.1 hw1 with h | h
          · exact hw w h
          · simp only [List.mem_singleton] at h; rw [h]; exact hnb32
        · simp only [Bio.wstream, Bio.wpos, bio_reset_after_flush, hp4]
          rw [take_set_succ _ _ _ hin, streamVal_append, List.length_take,
            Nat.min_eq_left hlen]
          simp only [streamVal, Nat.pow_add]
          ring
        · simp only [Bio.wpos, bio_reset_after_flush, hp4]; omega
        · simp [bio_reset_after_flush]
        · simp only [bio_reset_after_flush, hp4]
          exact drop_set_succ _ _ _
    · intro hcap
      have hin : ¬ bio.ptr / 4 < bio.buf.length := by omega
      simp only [bio_flush_if_full, h32, if_true, bio_flush_buffer, hin, if_false,
        Option.map_none']

/-! ## What the write primitives append -/

theorem wspec_some {r : Option Bio} {bio bio1 : Bio} {x n : Nat} (h : WSpec r bio x n)
    (hr : r = some bio1) : (bio.wpos + n) / 32 ≤ bio.buf.length ∧ Appends bio bio1 x n := by
  by_cases hc : (bio.wpos + n) / 32 ≤ bio.buf.length
  · obtain ⟨b, hb, ha⟩ := h.1 hc
    rw [hr] at hb
    cases hb
    exact ⟨hc, ha⟩
  · rw [h.2 hc] at hr; cases hr

theorem wspec_bind {r1 : Option Bio} {f : Bio → Option Bio} {bio : Bio} {x n y m : Nat}
    (_h0 : WriteOk bio) (h1 : WSpec r1 bio x n)
    (h2 : ∀ bio1, r1 = some bio1 → Appends bio bio1 x n → WSpec (f bio1) bio1 y m) :
    WSpec (r1.bind f) bio (x + 2 ^ n * y) (n + m) := by
  by_cases hc1 : (bio.wpos + n) / 32 ≤ bio.buf.length
  · obtain ⟨bio1, hr, ha⟩ := h1.1 hc1
    have h3 := h2 bio1 hr ha
    have hp : bio1.wpos + m = bio.wpos + (n + m) := by rw [ha.2.2.1]; omega
    have hl : bio1.buf.length = bio.buf.length := ha.2.2.2.1
    subst hr
    constructor
    · intro hc
      obtain ⟨bio2, hr2, ha2⟩ := h3.1 (by rw [hp, hl]; exact hc)
      exact ⟨bio2, by simpa using hr2, appends_trans ha ha2⟩
    · intro hc
      simpa using h3.2 (by rw [hp, hl]; exact hc)
  · have hr := h1.2 hc1
    subst hr
    constructor
    · intro hc
      exact absurd (Nat.le_trans (Nat.div_le_div_right (by omega)) hc) hc1
    · intro _; rfl

theorem wspec_congr {r : Option Bio} {bio : Bio} {x y n m : Nat} (h : WSpec r bio x n)
    (hx : x = y) (hn : n = m) : WSpec r bio y m := by
  subst hx; subst hn; exact h

theorem wspec_nil (bio : Bio) (h : WriteOk bio) : WSpec (some bio) bio 0 0 := by
  have hc := h.2.2.1
  constructor
  · intro _; exact ⟨bio, rfl, appends_refl bio h⟩
  · intro hn; exfalso; apply hn; have := h.2.2.2.2.1; unfold Bio.wpos; omega

theorem minsize_eq (a b : Nat) : minsize a b = min a b := by
  unfold minsize; split <;> omega

theorem write_zero_bits_loop_spec (fuel : Nat) :
    ∀ (n : Nat) (bio : Bio), n ≤ fuel → WriteOk bio →
      WSpec (bio_write_zero_bits_loop fuel bio n) bio 0 n := by
  induction fuel with
  | zero =>
    intro n bio hn hok
    have : n = 0 := by omega
    subst this
    simpa [bio_write_zero_bits_loop] using wspec_nil bio hok
  | succ fuel ih =>
    intro n bio hn hok
    cases n with
    | zero => simpa [bio_write_zero_bits_loop] using wspec_nil bio hok
    | succ n =>
      have hc : bio.c < 32 := hok.2.2.1
      have hm1 : 1 ≤ minsize (32 - bio.c) (n + 1) := by rw [minsize_eq]; omega
      have hm2 : bio.c + minsize (32 - bio.c) (n + 1) ≤ 32 := by rw [minsize_eq]; omega
      have hm3 : minsize (32 - bio.c) (n + 1) ≤ n + 1 := by rw [minsize_eq]; omega
      generalize hmdef : minsize (32 - bio.c) (n + 1) = m at hm1 hm2 hm3
      have hstep := flush_if_full_spec bio 0 m hok hm2 (Nat.two_pow_pos _)
      have heq : ({ bio with b := bio.b + 2 ^ bio.c * 0, c := bio.c + m } : Bio)
          = { bio with c := bio.c + m } := by simp
      rw [heq] at hstep
      have hb := wspec_bind (f := fun b1 => bio_write_zero_bits_loop fuel b1 (n + 1 - m))
        hok hstep (fun bio1 _ ha => ih (n + 1 - m) bio1 (by omega) ha.1)
      have hgoal : bio_write_zero_bits_loop (fuel + 1) bio (n + 1)
          = (bio_flush_if_full { bio with c := bio.c + m }).bind
              (fun b1 => bio_write_zero_bits_loop fuel b1 (n + 1 - m)) := by
        simp only [bio_write_zero_bits_loop, hc, if_true, hmdef, ge_iff_le, hm2]
        cases bio_flush_if_full { bio with c := bio.c + m } <;> rfl
      rw [hgoal]
      exact wspec_congr hb (by simp) (by omega)

theorem write_zero_bits_spec (bio : Bio) (n : Nat) (hn : n ≤ 32) (hok : WriteOk bio) :
    WSpec (bio_write_zero_bits bio n) bio 0 n := by
  simp only [bio_write_zero_bits, hn, if_true]
  exact write_zero_bits_loop_spec n n bio (Nat.le_refl _) hok

theorem write_bits_loop_spec (S : ShiftSem) (fuel : Nat) :
    ∀ (n : Nat) (bio : Bio) (v : Nat), n ≤ fuel → n ≤ 32 → WriteOk bio →
      WSpec (bio_write_bits_loop S fuel bio v n) bio (wval S bio.c v n) n := by
  induction fuel with
  | zero =>
    intro n bio v hn _ hok
    have : n = 0 := by omega
    subst this
    simpa [bio_write_bits_loop, wval, Nat.mod_one] using wspec_nil bio hok
  | succ fuel ih =>
    intro n bio v hn hn32 hok
    cases n with
    | zero => simpa [bio_write_bits_loop, wval, Nat.mod_one] using wspec_nil bio hok
    | succ n =>
      have hc : bio.c < 32 := hok.2.2.1
      have hbb : bio.b < 2 ^ bio.c := hok.2.2.2.1
      have hm0 : minsize (32 - bio.c) (n + 1) = min (32 - bio.c) (n + 1) := minsize_eq _ _
      have hm1 : 1 ≤ minsize (32 - bio.c) (n + 1) := by rw [minsize_eq]; omega
      have hm2 : bio.c + minsize (32 - bio.c) (n + 1) ≤ 32 := by rw [minsize_eq]; omega
      have hm3 : minsize (32 - bio.c) (n + 1) ≤ n + 1 := by rw [minsize_eq]; omega
      generalize hmdef : minsize (32 - bio.c) (n + 1) = m at hm0 hm1 hm2 hm3
      -- the chunk this pass appends
      have hxlt : v &&& mask32 S m < 2 ^ m := by
        rw [and_mask32 S v m (by omega)]
        split
        · exact Nat.two_pow_pos _
        · exact Nat.mod_lt _ (Nat.two_pow_pos _)
      have hor := or_shl32 S bio.b (v &&& mask32 S m) bio.c m hbb hxlt hm2 hc
      have hstep := flush_if_full_spec bio (v &&& mask32 S m) m hok hm2 hxlt
      rw [← hor] at hstep
      have hb := wspec_bind
        (f := fun b1 => bio_write_bits_loop S fuel b1 (shr32 S v m) (n + 1 - m))
        (y := shr32 S v m % 2 ^ (n + 1 - m)) hok hstep
        (fun bio1 _ ha => wspec_congr
          (ih (n + 1 - m) bio1 (shr32 S v m) (by omega) (by omega) ha.1)
          (by unfold wval; rw [if_neg (by omega)]) rfl)
      have hgoal : bio_write_bits_loop S (fuel + 1) bio v (n + 1)
          = (bio_flush_if_full
              { bio with b := bio.b ||| shl32 S (v &&& mask32 S m) bio.c, c := bio.c + m }).bind
              (fun b1 => bio_write_bits_loop S fuel b1 (shr32 S v m) (n + 1 - m)) := by
        simp only [bio_write_bits_loop, hc, if_true, hmdef, ge_iff_le, hm2]
        cases bio_flush_if_full
          { bio with b := bio.b ||| shl32 S (v &&& mask32 S m) bio.c, c := bio.c + m } <;> rfl
      rw [hgoal]
      refine wspec_congr hb ?_ (by omega)
      rcases Nat.lt_or_ge m 32 with hlt | hge
      · rw [and_mask32_lt S v m hlt, shr32_lt S v m hlt, mod_pow_split]
        unfold wval
        rw [if_neg (by omega), show m + (n + 1 - m) = n + 1 by omega]
      · have hm32 : m = 32 := by omega
        have hn31 : n + 1 = 32 := by omega
        have hc0 : bio.c = 0 := by omega
        subst hm32
        rw [and_mask32 S v 32 (Nat.le_refl _), hn31, hc0]
        unfold wval
        simp [Nat.mod_one]

theorem write_bits_spec (S : ShiftSem) (bio : Bio) (v n : Nat) (hn : n ≤ 32)
    (hok : WriteOk bio) : WSpec (bio_write_bits S bio v n) bio (wval S bio.c v n) n := by
  simp only [bio_write_bits, hn, if_true]
  exact write_bits_loop_spec S n n bio v (Nat.le_refl _) hn hok

theorem put_nonzero_bit_spec (S : ShiftSem) (bio : Bio) (hok : WriteOk bio) :
    WSpec (bio_put_nonzero_bit S bio) bio 1 1 := by
  have hc : bio.c < 32 := hok.2.2.1
  have hor := or_shl32 S bio.b 1 bio.c 1 hok.2.2.2.1 (by decide) (by omega) hc
  have hstep := flush_if_full_spec bio 1 1 hok (by omega) (by decide)
  rw [← hor] at hstep
  simpa only [bio_put_nonzero_bit, hc, if_true] using hstep

/-- The `while (N > 32)` loop of `bio_write_unary` and the call of
`bio_write_zero_bits` that follows it write `N` zero bits. -/
theorem write_unary_zeros_spec (fuel : Nat) :
    ∀ (N : Nat) (bio : Bio), N / 32 ≤ fuel → WriteOk bio →
      WSpec ((bio_write_unary_loop fuel bio N).bind
        (fun r => bio_write_zero_bits r.1 r.2)) bio 0 N := by
  induction fuel with
  | zero =>
    intro N bio hN hok
    have h32 : ¬ N > 32 := by omega
    simp only [bio_write_unary_loop, h32, if_false, Option.some_bind]
    exact write_zero_bits_spec bio N (by omega) hok
  | succ fuel ih =>
    intro N bio hN hok
    by_cases h32 : N > 32
    · have hb := wspec_bind
        (f := fun b1 => (bio_write_unary_loop fuel b1 (N - 32)).bind
          (fun r => bio_write_zero_bits r.1 r.2))
        hok (write_zero_bits_spec bio 32 (Nat.le_refl _) hok)
        (fun bio1 _ ha => ih (N - 32) bio1 (by omega) ha.1)
      have hgoal : (bio_write_unary_loop (fuel + 1) bio N).bind
            (fun r => bio_write_zero_bits r.1 r.2)
          = (bio_write_zero_bits bio 32).bind (fun b1 =>
              (bio_write_unary_loop fuel b1 (N - 32)).bind
                (fun r => bio_write_zero_bits r.1 r.2)) := by
        simp only [bio_write_unary_loop, h32, if_true]
        cases bio_write_zero_bits bio 32 <;> rfl
      rw [hgoal]
      exact wspec_congr hb (by simp) (by omega)
    · simp only [bio_write_unary_loop, h32, if_false, Option.some_bind]
      exact write_zero_bits_spec bio N (by omega) hok

theorem write_unary_spec (S : ShiftSem) (bio : Bio) (N : Nat) (hok : WriteOk bio) :
    WSpec (bio_write_unary S bio N) bio (2 ^ N) (N + 1) := by
  have hb := wspec_bind (f := fun b2 => bio_put_nonzero_bit S b2) hok
    (write_unary_zeros_spec (N / 32) N bio (Nat.le_refl _) hok)
    (fun bio1 _ ha => put_nonzero_bit_spec S bio1 ha.1)
  have hgoal : bio_write_unary S bio N
      = ((bio_write_unary_loop (N / 32) bio N).bind
          (fun r => bio_write_zero_bits r.1 r.2)).bind (fun b2 => bio_put_nonzero_bit S b2) := by
    unfold bio_write_unary
    rcases bio_write_unary_loop (N / 32) bio N with _ | ⟨b1, N1⟩
    · rfl
    · simp only [Option.some_bind]
      cases bio_write_zero_bits b1 N1 <;> rfl
  rw [hgoal]
  exact wspec_congr hb (by simp) rfl

theorem write_gr_spec (S : ShiftSem) (bio : Bio) (k N : Nat) (hk : k ≤ 32)
    (hok : WriteOk bio) :
    WSpec (bio_write_gr S bio k N) bio (WOp.val S bio.c (WOp.gr k N)) (WOp.len S (WOp.gr k N)) := by
  have hb := wspec_bind (f := fun b1 => bio_write_bits S b1 N k)
    (y := wval S ((bio.c + shr32 S N k + 1) % 32) N k) hok
    (write_unary_spec S bio (shr32 S N k) hok)
    (fun bio1 _ ha => by
      have hc1 : bio1.c = (bio.c + shr32 S N k + 1) % 32 := by
        have h3 := ha.2.2.1
        have hc := ha.1.2.2.1
        unfold Bio.wpos at h3
        omega
      rw [← hc1]
      exact write_bits_spec S bio1 N k hk ha.1)
  have hgoal : bio_write_gr S bio k N
      = (bio_write_unary S bio (shr32 S N k)).bind (fun b1 => bio_write_bits S b1 N k) := by
    unfold bio_write_gr
    simp only [hk, if_true]
    cases bio_write_unary S bio (shr32 S N k) <;> rfl
  rw [hgoal]
  exact hb

theorem wop_run_spec (S : ShiftSem) (bio : Bio) (op : WOp) (hv : op.valid)
    (hok : WriteOk bio) : WSpec (op.run S bio) bio (op.val S bio.c) (op.len S) := by
  cases op with
  | bits b n => exact write_bits_spec S bio b n hv hok
  | zero_bits n => exact write_zero_bits_spec bio n hv hok
  | nonzero_bit => exact put_nonzero_bit_spec S bio hok
  | unary N => exact write_unary_spec S bio N hok
  | gr k N => exact write_gr_spec S bio k N hv.1 hok

theorem wpos_mod (bio : Bio) (h : bio.c < 32) : bio.wpos % 32 = bio.c := by
  unfold Bio.wpos; omega

theorem runW_spec (S : ShiftSem) (ops : List WOp) :
    ∀ (bio : Bio), (∀ op ∈ ops, op.valid) → WriteOk bio →
      WSpec (runW S ops bio) bio (encode S bio.wpos ops) (bitsLen S ops) := by
  induction ops with
  | nil => intro bio _ hok; exact wspec_nil bio hok
  | cons op ops ih =>
    intro bio hv hok
    have hb := wspec_bind (f := fun b1 => runW S ops b1)
      (y := encode S (bio.wpos + op.len S) ops) hok
      (wop_run_spec S bio op (hv op (List.mem_cons_self _ _)) hok)
      (fun bio1 _ ha => by
        rw [← ha.2.2.1]
        exact ih bio1 (fun o ho => hv o (List.mem_cons_of_mem _ ho)) ha.1)
    have hgoal : runW S (op :: ops) bio = (op.run S bio).bind (fun b1 => runW S ops b1) := by
      simp only [runW]
      cases op.run S bio <;> rfl
    rw [hgoal]
    refine wspec_congr hb ?_ rfl
    simp only [encode, wpos_mod bio hok.2.2.1]

/-! ## What the read primitives deliver -/

theorem streamVal_getD (ws : List Nat) (h : ∀ w ∈ ws, w < 2 ^ 32) :
    ∀ i, i < ws.length → ws.getD i 0 = streamVal ws / 2 ^ (32 * i) % 2 ^ 32 := by
  induction ws with
  | nil => intro i hi; simp at hi
  | cons x xs ih =>
    intro i hi
    have hx := h x (List.mem_cons_self _ _)
    cases i with
    | zero =>
      simp only [List.getD_cons_zero, streamVal, Nat.mul_zero, Nat.pow_zero, Nat.div_one]
      rw [Nat.add_mul_mod_self_left, Nat.mod_eq_of_lt hx]
    | succ i =>
      have hi1 : i < xs.length := by simpa using hi
      simp only [List.getD_cons_succ, streamVal]
      rw [ih (fun w hw => h w (List.mem_cons_of_mem _ hw)) i hi1,
        show 32 * (i + 1) = 32 + 32 * i by ring, Nat.pow_add, ← Nat.div_div_eq_div_mul,
        Nat.add_mul_div_left _ _ (Nat.two_pow_pos 32), Nat.div_eq_of_lt hx, Nat.zero_add]

theorem get?_eq_getD (ws : List Nat) (i : Nat) (hi : i < ws.length) :
    ws.get? i = some (ws.getD i 0) := by
  rw [List.getD_eq_getElem?_getD, List.get?_eq_getElem?, List.getElem?_eq_getElem hi]
  rfl

theorem mod_pow_mod (x a s : Nat) (h : s ≤ a) : x % 2 ^ a % 2 ^ s = x % 2 ^ s :=
  Nat.mod_mod_of_dvd _ (Nat.pow_dvd_pow 2 h)

theorem mod_pow_div (x a s : Nat) (h : s ≤ a) : x % 2 ^ a / 2 ^ s = x / 2 ^ s % 2 ^ (a - s) := by
  have : 2 ^ a = 2 ^ s * 2 ^ (a - s) := by rw [← Nat.pow_add]; congr 1; omega
  rw [this, Nat.mod_mul_right_div_self]

theorem div_pow_add (x p s : Nat) : x / 2 ^ p / 2 ^ s = x / 2 ^ (p + s) := by
  rw [Nat.div_div_eq_div_mul, Nat.pow_add]

theorem reload_buffer_eq (bio : Bio) (hin : bio.ptr / 4 < bio.buf.length) :
    bio_reload_buffer bio
      = some { bio with b := bio.buf.getD (bio.ptr / 4) 0, ptr := bio.ptr + 4 } := by
  unfold bio_reload_buffer
  rw [get?_eq_getD _ _ hin]

/-- The `reload?` block leaves a buffer whose accumulator holds the rest of
the current word. -/
theorem reload_if_empty_spec (bio : Bio) (hok : ReadOk bio)
    (hcap : bio.rpos < 32 * bio.buf.length) :
    ∃ bio1, bio_reload_if_empty bio = some bio1 ∧ ReadOk bio1 ∧ bio1.c < 32 ∧
      bio1.rpos = bio.rpos ∧ bio1.buf = bio.buf ∧ 1 ≤ bio1.ptr / 4 ∧
      bio1.rpos % 32 = bio1.c ∧ bio1.rpos + 32 = 32 * (bio1.ptr / 4) + bio1.c ∧
      bio1.b = streamVal bio.buf / 2 ^ bio.rpos % 2 ^ (32 - bio1.c) := by
  obtain ⟨hptr, hc, hlen, hw, hb⟩ := hok
  by_cases h32 : bio.c = 32
  · have hr : bio.rpos = 32 * (bio.ptr / 4) := by unfold Bio.rpos; omega
    have hin : bio.ptr / 4 < bio.buf.length := by omega
    have hp4 : (bio.ptr + 4) / 4 = bio.ptr / 4 + 1 := by omega
    refine ⟨{ bio with b := bio.buf.getD (bio.ptr / 4) 0, ptr := bio.ptr + 4, c := 0 },
      ?_, ?_, ?_, ?_, rfl, ?_, ?_, ?_, ?_⟩
    · simp only [bio_reload_if_empty, h32, if_true, reload_buffer_eq bio hin, Option.map_some']
    · refine ⟨by simp only; omega, by simp, by simp only [hp4]; omega, hw, fun _ => ⟨?_, ?_⟩⟩
      · simp only [hp4]; omega
      · simp only [Bio.rpos, hp4]
        rw [streamVal_getD _ hw _ hin]
        congr 2
    · simp
    · simp only [Bio.rpos, hp4]; omega
    · simp only [hp4]; omega
    · simp only [Bio.rpos, hp4]; omega
    · simp only [Bio.rpos, hp4]; omega
    · simp only
      rw [streamVal_getD _ hw _ hin, hr]
  · have hlt : bio.c < 32 := by omega
    obtain ⟨h1, h2⟩ := hb hlt
    refine ⟨bio, ?_, ⟨hptr, hc, hlen, hw, hb⟩, hlt, rfl, rfl, h1, ?_, ?_, h2⟩
    · simp [bio_reload_if_empty, h32]
    · unfold Bio.rpos; omega
    · unfold Bio.rpos; omega

theorem read_bits_spec (S : ShiftSem) (bio : Bio) (n : Nat) (hn : n ≤ 32) (hok : ReadOk bio)
    (hcap : bio.rpos + n < 32 * bio.buf.length) :
    ∃ bio1, bio_read_bits S bio n = some (rval S (streamVal bio.buf) bio.rpos n, bio1) ∧
      ReadOk bio1 ∧ bio1.rpos = bio.rpos + n ∧ bio1.buf = bio.buf := by
  obtain ⟨bio1, hre, hok1, hc1, hp1, hbuf1, hw1, hpc1, hpw1, hb1⟩ :=
    reload_if_empty_spec bio hok (by omega)
  obtain ⟨hptr, -, hlen, hw, -⟩ := hok1
  rw [← hp1, ← hbuf1] at hcap ⊢
  rw [← hbuf1] at hb1
  rw [← hp1] at hb1
  have hs0 : minsize (32 - bio1.c) n = min (32 - bio1.c) n := minsize_eq _ _
  by_cases hfit : n ≤ 32 - bio1.c
  · -- the bits are all in the accumulator
    have hs : minsize (32 - bio1.c) n = n := by omega
    refine ⟨{ bio1 with b := shr32 S bio1.b n, c := bio1.c + n }, ?_, ?_, ?_, rfl⟩
    · simp only [bio_read_bits, hre, hs, Nat.sub_self, gt_iff_lt, Nat.lt_irrefl, if_false]
      congr 2
      rw [and_mask32 S bio1.b n hn]
      unfold rval
      by_cases hm : S = ShiftSem.modular ∧ n = 32
      · rw [if_pos hm, if_pos ⟨hm.1, hm.2, by omega⟩]
      · rw [if_neg hm, if_neg (fun h => hm ⟨h.1, h.2.1⟩), hb1, mod_pow_mod _ _ _ hfit]
    · refine ⟨hptr, by simp only; omega, hlen, hw, fun hlt => ⟨hw1, ?_⟩⟩
      have hn32 : n < 32 := by
        have hlt1 : bio1.c + n < 32 := hlt
        omega
      simp only [Bio.rpos] at hb1 ⊢
      rw [shr32_lt S _ _ hn32, hb1, mod_pow_div _ _ _ hfit, div_pow_add]
      have e1 : 32 * (bio1.ptr / 4) + bio1.c - 32 + n = 32 * (bio1.ptr / 4) + (bio1.c + n) - 32 := by
        omega
      have e2 : 32 - bio1.c - n = 32 - (bio1.c + n) := by omega
      rw [e1, e2]
    · simp only [Bio.rpos]; unfold Bio.rpos at hpw1; omega
  · -- the bits straddle two words
    have hs : minsize (32 - bio1.c) n = 32 - bio1.c := by omega
    have hin : bio1.ptr / 4 < bio1.buf.length := by omega
    have hp4 : (bio1.ptr + 4) / 4 = bio1.ptr / 4 + 1 := by omega
    have hn1 : n - (32 - bio1.c) < 32 := by omega
    have hs32 : 32 - bio1.c < 32 := by omega
    have hblt : bio1.b < 2 ^ (32 - bio1.c) := by
      rw [hb1]; exact Nat.mod_lt _ (Nat.two_pow_pos _)
    refine ⟨{ bio1 with b := shr32 S (bio1.buf.getD (bio1.ptr / 4) 0) (n - (32 - bio1.c)),
                        ptr := bio1.ptr + 4, c := 0 + (n - (32 - bio1.c)) }, ?_, ?_, ?_, rfl⟩
    · have hpos : n - (32 - bio1.c) > 0 := by omega
      have hc32 : bio1.c + (32 - bio1.c) = 32 := by omega
      have hrl := reload_buffer_eq
        { bio1 with b := shr32 S bio1.b (32 - bio1.c), c := 32 } hin
      simp only [bio_read_bits, hre, hs, hpos, if_true, hc32, hrl]
      congr 2
      rw [and_mask32_lt S _ _ hs32, and_mask32_lt S _ _ hn1,
        or_shl32 S _ _ (32 - bio1.c) (n - (32 - bio1.c)) (Nat.mod_lt _ (Nat.two_pow_pos _))
          (Nat.mod_lt _ (Nat.two_pow_pos _)) (by omega) hs32,
        Nat.mod_eq_of_lt hblt, hb1, streamVal_getD _ hw _ hin]
      unfold rval
      rw [if_neg (by omega), mod_pow_mod _ 32 _ (by omega)]
      have hpos2 : 32 * (bio1.ptr / 4) = bio1.rpos + (32 - bio1.c) := by omega
      rw [hpos2, ← div_pow_add, mod_pow_split]
      congr 2
      omega
    · refine ⟨by simp only; omega, by simp only; omega, by simp only [hp4]; omega, hw,
        fun _ => ⟨by simp only [hp4]; omega, ?_⟩⟩
      simp only [Bio.rpos, hp4]
      rw [shr32_lt S _ _ hn1, streamVal_getD _ hw _ hin, mod_pow_div _ _ _ (by omega),
        div_pow_add]
      have e1 : 32 * (bio1.ptr / 4) + (n - (32 - bio1.c))
          = 32 * (bio1.ptr / 4 + 1) + (0 + (n - (32 - bio1.c))) - 32 := by omega
      have e2 : 32 - (n - (32 - bio1.c)) = 32 - (0 + (n - (32 - bio1.c))) := by omega
      rw [e1, e2]
    · simp only [Bio.rpos, hp4]; unfold Bio.rpos at hpw1; omega

theorem ctz_loop_spec (N : Nat) :
    ∀ (fuel n : Nat), N < fuel → n % 2 ^ (N + 1) = 2 ^ N → ctz_loop fuel n = N := by
  induction N with
  | zero =>
    intro fuel n hf hn
    obtain ⟨f, rfl⟩ : ∃ f, fuel = f + 1 := ⟨fuel - 1, by omega⟩
    simp only [Nat.zero_add, Nat.pow_one, Nat.pow_zero] at hn
    simp [ctz_loop, hn]
  | succ N ih =>
    intro fuel n hf hn
    obtain ⟨f, rfl⟩ : ∃ f, fuel = f + 1 := ⟨fuel - 1, by omega⟩
    have h2 : n % 2 = 0 := by
      have := mod_pow_mod n (N + 1 + 1) 1 (by omega)
      rw [hn, Nat.pow_one] at this
      rw [← this, Nat.pow_succ, Nat.mul_mod_left]
    have h3 : n / 2 % 2 ^ (N + 1) = 2 ^ N := by
      have := mod_pow_div n (N + 1 + 1) 1 (by omega)
      rw [hn, Nat.pow_one, Nat.add_sub_cancel] at this
      rw [← this, Nat.pow_succ, Nat.mul_div_cancel _ (by decide)]
    simp only [ctz_loop, h2, Nat.zero_ne_one, if_false]
    rw [ih f (n / 2) (by omega) h3, Nat.add_comm]

theorem ctzu32_spec (b N : Nat) (hN : N < 32) (hb : b % 2 ^ (N + 1) = 2 ^ N) :
    ctzu32 b = N := by
  have hne : b ≠ 0 := by
    intro h0
    rw [h0, Nat.zero_mod] at hb
    exact absurd hb.symm (Nat.ne_of_gt (Nat.two_pow_pos N))
  simp only [ctzu32, hne, if_false]
  exact ctz_loop_spec N 32 b hN hb

theorem rpos_mod (bio : Bio) (hok : ReadOk bio) : bio.rpos % 32 = bio.c % 32 := by
  obtain ⟨-, hc, -, -, hb⟩ := hok
  unfold Bio.rpos
  by_cases h : bio.c < 32
  · have := (hb h).1; omega
  · omega

/-- The loop of `bio_get_zeros_and_drop_bit` counts the zero bits in front of
the next set bit, whatever number of words they span. -/
theorem get_zeros_loop_spec (S : ShiftSem) (fuel : Nat) :
    ∀ (N : Nat) (bio : Bio) (tz : Nat), ReadOk bio →
      streamVal bio.buf / 2 ^ bio.rpos % 2 ^ (N + 1) = 2 ^ N →
      bio.rpos + N + 1 ≤ 32 * bio.buf.length →
      (bio.rpos % 32 + N) / 32 + 1 ≤ fuel →
      ∃ bio1, bio_get_zeros_loop S fuel bio tz = some ((tz + N) % 2 ^ 32, bio1) ∧
        ReadOk bio1 ∧ bio1.c < 32 ∧ bio1.buf = bio.buf ∧ bio1.rpos = bio.rpos + N := by
  induction fuel with
  | zero => intro N bio tz _ _ _ hf; omega
  | succ fuel ih =>
    intro N bio tz hok hV hcap hf
    obtain ⟨bio1, hre, hok1, hc1, hp1, hbuf1, hw1, hpc1, hpw1, hb1⟩ :=
      reload_if_empty_spec bio hok (by omega)
    rw [← hp1] at hV hcap hf ⊢
    rw [← hbuf1] at hV hcap ⊢
    rw [← hbuf1, ← hp1] at hb1
    obtain ⟨hptr, -, hlen, hw, -⟩ := hok1
    by_cases hfit : N < 32 - bio1.c
    · -- the set bit is in the current word
      have hbN : bio1.b % 2 ^ (N + 1) = 2 ^ N := by
        rw [hb1, mod_pow_mod _ _ _ (by omega), hV]
      have hctz := ctzu32_spec bio1.b N (by omega) hbN
      have hs : minsize (32 - bio1.c) (ctzu32 bio1.b) = N := by
        rw [minsize_eq, hctz]; omega
      refine ⟨{ bio1 with b := shr32 S bio1.b N, c := bio1.c + N }, ?_, ?_, ?_, rfl, ?_⟩
      · have hne : bio1.c + N ≠ 32 := by omega
        simp only [bio_get_zeros_loop, hre, hs, hne, if_false]
      · refine ⟨hptr, by simp only; omega, hlen, hw, fun _ => ⟨hw1, ?_⟩⟩
        simp only [Bio.rpos] at hb1 ⊢
        rw [shr32_lt S _ _ (by omega), hb1, mod_pow_div _ _ _ (by omega), div_pow_add]
        have e1 : 32 * (bio1.ptr / 4) + bio1.c - 32 + N
            = 32 * (bio1.ptr / 4) + (bio1.c + N) - 32 := by omega
        have e2 : 32 - bio1.c - N = 32 - (bio1.c + N) := by omega
        rw [e1, e2]
      · show bio1.c + N < 32
        omega
      · simp only [Bio.rpos]; unfold Bio.rpos at hpw1; omega
    · -- the rest of the current word is zero
      have hb0 : bio1.b = 0 := by
        rw [hb1, ← mod_pow_mod _ (N + 1) _ (by omega), hV]
        exact Nat.mod_eq_zero_of_dvd (Nat.pow_dvd_pow 2 (by omega))
      have hs : minsize (32 - bio1.c) (ctzu32 bio1.b) = 32 - bio1.c := by
        rw [minsize_eq, hb0]; simp [ctzu32]
      have hc32 : bio1.c + (32 - bio1.c) = 32 := by omega
      have hok2 : ReadOk { bio1 with b := shr32 S bio1.b (32 - bio1.c), c := 32 } :=
        ⟨hptr, Nat.le_refl _, hlen, hw, fun h => absurd h (Nat.lt_irrefl _)⟩
      have hr2 : Bio.rpos { bio1 with b := shr32 S bio1.b (32 - bio1.c), c := 32 }
          = bio1.rpos + (32 - bio1.c) := by
        simp only [Bio.rpos]; unfold Bio.rpos at hpw1; omega
      have hV2 : streamVal bio1.buf / 2 ^ (bio1.rpos + (32 - bio1.c))
            % 2 ^ (N - (32 - bio1.c) + 1) = 2 ^ (N - (32 - bio1.c)) := by
        have := mod_pow_div (streamVal bio1.buf / 2 ^ bio1.rpos) (N + 1) (32 - bio1.c)
          (by omega)
        rw [hV, div_pow_add, Nat.pow_div (by omega) (by decide)] at this
        rw [this]
        congr 2
        omega
      obtain ⟨bio3, h3, hok3, hc3, hbuf3, hp3⟩ :=
        ih (N - (32 - bio1.c)) { bio1 with b := shr32 S bio1.b (32 - bio1.c), c := 32 }
          ((tz + (32 - bio1.c)) % 2 ^ 32) hok2 (by rw [hr2]; exact hV2)
          (by rw [hr2]; show _ ≤ 32 * bio1.buf.length; omega)
          (by rw [hr2]; omega)
      refine ⟨bio3, ?_, hok3, hc3, hbuf3, ?_⟩
      · simp only [bio_get_zeros_loop, hre, hs, hc32, if_true, h3]
        congr 2
        omega
      · rw [hp3, hr2]; omega

theorem read_unary_spec (S : ShiftSem) (bio : Bio) (N : Nat) (hN : N < 2 ^ 32)
    (hok : ReadOk bio) (hV : streamVal bio.buf / 2 ^ bio.rpos % 2 ^ (N + 1) = 2 ^ N)
    (hcap : bio.rpos + N + 1 ≤ 32 * bio.buf.length) :
    ∃ bio1, bio_read_unary S bio = some (N, bio1) ∧ ReadOk bio1 ∧
      bio1.rpos = bio.rpos + (N + 1) ∧ bio1.buf = bio.buf := by
  have hfuel : (bio.rpos % 32 + N) / 32 + 1 ≤ bio.buf.length + 1 - bio.ptr / 4 := by
    have hm := rpos_mod bio hok
    obtain ⟨-, hc, hlen, -, hb⟩ := hok
    unfold Bio.rpos at hcap hm ⊢
    by_cases h : bio.c < 32
    · have := (hb h).1; omega
    · omega
  obtain ⟨bio1, h1, hok1, hc1, hbuf1, hp1⟩ :=
    get_zeros_loop_spec S _ N bio 0 hok hV hcap hfuel
  obtain ⟨hptr, -, hlen, hw, hb⟩ := hok1
  obtain ⟨hw1, hb1⟩ := hb hc1
  refine ⟨{ bio1 with b := shr32 S bio1.b 1, c := bio1.c + 1 }, ?_, ?_, ?_, hbuf1⟩
  · simp only [bio_read_unary, bio_get_zeros_and_drop_bit, h1, hc1, if_true, Nat.zero_add,
      Nat.mod_eq_of_lt hN]
  · refine ⟨hptr, by simp only; omega, hlen, hw, fun hlt => ⟨hw1, ?_⟩⟩
    have hlt1 : bio1.c + 1 < 32 := hlt
    simp only [Bio.rpos] at hb1 ⊢
    rw [shr32_lt S _ _ (by omega), hb1, mod_pow_div _ _ _ (by omega), div_pow_add]
    have e1 : 32 * (bio1.ptr / 4) + bio1.c - 32 + 1
        = 32 * (bio1.ptr / 4) + (bio1.c + 1) - 32 := by omega
    have e2 : 32 - bio1.c - 1 = 32 - (bio1.c + 1) := by omega
    rw [e1, e2]
  · simp only [Bio.rpos] at hp1 ⊢; omega

/-! ## The two branches of `ctzu32` agree -/

theorem ctz_lut_spec : ∀ t, t < 32 →
    ctz_lut.getD (((2 ^ t * 0x077CB531) % 2 ^ 32) >>> 27) 0 = t := by
  decide

/-- The expression `n & -n` keeps the lowest set bit of `n`. -/
theorem and_neg_eq_lowest_bit (t q : Nat) (h : 2 ^ (t + 1) * q + 2 ^ t < 2 ^ 32) :
    (2 ^ (t + 1) * q + 2 ^ t) &&& ((2 ^ 32 - (2 ^ (t + 1) * q + 2 ^ t)) % 2 ^ 32) = 2 ^ t := by
  have ht : t < 32 := by
    by_contra hge
    have h1 : (2 : Nat) ^ 32 ≤ 2 ^ t := Nat.pow_le_pow_right (by decide) (by omega)
    omega
  have hpos : 0 < 2 ^ t := Nat.two_pow_pos t
  have hlt1 : 2 ^ t < 2 ^ (t + 1) := Nat.pow_lt_pow_right (by decide) (Nat.lt_succ_self t)
  have hlt2 : 2 ^ t - 1 < 2 ^ (t + 1) := by omega
  have hx : 2 ^ (t + 1) * q + 2 ^ t = (2 ^ (t + 1) * q + (2 ^ t - 1)) + 1 := by omega
  rw [Nat.mod_eq_of_lt (by omega)]
  apply Nat.eq_of_testBit_eq
  intro i
  rw [Nat.testBit_and, Nat.testBit_mul_pow_two_add q hlt1 i]
  conv_lhs => rw [hx]
  rw [Nat.testBit_two_pow_sub_succ (by omega), Nat.testBit_mul_pow_two_add q hlt2 i,
    Nat.testBit_two_pow, Nat.testBit_two_pow_sub_one]
  by_cases h1 : i < t + 1
  · simp only [h1, if_true]
    by_cases h2 : t = i
    · subst h2; simp [ht]
    · simp [h2]
  · have h2 : ¬ t = i := by omega
    simp only [h1, h2, if_false, decide_False]
    cases q.testBit (i - (t + 1)) <;> simp

/-- The portable branch of `ctzu32` (the table) returns what the
`__builtin_ctz` branch returns, on every `uint32`. -/
theorem ctzu32_lut_eq (n : Nat) (h : n < 2 ^ 32) : ctzu32_lut n = ctzu32 n := by
  by_cases h0 : n = 0
  · simp [h0, ctzu32_lut, ctzu32]
  · obtain ⟨t, m, hm, hn⟩ := Nat.exists_eq_two_pow_mul_odd h0
    obtain ⟨q, hq⟩ := hm
    have hn1 : n = 2 ^ (t + 1) * q + 2 ^ t := by rw [hn, hq, Nat.pow_succ]; ring
    have ht : t < 32 := by
      by_contra hge
      have h1 : (2 : Nat) ^ 32 ≤ 2 ^ t := Nat.pow_le_pow_right (by decide) (by omega)
      omega
    have hmod : n % 2 ^ (t + 1) = 2 ^ t := by
      rw [hn1, Nat.mul_add_mod]
      exact Nat.mod_eq_of_lt (Nat.pow_lt_pow_right (by decide) (Nat.lt_succ_self t))
    rw [ctzu32_spec n t ht hmod]
    simp only [ctzu32_lut, h0, if_false]
    rw [hn1, and_neg_eq_lowest_bit t q (by rw [← hn1]; exact h)]
    exact ctz_lut_spec t ht

/-! ## Reading back what was written -/

theorem split_stream (x a b v e : Nat) (h : x % 2 ^ (a + b) = v + 2 ^ a * e) (hv : v < 2 ^ a) :
    x % 2 ^ a = v ∧ x / 2 ^ a % 2 ^ b = e := by
  constructor
  · have := mod_pow_mod x (a + b) a (by omega)
    rw [← this, h, Nat.add_mul_mod_self_left, Nat.mod_eq_of_lt hv]
  · have := mod_pow_div x (a + b) a (by omega)
    rw [Nat.add_sub_cancel_left] at this
    rw [← this, h, Nat.add_mul_div_left _ _ (Nat.two_pow_pos a), Nat.div_eq_of_lt hv,
      Nat.zero_add]

theorem shr32_le (S : ShiftSem) (x n : Nat) : shr32 S x n ≤ x := by
  unfold shr32
  rw [Nat.shiftRight_eq_div_pow]
  exact Nat.div_le_self _ _

/-- The expression `(Q << k) | r` puts a Golomb-Rice code back together. -/
theorem gr_join (S : ShiftSem) (c k N : Nat) (hk : k ≤ 32) (hN : N < 2 ^ 32) :
    shl32 S (shr32 S N k) k ||| wval S c N k = N := by
  rcases Nat.lt_or_ge k 32 with hlt | hge
  · have h1 : N / 2 ^ k * 2 ^ k ≤ N := Nat.div_mul_le_self _ _
    rw [shr32_lt S N k hlt, shl32_lt S _ k hlt, Nat.mod_eq_of_lt (by omega)]
    unfold wval
    rw [if_neg (by omega), Nat.mul_comm,
      ← Nat.mul_add_lt_is_or (Nat.mod_lt _ (Nat.two_pow_pos k)), Nat.div_add_mod]
  · have hk32 : k = 32 := by omega
    subst hk32
    cases S
    · have h1 : shr32 ShiftSem.modular N 32 = N := by
        simp [shr32, ShiftSem.count]
      have h2 : shl32 ShiftSem.modular N 32 = N := by
        simp only [shl32, ShiftSem.count, Nat.mod_self, Nat.shiftLeft_zero]
        exact Nat.mod_eq_of_lt hN
      rw [h1, h2]
      unfold wval
      split
      · simp
      · rw [Nat.mod_eq_of_lt hN, Nat.or_self]
    · have h1 : shr32 ShiftSem.flushing N 32 = 0 := by
        simp only [shr32, ShiftSem.count, Nat.shiftRight_eq_div_pow]
        exact Nat.div_eq_of_lt hN
      have h2 : shl32 ShiftSem.flushing 0 32 = 0 := by
        simp [shl32, ShiftSem.count]
      rw [h1, h2]
      unfold wval
      rw [if_neg (by simp), Nat.mod_eq_of_lt hN, Nat.zero_or]

theorem rval_eq_wval (S : ShiftSem) (V p b n : Nat)
    (hV : V / 2 ^ p % 2 ^ n = wval S (p % 32) b n) : rval S V p n = wval S (p % 32) b n := by
  unfold rval
  split
  · rename_i h
    unfold wval
    rw [if_pos ⟨h.1, h.2.2, h.2.1⟩]
  · exact hV

theorem wop_val_lt (S : ShiftSem) (c : Nat) (op : WOp) : op.val S c < 2 ^ op.len S := by
  cases op with
  | bits b n => exact wval_lt S c b n
  | zero_bits n => exact Nat.two_pow_pos _
  | nonzero_bit => simp [WOp.val, WOp.len]
  | unary N => exact Nat.pow_lt_pow_right (by decide) (Nat.lt_succ_self N)
  | gr k N =>
    simp only [WOp.val, WOp.len]
    exact chunk_lt _ _ _ _ (Nat.pow_lt_pow_right (by decide) (Nat.lt_succ_self _))
      (wval_lt S _ N k)

theorem read_gr_spec (S : ShiftSem) (bio : Bio) (k N : Nat) (hk : k ≤ 32) (hN : N < 2 ^ 32)
    (hok : ReadOk bio)
    (hV : streamVal bio.buf / 2 ^ bio.rpos % 2 ^ (shr32 S N k + 1 + k)
      = WOp.val S (bio.rpos % 32) (WOp.gr k N))
    (hcap : bio.rpos + (shr32 S N k + 1 + k) < 32 * bio.buf.length) :
    ∃ bio1, bio_read_gr S bio k = some (N, bio1) ∧ ReadOk bio1 ∧
      bio1.rpos = bio.rpos + (shr32 S N k + 1 + k) ∧ bio1.buf = bio.buf := by
  simp only [WOp.val] at hV
  obtain ⟨hV1, hV2⟩ := split_stream _ _ _ _ _ hV
    (Nat.pow_lt_pow_right (by decide) (Nat.lt_succ_self _))
  obtain ⟨bio1, h1, hok1, hp1, hbuf1⟩ := read_unary_spec S bio (shr32 S N k)
    (Nat.lt_of_le_of_lt (shr32_le S N k) hN) hok hV1 (by omega)
  have hmod : (bio.rpos % 32 + shr32 S N k + 1) % 32 = bio1.rpos % 32 := by
    rw [hp1]; omega
  rw [div_pow_add, hmod, ← hp1, ← hbuf1] at hV2
  obtain ⟨bio2, h2, hok2, hp2, hbuf2⟩ := read_bits_spec S bio1 k hk hok1
    (by rw [hp1, hbuf1]; omega)
  rw [rval_eq_wval S _ _ N k hV2] at h2
  refine ⟨bio2, ?_, hok2, by rw [hp2, hp1]; omega, by rw [hbuf2, hbuf1]⟩
  simp only [bio_read_gr, h1, hk, if_true, h2, gr_join S _ k N hk hN]

theorem rop_run_spec (S : ShiftSem) (bio : Bio) (op : WOp) (hv : op.valid) (hok : ReadOk bio)
    (hV : streamVal bio.buf / 2 ^ bio.rpos % 2 ^ op.len S = op.val S (bio.rpos % 32))
    (hcap : bio.rpos + op.len S < 32 * bio.buf.length) :
    ∃ bio1, op.reader.run S bio = some (op.expect S bio.rpos, bio1) ∧ ReadOk bio1 ∧
      bio1.rpos = bio.rpos + op.len S ∧ bio1.buf = bio.buf := by
  cases op with
  | bits b n =>
    obtain ⟨bio1, h1, hok1, hp1, hbuf1⟩ := read_bits_spec S bio n hv hok hcap
    have hr := rval_eq_wval S _ _ b n hV
    rw [hr] at h1
    exact ⟨bio1, h1, hok1, hp1, hbuf1⟩
  | zero_bits n =>
    obtain ⟨bio1, h1, hok1, hp1, hbuf1⟩ := read_bits_spec S bio n hv hok hcap
    refine ⟨bio1, ?_, hok1, hp1, hbuf1⟩
    have hz : rval S (streamVal bio.buf) bio.rpos n = 0 := by
      unfold rval; split
      · rfl
      · exact hV
    rw [hz] at h1
    exact h1
  | nonzero_bit =>
    obtain ⟨bio1, h1, hok1, hp1, hbuf1⟩ := read_bits_spec S bio 1 (by decide) hok hcap
    refine ⟨bio1, ?_, hok1, hp1, hbuf1⟩
    have hz : rval S (streamVal bio.buf) bio.rpos 1 = 1 := by
      unfold rval
      rw [if_neg (by simp)]
      exact hV
    rw [hz] at h1
    exact h1
  | unary N =>
    obtain ⟨bio1, h1, hok1, hp1, hbuf1⟩ := read_unary_spec S bio N hv hok hV
      (by simp only [WOp.len] at hcap; omega)
    exact ⟨bio1, h1, hok1, hp1, hbuf1⟩
  | gr k N => exact read_gr_spec S bio k N hv.1 hv.2 hok hV hcap

theorem runR_spec (S : ShiftSem) (ops : List WOp) :
    ∀ (bio : Bio), (∀ op ∈ ops, op.valid) → ReadOk bio →
      streamVal bio.buf / 2 ^ bio.rpos % 2 ^ bitsLen S ops = encode S bio.rpos ops →
      bio.rpos + bitsLen S ops < 32 * bio.buf.length →
      ∃ bio1, runR S (ops.map WOp.reader) bio = some (expects S bio.rpos ops, bio1) ∧
        ReadOk bio1 ∧ bio1.rpos = bio.rpos + bitsLen S ops ∧ bio1.buf = bio.buf := by
  induction ops with
  | nil => intro bio _ hok _ _; exact ⟨bio, rfl, hok, rfl, rfl⟩
  | cons op ops ih =>
    intro bio hv hok hV hcap
    simp only [bitsLen, encode] at hV hcap
    obtain ⟨hV1, hV2⟩ := split_stream _ _ _ _ _ hV (wop_val_lt S _ op)
    obtain ⟨bio1, h1, hok1, hp1, hbuf1⟩ :=
      rop_run_spec S bio op (hv op (List.mem_cons_self _ _)) hok hV1 (by omega)
    rw [div_pow_add, ← hp1, ← hbuf1] at hV2
    obtain ⟨bio2, h2, hok2, hp2, hbuf2⟩ :=
      ih bio1 (fun o ho => hv o (List.mem_cons_of_mem _ ho)) hok1 hV2
        (by rw [hp1, hbuf1]; omega)
    refine ⟨bio2, ?_, hok2, by rw [hp2, hp1, bitsLen]; omega, by rw [hbuf2, hbuf1]⟩
    simp only [List.map_cons, runR, h1, h2, expects, hp1]

/-! ## Opening and closing -/

theorem open_write_eq (z : Bio) (buf : List Nat) :
    bio_open z buf Mode.BIO_MODE_WRITE
      = { mode := Mode.BIO_MODE_WRITE, ptr := 0, b := 0, c := 0, buf := buf } := rfl

theorem open_read_eq (z : Bio) (buf : List Nat) :
    bio_open z buf Mode.BIO_MODE_READ
      = { mode := Mode.BIO_MODE_READ, ptr := 0, b := z.b, c := 32, buf := buf } := rfl

theorem open_write_ok (z : Bio) (buf : List Nat) :
    WriteOk (bio_open z buf Mode.BIO_MODE_WRITE) := by
  rw [open_write_eq]
  refine ⟨rfl, by simp, by simp, by simp, by simp, ?_⟩
  intro w hw
  simp at hw

theorem open_write_wpos (z : Bio) (buf : List Nat) :
    (bio_open z buf Mode.BIO_MODE_WRITE).wpos = 0 := by
  simp [open_write_eq, Bio.wpos]

theorem open_write_wstream (z : Bio) (buf : List Nat) :
    (bio_open z buf Mode.BIO_MODE_WRITE).wstream = 0 := by
  simp [open_write_eq, Bio.wstream, streamVal]

theorem open_read_rpos (z : Bio) (buf : List Nat) :
    (bio_open z buf Mode.BIO_MODE_READ).rpos = 0 := by
  simp [open_read_eq, Bio.rpos]

theorem open_read_ok (z : Bio) (buf : List Nat) (h : ∀ w ∈ buf, w < 2 ^ 32) :
    ReadOk (bio_open z buf Mode.BIO_MODE_READ) := by
  rw [open_read_eq]
  exact ⟨by simp, by simp, by simp, h, fun hlt => absurd hlt (by simp)⟩

/-- A successful write call appends what `WOp.val` says, whatever its arguments. -/
theorem wop_run_some (S : ShiftSem) (bio bio1 : Bio) (op : WOp) (hok : WriteOk bio)
    (h : op.run S bio = some bio1) : Appends bio bio1 (op.val S bio.c) (op.len S) := by
  cases op with
  | bits b n =>
    by_cases hn : n ≤ 32
    · exact (wspec_some (write_bits_spec S bio b n hn hok) h).2
    · simp [WOp.run, bio_write_bits, hn] at h
  | zero_bits n =>
    by_cases hn : n ≤ 32
    · exact (wspec_some (write_zero_bits_spec bio n hn hok) h).2
    · simp [WOp.run, bio_write_zero_bits, hn] at h
  | nonzero_bit => exact (wspec_some (put_nonzero_bit_spec S bio hok) h).2
  | unary N => exact (wspec_some (write_unary_spec S bio N hok) h).2
  | gr k N =>
    by_cases hk : k ≤ 32
    · exact (wspec_some (write_gr_spec S bio k N hk hok) h).2
    · simp only [WOp.run, bio_write_gr, hk, if_false] at h
      cases hu : bio_write_unary S bio (shr32 S N k) <;> simp [hu] at h

/-- Every state reached by write calls satisfies the write invariant. -/
theorem runW_ok (S : ShiftSem) (ops : List WOp) :
    ∀ (bio bio1 : Bio), WriteOk bio → runW S ops bio = some bio1 → WriteOk bio1 := by
  induction ops with
  | nil => intro bio bio1 hok h; simp only [runW, Option.some.injEq] at h; rw [← h]; exact hok
  | cons op ops ih =>
    intro bio bio1 hok h
    simp only [runW] at h
    cases hr : op.run S bio with
    | none => simp [hr] at h
    | some b1 =>
      simp only [hr] at h
      exact ih b1 bio1 (wop_run_some S bio b1 op hok hr).1 h

theorem take_add_drop_streamVal (ws : List Nat) (k : Nat) (hk : k ≤ ws.length) :
    streamVal ws = streamVal (ws.take k) + 2 ^ (32 * k) * streamVal (ws.drop k) := by
  have h := streamVal_append (ws.take k) (ws.drop k)
  rw [List.take_append_drop, List.length_take, Nat.min_eq_left hk] at h
  exact h

/-- Closing a write-mode buffer leaves the stream in the words of the
buffer: `⌈wpos / 32⌉` of them. -/
theorem close_spec (bio : Bio) (hok : WriteOk bio)
    (hcap : (bio.wpos + 31) / 32 ≤ bio.buf.length) :
    ∃ bio1, bio_close bio = some bio1 ∧ bio1.ptr = 4 * ((bio.wpos + 31) / 32) ∧
      bio1.buf.length = bio.buf.length ∧
      streamVal (bio1.buf.take ((bio.wpos + 31) / 32)) = bio.wstream ∧
      (∀ w ∈ bio1.buf.take ((bio.wpos + 31) / 32), w < 2 ^ 32) ∧
      bio1.buf.drop ((bio.wpos + 31) / 32) = bio.buf.drop ((bio.wpos + 31) / 32) := by
  obtain ⟨hmode, hptr, hc, hb, hlen, hw⟩ := hok
  by_cases hc0 : bio.c = 0
  · have hq : (bio.wpos + 31) / 32 = bio.ptr / 4 := by unfold Bio.wpos; omega
    have hb0 : bio.b = 0 := by rw [hc0] at hb; simpa using hb
    rw [hq]
    refine ⟨bio, ?_, by omega, rfl, ?_, hw, rfl⟩
    · simp [bio_close, hc0]
    · simp [Bio.wstream, hb0]
  · have hq : (bio.wpos + 31) / 32 = bio.ptr / 4 + 1 := by unfold Bio.wpos; omega
    rw [hq] at hcap ⊢
    have hin : bio.ptr / 4 < bio.buf.length := by omega
    have hb32 : bio.b < 2 ^ 32 :=
      Nat.lt_of_lt_of_le hb (Nat.pow_le_pow_right (by decide) (by omega))
    refine ⟨{ bio with buf := bio.buf.set (bio.ptr / 4) bio.b, ptr := bio.ptr + 4 },
      ?_, ?_, ?_, ?_, ?_, ?_⟩
    · have : bio.c > 0 := by omega
      simp [bio_close, hmode, this, bio_flush_buffer, hin]
    · simp only; omega
    · simp
    · simp only
      rw [take_set_succ _ _ _ hin, streamVal_append, List.length_take, Nat.min_eq_left hlen]
      simp [Bio.wstream, streamVal]
    · simp only
      rw [take_set_succ _ _ _ hin]
      intro w hw1
      rcases List.mem_append.1 hw1 with h | h
      · exact hw w h
      · simp only [List.mem_singleton] at h; rw [h]; exact hb32
    · exact drop_set_succ _ _ _

/-- After the calls `ops` and `bio_close` the buffer spells the bits of `ops`. -/
theorem write_close_spec (S : ShiftSem) (z : Bio) (buf : List Nat) (ops : List WOp)
    (hbuf : ∀ w ∈ buf, w < 2 ^ 32) (hv : ∀ op ∈ ops, op.valid)
    (hcap : (bitsLen S ops + 31) / 32 ≤ buf.length) :
    ∃ w w1, runW S ops (bio_open z buf Mode.BIO_MODE_WRITE) = some w ∧
      bio_close w = some w1 ∧ w.wpos = bitsLen S ops ∧
      w1.ptr = 4 * ((bitsLen S ops + 31) / 32) ∧ w1.buf.length = buf.length ∧
      (∀ x ∈ w1.buf, x < 2 ^ 32) ∧
      w1.buf.drop ((bitsLen S ops + 31) / 32) = buf.drop ((bitsLen S ops + 31) / 32) ∧
      streamVal w1.buf % 2 ^ bitsLen S ops = encode S 0 ops := by
  have hok0 := open_write_ok z buf
  have hspec := runW_spec S ops (bio_open z buf Mode.BIO_MODE_WRITE) hv hok0
  rw [open_write_wpos] at hspec
  obtain ⟨w, hw, ha⟩ := hspec.1 (by
    rw [open_write_wpos, Nat.zero_add]
    exact Nat.le_trans (Nat.div_le_div_right (by omega)) hcap)
  obtain ⟨hok, hs, hp, hl, hd⟩ := ha
  rw [open_write_wstream, open_write_wpos, Nat.zero_add, Nat.pow_zero, Nat.one_mul] at hs
  rw [open_write_wpos, Nat.zero_add] at hp
  have hl0 : w.buf.length = buf.length := hl
  have hd0 : w.buf.drop (w.ptr / 4) = buf.drop (w.ptr / 4) := hd
  obtain ⟨w1, hc, hptr1, hl1, hs1, hw1, hd1⟩ := close_spec w hok (by rw [hp, hl0]; exact hcap)
  rw [hp] at hptr1 hs1 hw1 hd1
  have hK : (bitsLen S ops + 31) / 32 ≤ w1.buf.length := by rw [hl1, hl0]; exact hcap
  have hKp : w.ptr / 4 ≤ (bitsLen S ops + 31) / 32 := by
    have := hok.2.2.1
    unfold Bio.wpos at hp
    omega
  refine ⟨w, w1, hw, hc, hp, hptr1, by rw [hl1, hl0], ?_, ?_, ?_⟩
  · intro x hx
    rw [← List.take_append_drop ((bitsLen S ops + 31) / 32) w1.buf] at hx
    rcases List.mem_append.1 hx with h | h
    · exact hw1 x h
    · rw [hd1] at h
      obtain ⟨k, hk⟩ := Nat.exists_eq_add_of_le hKp
      rw [hk, ← List.drop_drop, hd0] at h
      exact hbuf x (List.mem_of_mem_drop (List.mem_of_mem_drop h))
  · obtain ⟨k, hk⟩ := Nat.exists_eq_add_of_le hKp
    rw [hd1, hk, ← List.drop_drop, ← List.drop_drop, hd0]
  · rw [take_add_drop_streamVal w1.buf _ hK, hs1, hs]
    have hlt : encode S 0 ops < 2 ^ bitsLen S ops := by
      have := hok.wstream_lt
      rw [hs, hp] at this
      exact this
    have hdvd : 2 ^ bitsLen S ops ∣ 2 ^ (32 * ((bitsLen S ops + 31) / 32)) :=
      Nat.pow_dvd_pow 2 (by omega)
    rw [Nat.add_mod, Nat.mod_eq_zero_of_dvd (Dvd.dvd.mul_right hdvd _), Nat.add_zero,
      Nat.mod_mod, Nat.mod_eq_of_lt hlt]

/-- Writing with `ops`, closing, and reading with the matching read calls
gives back what `expects` says. -/
theorem round_trip (S : ShiftSem) (z z1 : Bio) (buf : List Nat) (ops : List WOp)
    (hbuf : ∀ w ∈ buf, w < 2 ^ 32) (hv : ∀ op ∈ ops, op.valid)
    (hcap : bitsLen S ops < 32 * buf.length) :
    write_then_read S z z1 buf ops (ops.map WOp.reader) = some (expects S 0 ops) := by
  obtain ⟨w, w1, hw, hc, -, -, hl1, hx1, -, hs1⟩ :=
    write_close_spec S z buf ops hbuf hv (by omega)
  have hrok := open_read_ok z1 w1.buf hx1
  have hr0 : (bio_open z1 w1.buf Mode.BIO_MODE_READ).rpos = 0 := open_read_rpos z1 w1.buf
  have hb0 : (bio_open z1 w1.buf Mode.BIO_MODE_READ).buf = w1.buf := rfl
  obtain ⟨r, hr, -, -, -⟩ := runR_spec S ops (bio_open z1 w1.buf Mode.BIO_MODE_READ) hv hrok
    (by rw [hr0, hb0, Nat.pow_zero, Nat.div_one]; exact hs1)
    (by rw [hr0, hb0, hl1]; omega)
  rw [hr0] at hr
  simp only [write_then_read, hw, hc, hr]

/-! ## The claims about `bio.c` -/

theorem grOps_reader (items : List (Nat × Nat)) :
    (grOps items).map WOp.reader = items.map (fun it => ROp.gr it.1) := by
  simp [grOps, List.map_map, Function.comp_def, WOp.reader]

theorem grOps_expects (S : ShiftSem) (items : List (Nat × Nat)) :
    ∀ p, expects S p (grOps items) = items.map (fun it => it.2) := by
  induction items with
  | nil => intro p; rfl
  | cons it items ih =>
    intro p
    simp only [grOps, List.map_cons, expects, WOp.expect, List.cons.injEq, true_and]
    exact ih _

theorem grOps_valid (items : List (Nat × Nat)) (h : ∀ it ∈ items, it.1 ≤ 32 ∧ it.2 < 2 ^ 32) :
    ∀ op ∈ grOps items, op.valid := by
  intro op hop
  simp only [grOps, List.mem_map] at hop
  obtain ⟨it, hit, rfl⟩ := hop
  exact h it hit

/-- One write call and one read call: what `write_then_read` returning a
value says about the calls themselves. -/
theorem write_then_read_one (S : ShiftSem) (z z1 : Bio) (buf : List Nat) (wop : WOp) (rop : ROp)
    (v : Nat) (h : write_then_read S z z1 buf [wop] [rop] = some [v]) :
    ∃ w w1 r, wop.run S (bio_open z buf Mode.BIO_MODE_WRITE) = some w ∧
      bio_close w = some w1 ∧
      rop.run S (bio_open z1 w1.buf Mode.BIO_MODE_READ) = some (v, r) := by
  unfold write_then_read at h
  simp only [runW, runR] at h
  cases h1 : wop.run S (bio_open z buf Mode.BIO_MODE_WRITE) with
  | none => simp [h1] at h
  | some w =>
    simp only [h1] at h
    cases h2 : bio_close w with
    | none => simp [h2] at h
    | some w1 =>
      simp only [h2] at h
      cases h3 : rop.run S (bio_open z1 w1.buf Mode.BIO_MODE_READ) with
      | none => simp [h3] at h
      | some x =>
        obtain ⟨v1, r⟩ := x
        simp only [h3, Option.some.injEq, List.cons.injEq, and_true] at h
        exact ⟨w, w1, r, rfl, h2, by rw [h3, h]⟩

/-- C1 (Golomb-Rice round trip).  On either kind of target, with a buffer of
32-bit words that has room for one bit more than the codes take: writing
`bio_write_gr(k, N)` into a freshly opened buffer, closing it, opening the same
buffer for reading and calling `bio_read_gr(k)` returns `N`, for every
`k ≤ 32` and every 32-bit `N`; and any sequence of codes `(k_i, N_i)` written
back to back is read back in order, each with its `k_i`. -/
theorem gr_round_trip (S : ShiftSem) (z z1 : Bio) (buf : List Nat)
    (hbuf : ∀ w ∈ buf, w < 2 ^ 32) :
    (∀ k N, k ≤ 32 → N < 2 ^ 32 → shr32 S N k + 1 + k < 32 * buf.length →
      ∃ w w1 r, bio_write_gr S (bio_open z buf Mode.BIO_MODE_WRITE) k N = some w ∧
        bio_close w = some w1 ∧
        bio_read_gr S (bio_open z1 w1.buf Mode.BIO_MODE_READ) k = some (N, r)) ∧
    (∀ items : List (Nat × Nat), (∀ it ∈ items, it.1 ≤ 32 ∧ it.2 < 2 ^ 32) →
      bitsLen S (grOps items) < 32 * buf.length →
      write_then_read S z z1 buf (grOps items) (items.map (fun it => ROp.gr it.1))
        = some (items.map (fun it => it.2))) := by
  have hseq : ∀ items : List (Nat × Nat), (∀ it ∈ items, it.1 ≤ 32 ∧ it.2 < 2 ^ 32) →
      bitsLen S (grOps items) < 32 * buf.length →
      write_then_read S z z1 buf (grOps items) (items.map (fun it => ROp.gr it.1))
        = some (items.map (fun it => it.2)) := by
    intro items hv hcap
    have h := round_trip S z z1 buf (grOps items) hbuf (grOps_valid items hv) hcap
    rw [grOps_reader, grOps_expects] at h
    exact h
  refine ⟨fun k N hk hN hcap => ?_, hseq⟩
  exact write_then_read_one S z z1 buf (WOp.gr k N) (ROp.gr k) N
    (hseq [(k, N)] (by simpa using ⟨hk, hN⟩) (by simpa [grOps, bitsLen, WOp.len] using hcap))

theorem gr_round_trip_witness :
    (∀ w ∈ [7, 7], w < 2 ^ 32) ∧ 3 ≤ 32 ∧ 10 < 2 ^ 32 ∧
    shr32 ShiftSem.modular 10 3 + 1 + 3 < 32 * [7, 7].length ∧
    ∃ w w1 r, bio_write_gr ShiftSem.modular (bio_open bio0 [7, 7] Mode.BIO_MODE_WRITE) 3 10
        = some w ∧ bio_close w = some w1 ∧
      bio_read_gr ShiftSem.modular (bio_open bio0 w1.buf Mode.BIO_MODE_READ) 3 = some (10, r) :=
  ⟨by decide, by decide, by decide, by decide,
   (gr_round_trip ShiftSem.modular bio0 bio0 [7, 7] (by decide)).1 3 10
     (by decide) (by decide) (by decide)⟩

/-- C2 (unary round trip).  For every 32-bit `N`, on either kind of target
and with a buffer that holds the `N / 32 + 1` words of the code:
`bio_write_unary(N)` on a freshly opened buffer, `bio_close`, and
`bio_read_unary` on the same buffer opened for reading returns `N`, whatever
number of whole words the run of zeros spans. -/
theorem unary_round_trip (S : ShiftSem) (z z1 : Bio) (buf : List Nat) (N : Nat)
    (hbuf : ∀ w ∈ buf, w < 2 ^ 32) (hN : N < 2 ^ 32) (hcap : N / 32 < buf.length) :
    ∃ w w1 r, bio_write_unary S (bio_open z buf Mode.BIO_MODE_WRITE) N = some w ∧
      bio_close w = some w1 ∧
      bio_read_unary S (bio_open z1 w1.buf Mode.BIO_MODE_READ) = some (N, r) := by
  have hv : ∀ op ∈ [WOp.unary N], op.valid := by
    intro op hop
    simp only [List.mem_singleton] at hop
    rw [hop]; exact hN
  have hlen : bitsLen S [WOp.unary N] = N + 1 := by simp [bitsLen, WOp.len]
  obtain ⟨w, w1, hw, hc, -, -, hl1, hx1, -, hs1⟩ :=
    write_close_spec S z buf [WOp.unary N] hbuf hv (by rw [hlen]; omega)
  rw [hlen] at hs1
  have henc : encode S 0 [WOp.unary N] = 2 ^ N := by simp [encode, WOp.val, WOp.len]
  rw [henc] at hs1
  have hrok := open_read_ok z1 w1.buf hx1
  obtain ⟨r, hr, -, -, -⟩ := read_unary_spec S (bio_open z1 w1.buf Mode.BIO_MODE_READ) N hN hrok
    (by rw [open_read_rpos, Nat.pow_zero, Nat.div_one]; exact hs1)
    (by rw [open_read_rpos]; show _ ≤ 32 * w1.buf.length; rw [hl1]; omega)
  refine ⟨w, w1, r, ?_, hc, hr⟩
  simp only [runW, WOp.run] at hw
  cases hu : bio_write_unary S (bio_open z buf Mode.BIO_MODE_WRITE) N with
  | none => simp [hu] at hw
  | some w0 =>
    simp only [hu, Option.some.injEq] at hw
    rw [hw]

theorem unary_round_trip_witness :
    (∀ w ∈ [7, 7], w < 2 ^ 32) ∧ 33 < 2 ^ 32 ∧ 33 / 32 < [7, 7].length ∧
    ∃ w w1 r, bio_write_unary ShiftSem.modular (bio_open bio0 [7, 7] Mode.BIO_MODE_WRITE) 33
        = some w ∧ bio_close w = some w1 ∧
      bio_read_unary ShiftSem.modular (bio_open bio0 w1.buf Mode.BIO_MODE_READ) = some (33, r) :=
  ⟨by decide, by decide, by decide,
   unary_round_trip ShiftSem.modular bio0 bio0 [7, 7] 33 (by decide) (by decide) (by decide)⟩

theorem bitsOps_reader (items : List (Nat × Nat)) :
    (bitsOps items).map WOp.reader = items.map (fun it => ROp.bits it.2) := by
  simp [bitsOps, List.map_map, Function.comp_def, WOp.reader]

theorem bitsOps_valid (items : List (Nat × Nat)) (h : ∀ it ∈ items, it.2 ≤ 32) :
    ∀ op ∈ bitsOps items, op.valid := by
  intro op hop
  simp only [bitsOps, List.mem_map] at hop
  obtain ⟨it, hit, rfl⟩ := hop
  exact h it hit

theorem bitsOps_expects (S : ShiftSem) (items : List (Nat × Nat))
    (h : S = ShiftSem.flushing ∨ ∀ it ∈ items, it.2 ≤ 31) :
    ∀ p, expects S p (bitsOps items) = items.map (fun it => it.1 % 2 ^ it.2) := by
  induction items with
  | nil => intro p; rfl
  | cons it items ih =>
    intro p
    have hw : wval S (p % 32) it.1 it.2 = it.1 % 2 ^ it.2 := by
      unfold wval
      rw [if_neg]
      rintro ⟨hS, -, hn⟩
      rcases h with h | h
      · rw [h] at hS; cases hS
      · have := h it (List.mem_cons_self _ _); omega
    simp only [bitsOps, List.map_cons, expects, WOp.expect, hw, List.cons.injEq, true_and]
    exact ih (by
      rcases h with h | h
      · exact Or.inl h
      · exact Or.inr (fun x hx => h x (List.mem_cons_of_mem _ hx))) _

/-- Groups of raw bits written with `bio_write_bits` and read back with
`bio_read_bits` come back as `value mod 2 ^ n`, at any offset, when the target
shifts every bit out on a shift by 32, and on any target when no group has
more than 31 bits. -/
theorem bits_round_trip (S : ShiftSem) (z z1 : Bio) (buf : List Nat) (items : List (Nat × Nat))
    (hbuf : ∀ w ∈ buf, w < 2 ^ 32) (hn : ∀ it ∈ items, it.2 ≤ 32)
    (hS : S = ShiftSem.flushing ∨ ∀ it ∈ items, it.2 ≤ 31)
    (hcap : bitsLen S (bitsOps items) < 32 * buf.length) :
    write_then_read S z z1 buf (bitsOps items) (items.map (fun it => ROp.bits it.2))
      = some (items.map (fun it => it.1 % 2 ^ it.2)) := by
  have h := round_trip S z z1 buf (bitsOps items) hbuf (bitsOps_valid items hn) hcap
  rw [bitsOps_reader, bitsOps_expects S items hS] at h
  exact h

/-- C3, at the failing input.  On a target that reduces shift counts modulo
32, `bio_write_bits(0xFFFFFFFF, 32)` on a freshly opened buffer masks the
value with `((uint32)1 << 32) - 1 = 0` and flushes the word 0; `bio_close`
has nothing left to flush; and `bio_read_bits(32)` on the buffer opened for
reading masks the reloaded word the same way and returns 0, not `0xFFFFFFFF`. -/
theorem write_bits_32_aligned_lost :
    bio_write_bits ShiftSem.modular (bio_open bio0 [7, 7] Mode.BIO_MODE_WRITE) 0xFFFFFFFF 32
      = some { mode := Mode.BIO_MODE_WRITE, ptr := 4, b := 0, c := 0, buf := [0, 7] } ∧
    bio_close { mode := Mode.BIO_MODE_WRITE, ptr := 4, b := 0, c := 0, buf := [0, 7] }
      = some { mode := Mode.BIO_MODE_WRITE, ptr := 4, b := 0, c := 0, buf := [0, 7] } ∧
    bio_read_bits ShiftSem.modular (bio_open bio0 [0, 7] Mode.BIO_MODE_READ) 32
      = some (0, { mode := Mode.BIO_MODE_READ, ptr := 4, b := 0, c := 32, buf := [0, 7] }) ∧
    bio_read_bits ShiftSem.modular (bio_open bio0 [0xFFFFFFFF, 7] Mode.BIO_MODE_READ) 32
      = some (0, { mode := Mode.BIO_MODE_READ, ptr := 4, b := 0xFFFFFFFF, c := 32,
                   buf := [0xFFFFFFFF, 7] }) := by
  refine ⟨?_, ?_, ?_, ?_⟩ <;> decide

theorem getD_take (l : List Nat) (n i : Nat) (h : i < n) : (l.take n).getD i 0 = l.getD i 0 := by
  rw [List.getD_eq_getElem?_getD, List.getD_eq_getElem?_getD, List.getElem?_take_of_lt h]

theorem testBit_word (x i j : Nat) (hj : j / 32 = i) :
    (x / 2 ^ (32 * i) % 2 ^ 32).testBit (j % 32) = x.testBit j := by
  rw [Nat.testBit_mod_two_pow, ← Nat.shiftRight_eq_div_pow, Nat.testBit_shiftRight]
  have h1 : j % 32 < 32 := Nat.mod_lt _ (by decide)
  have h2 : 32 * i + j % 32 = j := by omega
  simp [h1, h2]

/-- Bit `j` of the logical stream is bit `j` of the number `wstream`. -/
theorem bit_eq_testBit (bio : Bio) (hok : WriteOk bio) (j : Nat) :
    bio.bit j = bio.wstream.testBit j := by
  obtain ⟨-, -, -, -, hlen, hw⟩ := hok
  have hlt := streamVal_lt _ hw
  rw [List.length_take, Nat.min_eq_left hlen] at hlt
  unfold Bio.bit Bio.wstream
  rw [Nat.add_comm, Nat.testBit_mul_pow_two_add _ hlt]
  by_cases hj : j / 32 < bio.ptr / 4
  · have hj1 : j < 32 * (bio.ptr / 4) := by omega
    rw [if_pos hj, if_pos hj1, ← getD_take _ _ _ hj,
      streamVal_getD _ hw _ (by rw [List.length_take, Nat.min_eq_left hlen]; exact hj),
      testBit_word _ _ _ rfl]
  · have hj1 : ¬ j < 32 * (bio.ptr / 4) := by omega
    rw [if_neg hj, if_neg hj1]

/-- C4 (unary code layout).  In any state reached from `bio_open` in write
mode by write calls, with room in the buffer for the words to flush,
`bio_write_unary(N)` moves the stream position on by `N + 1` bits, leaves
every earlier bit as it was, and makes the next `N` bits zero and the bit after
them one. -/
theorem write_unary_layout (S : ShiftSem) (z : Bio) (buf : List Nat) (ops : List WOp)
    (bio : Bio) (N : Nat)
    (hreach : runW S ops (bio_open z buf Mode.BIO_MODE_WRITE) = some bio)
    (hcap : (bio.wpos + (N + 1)) / 32 ≤ bio.buf.length) :
    ∃ bio1, bio_write_unary S bio N = some bio1 ∧ bio1.wpos = bio.wpos + (N + 1) ∧
      (∀ j, j < bio.wpos → bio1.bit j = bio.bit j) ∧
      (∀ j, bio.wpos ≤ j → j < bio.wpos + N → bio1.bit j = false) ∧
      bio1.bit (bio.wpos + N) = true := by
  have hok := runW_ok S ops _ bio (open_write_ok z buf) hreach
  obtain ⟨bio1, h1, hok1, hs, hp, -, -⟩ := (write_unary_spec S bio N hok).1 hcap
  have hbit : ∀ j, bio1.bit j
      = if j < bio.wpos then bio.bit j else decide (N = j - bio.wpos) := by
    intro j
    rw [bit_eq_testBit bio1 hok1, bit_eq_testBit bio hok, hs, Nat.add_comm,
      Nat.testBit_mul_pow_two_add _ hok.wstream_lt, Nat.testBit_two_pow]
  refine ⟨bio1, h1, hp, fun j hj => ?_, fun j hj1 hj2 => ?_, ?_⟩
  · rw [hbit, if_pos hj]
  · rw [hbit, if_neg (by omega)]
    exact decide_eq_false (by omega)
  · rw [hbit, if_neg (by omega)]
    exact decide_eq_true (by omega)

theorem write_unary_layout_witness :
    runW ShiftSem.modular [WOp.bits 5 3] (bio_open bio0 [7, 7] Mode.BIO_MODE_WRITE)
      = some { mode := Mode.BIO_MODE_WRITE, ptr := 0, b := 5, c := 3, buf := [7, 7] } ∧
    (Bio.wpos { mode := Mode.BIO_MODE_WRITE, ptr := 0, b := 5, c := 3, buf := [7, 7] }
      + (30 + 1)) / 32 ≤ [7, 7].length ∧
    ∃ bio1, bio_write_unary ShiftSem.modular
        { mode := Mode.BIO_MODE_WRITE, ptr := 0, b := 5, c := 3, buf := [7, 7] } 30 = some bio1 ∧
      bio1.wpos = 3 + (30 + 1) ∧
      (∀ j, j < 3 → bio1.bit j
        = Bio.bit { mode := Mode.BIO_MODE_WRITE, ptr := 0, b := 5, c := 3, buf := [7, 7] } j) ∧
      (∀ j, 3 ≤ j → j < 3 + 30 → bio1.bit j = false) ∧ bio1.bit (3 + 30) = true :=
  ⟨by decide, by decide,
   write_unary_layout ShiftSem.modular bio0 [7, 7] [WOp.bits 5 3]
     { mode := Mode.BIO_MODE_WRITE, ptr := 0, b := 5, c := 3, buf := [7, 7] } 30
     (by decide) (by decide)⟩

theorem raw_valid (ops : List WOp) (h : ∀ op ∈ ops, op.raw) : ∀ op ∈ ops, op.valid := by
  intro op hop
  have := h op hop
  cases op <;> first | exact this | exact this.elim

/-- C5 (flush boundary).  After `bio_open` in write mode and calls of
`bio_write_bits` and `bio_write_zero_bits`, each with `n ≤ 32`, that total `T`
bits, with room in the buffer for `T / 32` words: the cursor has advanced by
`4 * (T / 32)` bytes, one word per flush, the bit count is `T % 32`, the
accumulator holds only those `T % 32` carried bits (it is 0 when `T` is a
multiple of 32), and the words from the cursor on are untouched. -/
theorem flush_boundary (S : ShiftSem) (z : Bio) (buf : List Nat) (ops : List WOp)
    (hraw : ∀ op ∈ ops, op.raw) (hcap : bitsLen S ops / 32 ≤ buf.length) :
    ∃ bio, runW S ops (bio_open z buf Mode.BIO_MODE_WRITE) = some bio ∧
      bio.ptr = 4 * (bitsLen S ops / 32) ∧ bio.c = bitsLen S ops % 32 ∧
      bio.b < 2 ^ (bitsLen S ops % 32) ∧
      bio.buf.drop (bitsLen S ops / 32) = buf.drop (bitsLen S ops / 32) ∧
      bio.buf.length = buf.length := by
  have hspec := runW_spec S ops (bio_open z buf Mode.BIO_MODE_WRITE) (raw_valid ops hraw)
    (open_write_ok z buf)
  obtain ⟨bio, h1, hok, -, hp, hl, hd⟩ := hspec.1 (by
    rw [open_write_wpos, Nat.zero_add]; exact hcap)
  rw [open_write_wpos, Nat.zero_add] at hp
  obtain ⟨-, hptr, hc, hb, -, -⟩ := hok
  unfold Bio.wpos at hp
  have hq : bio.ptr / 4 = bitsLen S ops / 32 := by omega
  have hcm : bio.c = bitsLen S ops % 32 := by omega
  refine ⟨bio, h1, by omega, hcm, by rw [← hcm]; exact hb, ?_, hl⟩
  rw [← hq]
  exact hd

theorem flush_boundary_witness :
    (∀ op ∈ [WOp.bits 5 20, WOp.zero_bits 13], op.raw) ∧
    bitsLen ShiftSem.modular [WOp.bits 5 20, WOp.zero_bits 13] / 32 ≤ [7, 7].length ∧
    ∃ bio, runW ShiftSem.modular [WOp.bits 5 20, WOp.zero_bits 13]
        (bio_open bio0 [7, 7] Mode.BIO_MODE_WRITE) = some bio ∧
      bio.ptr = 4 * (bitsLen ShiftSem.modular [WOp.bits 5 20, WOp.zero_bits 13] / 32) ∧
      bio.c = bitsLen ShiftSem.modular [WOp.bits 5 20, WOp.zero_bits 13] % 32 ∧
      bio.b < 2 ^ (bitsLen ShiftSem.modular [WOp.bits 5 20, WOp.zero_bits 13] % 32) ∧
      bio.buf.drop (bitsLen ShiftSem.modular [WOp.bits 5 20, WOp.zero_bits 13] / 32)
        = [7, 7].drop (bitsLen ShiftSem.modular [WOp.bits 5 20, WOp.zero_bits 13] / 32) ∧
      bio.buf.length = [7, 7].length :=
  ⟨by simp [WOp.raw], by decide,
   flush_boundary ShiftSem.modular bio0 [7, 7] [WOp.bits 5 20, WOp.zero_bits 13]
     (by simp [WOp.raw]) (by decide)⟩

/-- C6 (`bio_close`).  In write mode with a bit count `c > 0` and the cursor
inside the buffer, `bio_close` stores the accumulator as the word under the
cursor and advances the cursor by 4; in write mode with `c = 0`, and in read
mode, it changes nothing.  So after write calls that total `T` bits and a
close, the cursor is `4 * ⌈T / 32⌉`: that many words were written, and the
words after them are untouched. -/
theorem close_flushes_last_word (S : ShiftSem) :
    (∀ bio : Bio, bio.mode = Mode.BIO_MODE_WRITE → bio.c > 0 → bio.ptr / 4 < bio.buf.length →
      bio_close bio
        = some { bio with buf := bio.buf.set (bio.ptr / 4) bio.b, ptr := bio.ptr + 4 }) ∧
    (∀ bio : Bio, bio.mode = Mode.BIO_MODE_READ ∨ bio.c = 0 → bio_close bio = some bio) ∧
    (∀ (z : Bio) (buf : List Nat) (ops : List WOp), (∀ op ∈ ops, op.valid) →
      (bitsLen S ops + 31) / 32 ≤ buf.length →
      ∃ w w1, runW S ops (bio_open z buf Mode.BIO_MODE_WRITE) = some w ∧
        bio_close w = some w1 ∧ w1.ptr = 4 * ((bitsLen S ops + 31) / 32) ∧
        w1.buf.length = buf.length ∧
        w1.buf.drop ((bitsLen S ops + 31) / 32) = buf.drop ((bitsLen S ops + 31) / 32)) := by
  refine ⟨fun bio hm hc hin => ?_, fun bio h => ?_, fun z buf ops hv hcap => ?_⟩
  · simp [bio_close, hm, hc, bio_flush_buffer, hin]
  · rcases h with h | h
    · simp [bio_close, h]
    · simp [bio_close, h]
  · have hok0 := open_write_ok z buf
    have hspec := runW_spec S ops (bio_open z buf Mode.BIO_MODE_WRITE) hv hok0
    obtain ⟨w, hw, hok, -, hp, hl, hd⟩ := hspec.1 (by
      rw [open_write_wpos, Nat.zero_add]
      exact Nat.le_trans (Nat.div_le_div_right (by omega)) hcap)
    rw [open_write_wpos, Nat.zero_add] at hp
    have hl0 : w.buf.length = buf.length := hl
    have hd0 : w.buf.drop (w.ptr / 4) = buf.drop (w.ptr / 4) := hd
    obtain ⟨w1, hc, hptr1, hl1, -, -, hd1⟩ := close_spec w hok (by rw [hp, hl0]; exact hcap)
    rw [hp] at hptr1 hd1
    have hKp : w.ptr / 4 ≤ (bitsLen S ops + 31) / 32 := by
      have := hok.2.2.1
      unfold Bio.wpos at hp
      omega
    refine ⟨w, w1, hw, hc, hptr1, by rw [hl1, hl0], ?_⟩
    obtain ⟨k, hk⟩ := Nat.exists_eq_add_of_le hKp
    rw [hd1, hk, ← List.drop_drop, ← List.drop_drop, hd0]

theorem close_flushes_last_word_witness :
    (bio_close { mode := Mode.BIO_MODE_WRITE, ptr := 4, b := 5, c := 3, buf := [7, 7] }
      = some { mode := Mode.BIO_MODE_WRITE, ptr := 8, b := 5, c := 3, buf := [7, 5] }) ∧
    (bio_close { mode := Mode.BIO_MODE_READ, ptr := 4, b := 5, c := 3, buf := [7, 7] }
      = some { mode := Mode.BIO_MODE_READ, ptr := 4, b := 5, c := 3, buf := [7, 7] }) ∧
    ∃ w w1, runW ShiftSem.modular [WOp.unary 32]
        (bio_open bio0 [7, 7, 7] Mode.BIO_MODE_WRITE) = some w ∧
      bio_close w = some w1 ∧ w1.ptr = 4 * ((bitsLen ShiftSem.modular [WOp.unary 32] + 31) / 32) ∧
      w1.buf.length = [7, 7, 7].length ∧
      w1.buf.drop ((bitsLen ShiftSem.modular [WOp.unary 32] + 31) / 32)
        = [7, 7, 7].drop ((bitsLen ShiftSem.modular [WOp.unary 32] + 31) / 32) :=
  ⟨(close_flushes_last_word ShiftSem.modular).1
      { mode := Mode.BIO_MODE_WRITE, ptr := 4, b := 5, c := 3, buf := [7, 7] }
      rfl (by decide) (by decide),
   (close_flushes_last_word ShiftSem.modular).2.1
      { mode := Mode.BIO_MODE_READ, ptr := 4, b := 5, c := 3, buf := [7, 7] } (Or.inl rfl),
   (close_flushes_last_word ShiftSem.modular).2.2 bio0 [7, 7, 7] [WOp.unary 32]
      (by simp [WOp.valid]) (by decide)⟩

/-! ## The rank table of `split.c` -/

theorem rd_set (f : List Nat) (i v k : Nat) :
    rd (f.set i v) k = if k = i ∧ i < f.length then v else rd f k := by
  unfold rd
  induction f generalizing i k with
  | nil => simp
  | cons a f ih =>
    cases i with
    | zero =>
      cases k with
      | zero => simp
      | succ k => simp
    | succ i =>
      cases k with
      | zero => simp
      | succ k =>
        simp only [List.set_cons_succ, List.getD_cons_succ, ih, List.length_cons]
        simp

theorem rd_swap (f : List Nat) (i j k : Nat) (hi : i < f.length) (hj : j < f.length) :
    rd (swap_freq f i j) k = if k = j then rd f i else if k = i then rd f j else rd f k := by
  unfold swap_freq
  simp only [rd_set, List.length_set, hi, hj, and_true]

theorem swap_freq_length (f : List Nat) (i j : Nat) : (swap_freq f i j).length = f.length := by
  simp [swap_freq]

theorem swap_freq_ok (f : List Nat) (i j : Nat) (hi : i < 256) (hj : j < 256) (h : FreqOk f) :
    FreqOk (swap_freq f i j) := by
  obtain ⟨hl, hv⟩ := h
  refine ⟨by rw [swap_freq_length, hl], fun k hk => ?_⟩
  rw [rd_swap f i j k (by omega) (by omega)]
  split
  · exact hv i hi
  · split
    · exact hv j hj
    · exact hv k hk

theorem rd_swap_perm (f : List Nat) (i j k : Nat) (hi : i < f.length) (hj : j < f.length) :
    rd (swap_freq f i j) k = rd f (if k = j then i else if k = i then j else k) := by
  rw [rd_swap f i j k hi hj]
  split
  · rfl
  · split <;> rfl

theorem swap_freq_injective (f : List Nat) (i j : Nat) (hi : i < 256) (hj : j < 256)
    (hl : f.length = 256) (h : Injective256 f) : Injective256 (swap_freq f i j) := by
  intro a ha b hb hab
  rw [rd_swap_perm f i j a (by omega) (by omega), rd_swap_perm f i j b (by omega) (by omega)]
  apply h
  · split
    · exact hi
    · split
      · exact hj
      · exact ha
  · split
    · exact hi
    · split
      · exact hj
      · exact hb
  · split <;> split <;> (try split) <;> (try split) <;> omega

theorem set_freq_ok (f : List Nat) (j v : Nat) (hv : v < 2 ^ 64) (h : FreqOk f) :
    FreqOk (f.set j v) := by
  obtain ⟨hl, hf⟩ := h
  refine ⟨by rw [List.length_set, hl], fun k hk => ?_⟩
  rw [rd_set]
  split
  · exact hv
  · exact hf k hk

theorem set_freq_injective (f : List Nat) (j v : Nat) (h : Injective256 f)
    (hfree : ∀ i, i < 256 → i ≠ j → rd f i ≠ v) : Injective256 (f.set j v) := by
  intro a ha b hb hab
  rw [rd_set, rd_set]
  by_cases h1 : a = j ∧ j < f.length <;> by_cases h2 : b = j ∧ j < f.length
  · omega
  · rw [if_pos h1, if_neg h2]; exact (hfree b hb (by omega)).symm
  · rw [if_neg h1, if_pos h2]; exact hfree a ha (by omega)
  · rw [if_neg h1, if_neg h2]; exact h a ha b hb hab

theorem inc_freq_find_some (j v : Nat) (xs : List Nat) :
    ∀ k i, inc_freq_find j v xs k = some i →
      k ≤ i ∧ i < k + xs.length ∧ i ≠ j ∧ xs.getD (i - k) 0 = v := by
  induction xs with
  | nil => intro k i h; simp [inc_freq_find] at h
  | cons x xs ih =>
    intro k i h
    simp only [inc_freq_find] at h
    split at h
    · rename_i hc
      simp only [Option.some.injEq] at h
      subst h
      simp [hc.1, hc.2]
    · obtain ⟨h1, h2, h3, h4⟩ := ih (k + 1) i h
      refine ⟨by omega, by simp only [List.length_cons]; omega, h3, ?_⟩
      have : i - k = (i - (k + 1)) + 1 := by omega
      rw [this, List.getD_cons_succ]
      exact h4

theorem inc_freq_find_none (j v : Nat) (xs : List Nat) :
    ∀ k, inc_freq_find j v xs k = none →
      ∀ i, k ≤ i → i < k + xs.length → i ≠ j → xs.getD (i - k) 0 ≠ v := by
  induction xs with
  | nil => intro k _ i h1 h2; simp at h2; omega
  | cons x xs ih =>
    intro k h i h1 h2 h3
    simp only [inc_freq_find] at h
    split at h
    · cases h
    · rename_i hc
      by_cases hik : i = k
      · subst hik
        simp only [Nat.sub_self, List.getD_cons_zero]
        intro hx
        exact hc ⟨h3, hx⟩
      · have : i - k = (i - (k + 1)) + 1 := by omega
        rw [this, List.getD_cons_succ]
        exact ih (k + 1) h i (by omega) (by simp only [List.length_cons] at h2; omega) h3

theorem find_some_spec (f : List Nat) (j v i : Nat) (hl : f.length = 256)
    (h : inc_freq_find j v (f.take 256) 0 = some i) : i < 256 ∧ i ≠ j ∧ rd f i = v := by
  rw [List.take_of_length_le (by omega)] at h
  obtain ⟨-, h2, h3, h4⟩ := inc_freq_find_some j v f 0 i h
  exact ⟨by omega, h3, h4⟩

theorem find_none_spec (f : List Nat) (j v : Nat) (hl : f.length = 256)
    (h : inc_freq_find j v (f.take 256) 0 = none) : ∀ i, i < 256 → i ≠ j → rd f i ≠ v := by
  rw [List.take_of_length_le (by omega)] at h
  intro i hi hij
  exact inc_freq_find_none j v f 0 h i (Nat.zero_le _) (by omega) hij

/-- Every table `inc_freq` passes through is a table of pairwise distinct
ranks, and so is the one it returns. -/
theorem inc_freq_fuel_inv (fuel : Nat) :
    ∀ (f : List Nat) (j : Nat), j < 256 → FreqOk f → Injective256 f →
      (∀ t ∈ inc_freq_trace fuel f j, FreqOk t ∧ Injective256 t) ∧
      (∀ g, inc_freq_fuel fuel f j = some g →
        FreqOk g ∧ Injective256 g ∧ g ∈ inc_freq_trace fuel f j) := by
  induction fuel with
  | zero =>
    intro f j _ _ _
    exact ⟨fun t ht => by simp [inc_freq_trace] at ht, fun g hg => by simp [inc_freq_fuel] at hg⟩
  | succ fuel ih =>
    intro f j hj hok hinj
    cases hfind : inc_freq_find j ((rd f j + 1) % 2 ^ 64) (f.take 256) 0 with
    | none =>
      have hfree := find_none_spec f j _ hok.1 hfind
      have hok1 := set_freq_ok f j ((rd f j + 1) % 2 ^ 64) (Nat.mod_lt _ (Nat.two_pow_pos 64)) hok
      have hinj1 := set_freq_injective f j ((rd f j + 1) % 2 ^ 64) hinj hfree
      simp only [inc_freq_trace, inc_freq_fuel, hfind, List.mem_singleton, Option.some.injEq]
      exact ⟨fun t ht => by rw [ht]; exact ⟨hok1, hinj1⟩,
        fun g hg => by rw [← hg]; exact ⟨hok1, hinj1, rfl⟩⟩
    | some i =>
      obtain ⟨hi, -, -⟩ := find_some_spec f j _ i hok.1 hfind
      have hok1 := swap_freq_ok f i j hi hj hok
      have hinj1 := swap_freq_injective f i j hi hj hok.1 hinj
      obtain ⟨ih1, ih2⟩ := ih (swap_freq f i j) j hj hok1 hinj1
      simp only [inc_freq_trace, inc_freq_fuel, hfind, List.mem_cons]
      refine ⟨fun t ht => ?_, fun g hg => ?_⟩
      · rcases ht with ht | ht
        · rw [ht]; exact ⟨hok1, hinj1⟩
        · exact ih1 t ht
      · obtain ⟨h1, h2, h3⟩ := ih2 g hg
        exact ⟨h1, h2, Or.inr h3⟩

theorem inc_freq_fuel_mono (fuel : Nat) :
    ∀ (f : List Nat) (j : Nat) (g : List Nat) (m : Nat), fuel ≤ m →
      inc_freq_fuel fuel f j = some g →
      inc_freq_fuel m f j = some g ∧ inc_freq_trace m f j = inc_freq_trace fuel f j := by
  induction fuel with
  | zero => intro f j g m _ h; simp [inc_freq_fuel] at h
  | succ fuel ih =>
    intro f j g m hm h
    obtain ⟨m1, rfl⟩ : ∃ m1, m = m1 + 1 := ⟨m - 1, by omega⟩
    cases hfind : inc_freq_find j ((rd f j + 1) % 2 ^ 64) (f.take 256) 0 with
    | none =>
      simp only [inc_freq_fuel, inc_freq_trace, hfind] at h ⊢
      exact ⟨h, trivial⟩
    | some i =>
      simp only [inc_freq_fuel, inc_freq_trace, hfind] at h ⊢
      obtain ⟨h1, h2⟩ := ih (swap_freq f i j) j g m1 (by omega) h
      exact ⟨h1, by rw [h2]⟩

/-- If the rank `t + 1` above that of `j` is free, `t + 1` nested calls of
`inc_freq` are enough. -/
theorem inc_freq_fuel_free (t : Nat) :
    ∀ (f : List Nat) (j : Nat), j < 256 → FreqOk f → t + 1 < 2 ^ 64 →
      (∀ i, i < 256 → i ≠ j → rd f i ≠ (rd f j + 1 + t) % 2 ^ 64) →
      ∃ g, inc_freq_fuel (t + 1) f j = some g := by
  induction t with
  | zero =>
    intro f j hj hok _ hfree
    cases hfind : inc_freq_find j ((rd f j + 1) % 2 ^ 64) (f.take 256) 0 with
    | none => exact ⟨f.set j ((rd f j + 1) % 2 ^ 64), by simp only [inc_freq_fuel, hfind]⟩
    | some i =>
      obtain ⟨hi, hij, hv⟩ := find_some_spec f j _ i hok.1 hfind
      exact absurd hv (hfree i hi hij)
  | succ t ih =>
    intro f j hj hok ht hfree
    cases hfind : inc_freq_find j ((rd f j + 1) % 2 ^ 64) (f.take 256) 0 with
    | none => exact ⟨f.set j ((rd f j + 1) % 2 ^ 64), by simp only [inc_freq_fuel, hfind]⟩
    | some i =>
      obtain ⟨hi, hij, hv⟩ := find_some_spec f j _ i hok.1 hfind
      have hok1 := swap_freq_ok f i j hi hj hok
      have hvj := hok.2 j hj
      have hrj : rd (swap_freq f i j) j = rd f i := by
        rw [rd_swap f i j j (by rw [hok.1]; exact hi) (by rw [hok.1]; exact hj), if_pos rfl]
      obtain ⟨g, hg⟩ := ih (swap_freq f i j) j hj hok1 (by omega) (by
        intro k hk hkj
        rw [hrj, hv, rd_swap f i j k (by rw [hok.1]; exact hi) (by rw [hok.1]; exact hj),
          if_neg hkj]
        have e : ((rd f j + 1) % 2 ^ 64 + 1 + t) % 2 ^ 64 = (rd f j + 1 + (t + 1)) % 2 ^ 64 := by
          omega
        rw [e]
        split
        · omega
        · exact hfree k hk hkj)
      exact ⟨g, by simp only [inc_freq_fuel, hfind]; exact hg⟩

/-- Among the 256 ranks above that of `j` one is free: the other 255 symbols
cannot hold them all. -/
theorem exists_free_rank (f : List Nat) (j : Nat) (hj : j < 256) :
    ∃ t, t < 256 ∧ ∀ i, i < 256 → i ≠ j → rd f i ≠ (rd f j + 1 + t) % 2 ^ 64 := by
  by_contra hcon
  have hall : ∀ t, t < 256 → ∃ i, i < 256 ∧ i ≠ j ∧ rd f i = (rd f j + 1 + t) % 2 ^ 64 := by
    intro t ht
    by_contra hn
    apply hcon
    refine ⟨t, ht, fun i hi hij heq => hn ⟨i, hi, hij, heq⟩⟩
  let φ : Nat → Nat := fun t => if h : t < 256 then Classical.choose (hall t h) else 0
  have hφ : ∀ t, t < 256 → φ t < 256 ∧ φ t ≠ j ∧ rd f (φ t) = (rd f j + 1 + t) % 2 ^ 64 := by
    intro t ht
    have := Classical.choose_spec (hall t ht)
    simp only [φ, ht, dif_pos]
    exact this
  have hcard : ((Finset.range 256).erase j).card < (Finset.range 256).card := by
    rw [Finset.card_erase_of_mem (Finset.mem_range.2 hj)]; simp
  have hmaps : ∀ t ∈ Finset.range 256, φ t ∈ (Finset.range 256).erase j := by
    intro t ht
    have := hφ t (Finset.mem_range.1 ht)
    exact Finset.mem_erase.2 ⟨this.2.1, Finset.mem_range.2 this.1⟩
  obtain ⟨t1, ht1, t2, ht2, hne, heq⟩ :=
    Finset.exists_ne_map_eq_of_card_lt_of_maps_to hcard hmaps
  have h1 := (hφ t1 (Finset.mem_range.1 ht1)).2.2
  have h2 := (hφ t2 (Finset.mem_range.1 ht2)).2.2
  rw [heq, h2] at h1
  have := Finset.mem_range.1 ht1
  have := Finset.mem_range.1 ht2
  omega

/-- Termination of `inc_freq`: 256 nested calls are enough on every table. -/
theorem inc_freq_total (f : List Nat) (j : Nat) (hj : j < 256) (hok : FreqOk f) :
    ∃ g, inc_freq f j = some g := by
  obtain ⟨t, ht, hfree⟩ := exists_free_rank f j hj
  obtain ⟨g, hg⟩ := inc_freq_fuel_free t f j hj hok (by omega) hfree
  exact ⟨g, (inc_freq_fuel_mono (t + 1) f j g 256 (by omega) hg).1⟩

theorem inc_freq_inv (f g : List Nat) (j : Nat) (hj : j < 256) (hok : FreqOk f)
    (hinj : Injective256 f) (h : inc_freq f j = some g) : FreqOk g ∧ Injective256 g := by
  obtain ⟨h1, h2, -⟩ := (inc_freq_fuel_inv 256 f j hj hok hinj).2 g h
  exact ⟨h1, h2⟩

theorem rd_init_freq (i : Nat) (hi : i < 256) : rd init_freq i = i := by
  unfold rd init_freq
  rw [List.getD_eq_getElem?_getD, List.getElem?_range hi]
  rfl

theorem init_freq_ok : FreqOk init_freq :=
  ⟨by simp [init_freq], fun i hi => by rw [rd_init_freq i hi]; omega⟩

theorem init_freq_injective : Injective256 init_freq := by
  intro a ha b hb hab
  rw [rd_init_freq a ha, rd_init_freq b hb]
  exact hab

theorem injective_uniq (f : List Nat) (h : Injective256 f) : assert_uniq_freq f :=
  fun i hi j hj hij => h i hi j hj (by omega)

theorem inc_freq_calls_inv (syms : List Nat) :
    ∀ (f : List Nat), (∀ s ∈ syms, s < 256) → FreqOk f → Injective256 f →
      (∃ g, inc_freq_calls f syms = some g ∧ FreqOk g ∧ Injective256 g) ∧
      (∀ t ∈ inc_freq_calls_trace f syms, Injective256 t) := by
  induction syms with
  | nil =>
    intro f _ hok hinj
    exact ⟨⟨f, rfl, hok, hinj⟩, fun t ht => by simp [inc_freq_calls_trace] at ht⟩
  | cons j js ih =>
    intro f hs hok hinj
    have hj := hs j (List.mem_cons_self _ _)
    obtain ⟨g, hg⟩ := inc_freq_total f j hj hok
    obtain ⟨hok1, hinj1⟩ := inc_freq_inv f g j hj hok hinj hg
    obtain ⟨⟨g2, hg2, hok2, hinj2⟩, htr⟩ :=
      ih g (fun s h => hs s (List.mem_cons_of_mem _ h)) hok1 hinj1
    refine ⟨⟨g2, by simp only [inc_freq_calls, hg]; exact hg2, hok2, hinj2⟩, fun t ht => ?_⟩
    simp only [inc_freq_calls_trace, hg, List.mem_append] at ht
    rcases ht with ht | ht
    · exact ((inc_freq_fuel_inv 256 f j hj hok hinj).1 t ht).2
    · exact htr t ht

/-- C7 (rank injectivity).  From `init_freq`, for every sequence of
`inc_freq` calls on symbols below 256: every call returns, the 256 ranks are
pairwise distinct after every call (after every prefix of the sequence), and
they are pairwise distinct in every table a call passes through, which is the
table after each `swap_freq`, where the recursive call starts. -/
theorem rank_injectivity (syms : List Nat) (h : ∀ s ∈ syms, s < 256) :
    (∀ n, ∃ g, inc_freq_calls init_freq (syms.take n) = some g ∧ assert_uniq_freq g) ∧
    (∀ t ∈ inc_freq_calls_trace init_freq syms, assert_uniq_freq t) := by
  refine ⟨fun n => ?_, fun t ht => ?_⟩
  · obtain ⟨⟨g, hg, -, hinj⟩, -⟩ := inc_freq_calls_inv (syms.take n) init_freq
      (fun s hs => h s (List.mem_of_mem_take hs)) init_freq_ok init_freq_injective
    exact ⟨g, hg, injective_uniq g hinj⟩
  · exact injective_uniq t
      ((inc_freq_calls_inv syms init_freq h init_freq_ok init_freq_injective).2 t ht)

theorem rank_injectivity_witness :
    (∀ s ∈ [65, 65, 7], s < 256) ∧
    (∀ n, ∃ g, inc_freq_calls init_freq ([65, 65, 7].take n) = some g ∧ assert_uniq_freq g) ∧
    (∀ t ∈ inc_freq_calls_trace init_freq [65, 65, 7], assert_uniq_freq t) :=
  ⟨by decide, rank_injectivity [65, 65, 7] (by decide)⟩

/-! ## `transform` and `process` -/

theorem is_in_order_freq_cases (f : List Nat) (p : Nat × Nat) :
    (is_in_order_freq f p = 1 ∧ rd f p.1 > rd f p.2) ∨
    (is_in_order_freq f p = 0 ∧ ¬ rd f p.1 > rd f p.2) := by
  unfold is_in_order_freq
  by_cases h : rd f p.1 > rd f p.2
  · left; simp [h]
  · right; simp [h]

/-- C8, the counterexample: from the identity ranks, `transform` with
`in_order = 1` on the pair `(5, 5)` swaps two equal bytes and fails the
assertion of line 183. -/
theorem transform_equal_bytes_fails : transform init_freq 1 (5, 5) = none := by
  decide

/-- C8, as amended.  When the two bytes of the pair have different ranks, or
`in_order` is 0, `transform` passes both assertions, leaves in `out` the pair
or the swapped pair, and `is_in_order_freq(out)` is nonzero exactly when
`in_order` is; when the ranks are equal (as for two equal bytes) and
`in_order` is nonzero, `transform` fails an assertion. -/
theorem transform_postcondition (freq : List Nat) (in_order : Int) (a b : Nat) :
    ((rd freq a ≠ rd freq b ∨ in_order = 0) →
      ∃ out, transform freq in_order (a, b) = some out ∧
        (is_in_order_freq freq out ≠ 0 ↔ in_order ≠ 0) ∧ (out = (a, b) ∨ out = (b, a))) ∧
    (rd freq a = rd freq b → in_order ≠ 0 → transform freq in_order (a, b) = none) := by
  have hab : is_in_order_freq freq (a, b) = if rd freq a > rd freq b then 1 else 0 := rfl
  have hba : is_in_order_freq freq (b, a) = if rd freq b > rd freq a then 1 else 0 := rfl
  constructor
  · intro h
    by_cases hio : in_order = 0
    · by_cases hgt : rd freq a > rd freq b
      · have hng : ¬ rd freq b > rd freq a := by omega
        refine ⟨(b, a), ?_, ?_, Or.inr rfl⟩
        · simp [transform, swap, hio, hab, hba, hgt, hng]
        · simp [hio, hba, hng]
      · refine ⟨(a, b), ?_, ?_, Or.inl rfl⟩
        · simp [transform, hio, hab, hgt]
        · simp [hio, hab, hgt]
    · have hne : rd freq a ≠ rd freq b := by
        rcases h with h | h
        · exact h
        · exact absurd h hio
      by_cases hgt : rd freq a > rd freq b
      · refine ⟨(a, b), ?_, ?_, Or.inl rfl⟩
        · simp [transform, hio, hab, hgt]
        · simp [hio, hab, hgt]
      · have hlt : rd freq b > rd freq a := by omega
        refine ⟨(b, a), ?_, ?_, Or.inr rfl⟩
        · simp [transform, swap, hio, hab, hba, hgt, hlt]
        · simp [hio, hba, hlt]
  · intro heq hio
    have h1 : ¬ rd freq a > rd freq b := by omega
    have h2 : ¬ rd freq b > rd freq a := by omega
    simp [transform, swap, hio, hab, hba, h1, h2]

theorem transform_postcondition_witness :
    (rd init_freq 5 ≠ rd init_freq 6 ∨ (1 : Int) = 0) ∧
    ∃ out, transform init_freq 1 (5, 6) = some out ∧
      (is_in_order_freq init_freq out ≠ 0 ↔ (1 : Int) ≠ 0) ∧ (out = (5, 6) ∨ out = (6, 5)) :=
  ⟨Or.inl (by decide), (transform_postcondition init_freq 1 5 6).1 (Or.inl (by decide))⟩

theorem is_in_order_coo_self (coo : Nat → Nat → Nat) (a : Nat) : is_in_order_coo coo (a, a) = 0 := by
  simp [is_in_order_coo]

theorem is_in_order_coo_cases (coo : Nat → Nat → Nat) (p : Nat × Nat) :
    is_in_order_coo coo p = 0 ∨ is_in_order_coo coo p = 1 := by
  unfold is_in_order_coo
  split
  · right; rfl
  · left; rfl

theorem is_in_order_freq_01 (f : List Nat) (p : Nat × Nat) :
    is_in_order_freq f p = 0 ∨ is_in_order_freq f p = 1 := by
  unfold is_in_order_freq
  split
  · right; rfl
  · left; rfl

/-- One pass of the loop of `process` on two bytes: no assertion fails, one
byte goes to each stream, the two counters are updated from the pair as read,
and the ranks stay pairwise distinct. -/
theorem process_step_spec (st : Split) (p0 p1 : Nat) (h0 : p0 < 256) (h1 : p1 < 256)
    (hok : FreqOk st.freq) (hinj : Injective256 st.freq) :
    ∃ out freq1, transform st.freq (is_in_order_coo st.coo (p0, p1)) (p0, p1) = some out ∧
      (out = (p0, p1) ∨ out = (p1, p0)) ∧
      inc_freq st.freq out.1 = some freq1 ∧ FreqOk freq1 ∧ Injective256 freq1 ∧
      process_step st p0 p1 = some
        { coo := update_model_coo (update_model_coo st.coo (st.semi0, p0)) (p0, p1),
          freq := freq1, semi0 := p1,
          lstream := st.lstream ++ [out.1], hstream := st.hstream ++ [out.2] } := by
  have hpre : rd st.freq p0 ≠ rd st.freq p1 ∨ is_in_order_coo st.coo (p0, p1) = 0 := by
    by_cases heq : p0 = p1
    · right; rw [heq]; exact is_in_order_coo_self _ _
    · left; exact hinj p0 h0 p1 h1 heq
  obtain ⟨out, hout, hpost, hcase⟩ :=
    (transform_postcondition st.freq (is_in_order_coo st.coo (p0, p1)) p0 p1).1 hpre
  have hlt : out.1 < 256 := by
    rcases hcase with h | h <;> rw [h] <;> assumption
  obtain ⟨freq1, hf1⟩ := inc_freq_total st.freq out.1 hlt hok
  obtain ⟨hok1, hinj1⟩ := inc_freq_inv st.freq freq1 out.1 hlt hok hinj hf1
  have hassert : is_in_order_freq st.freq out = is_in_order_coo st.coo (p0, p1) := by
    rcases is_in_order_freq_01 st.freq out with ha | ha <;>
      rcases is_in_order_coo_cases st.coo (p0, p1) with hb | hb <;>
      rw [ha, hb] at hpost ⊢ <;> simp at hpost
  refine ⟨out, freq1, hout, hcase, hf1, hok1, hinj1, ?_⟩
  simp only [process_step, hout, hassert, if_true, update_model_freq, hf1]

theorem process_loop_spec (n : Nat) :
    ∀ (s : List Nat) (st : Split), s.length / 2 = n → (∀ x ∈ s, x < 256) →
      FreqOk st.freq → Injective256 st.freq →
      ∃ st1 : Split, process_loop s st = some st1 ∧
        process_loop (s.take (2 * n)) st = some st1 ∧
        FreqOk st1.freq ∧ Injective256 st1.freq ∧
        st1.lstream.length = st.lstream.length + n ∧
        st1.hstream.length = st.hstream.length + n ∧
        (∀ i, i < n →
          (st1.lstream.getD (st.lstream.length + i) 0 = s.getD (2 * i) 0 ∧
           st1.hstream.getD (st.hstream.length + i) 0 = s.getD (2 * i + 1) 0) ∨
          (st1.lstream.getD (st.lstream.length + i) 0 = s.getD (2 * i + 1) 0 ∧
           st1.hstream.getD (st.hstream.length + i) 0 = s.getD (2 * i) 0)) ∧
        (∀ i, i < st.lstream.length → st1.lstream.getD i 0 = st.lstream.getD i 0) ∧
        (∀ i, i < st.hstream.length → st1.hstream.getD i 0 = st.hstream.getD i 0) := by
  induction n with
  | zero =>
    intro s st hn _ hok hinj
    have hs : s.length < 2 := by omega
    have h1 : process_loop s st = some st := by
      match s, hs with
      | [], _ => rfl
      | [_], _ => rfl
    refine ⟨st, h1, by simp [process_loop], hok, hinj, rfl, rfl, fun i hi => by omega,
      fun _ _ => rfl, fun _ _ => rfl⟩
  | succ n ih =>
    intro s st hn hb hok hinj
    match s, hn, hb with
    | [], hn, _ => simp only [List.length_nil] at hn; omega
    | [_], hn, _ => simp only [List.length_singleton] at hn; omega
    | p0 :: p1 :: rest, hn, hb =>
      have h0 : p0 < 256 := hb p0 (by simp)
      have h1 : p1 < 256 := hb p1 (by simp)
      obtain ⟨out, freq1, -, hcase, -, hok1, hinj1, hstep⟩ :=
        process_step_spec st p0 p1 h0 h1 hok hinj
      have hrl : rest.length / 2 = n := by
        simp only [List.length_cons] at hn; omega
      obtain ⟨st1, hr1, hr2, hok2, hinj2, hl, hh, hpairs, hlk, hhk⟩ :=
        ih rest
          { coo := update_model_coo (update_model_coo st.coo (st.semi0, p0)) (p0, p1),
            freq := freq1, semi0 := p1,
            lstream := st.lstream ++ [out.1], hstream := st.hstream ++ [out.2] }
          hrl (fun x hx => hb x (by simp [hx])) hok1 hinj1
      simp only [List.length_append, List.length_singleton] at hl hh hpairs hlk hhk
      refine ⟨st1, ?_, ?_, hok2, hinj2, by omega, by omega, ?_, ?_, ?_⟩
      · simp only [process_loop, hstep]; exact hr1
      · have : 2 * (n + 1) = (2 * n + 1) + 1 := by ring
        rw [this, List.take_succ_cons, List.take_succ_cons]
        simp only [process_loop, hstep]; exact hr2
      · intro i hi
        cases i with
        | zero =>
          have e1 := hlk st.lstream.length (by omega)
          have e2 := hhk st.hstream.length (by omega)
          simp only [List.getD_eq_getElem?_getD, List.getElem?_append_right (Nat.le_refl _),
            Nat.sub_self] at e1 e2
          simp only [Nat.add_zero, Nat.mul_zero, List.getD_eq_getElem?_getD, e1, e2]
          rcases hcase with h | h <;> rw [h] <;> simp
        | succ i =>
          have := hpairs i (by omega)
          have e1 : st.lstream.length + (i + 1) = st.lstream.length + 1 + i := by omega
          have e2 : st.hstream.length + (i + 1) = st.hstream.length + 1 + i := by omega
          have e3 : 2 * (i + 1) = (2 * i + 1) + 1 := by ring
          have e4 : 2 * (i + 1) + 1 = (2 * i + 1 + 1) + 1 := by ring
          rw [e1, e2, e4, e3]
          simpa only [List.getD_cons_succ] using this
      · intro i hi
        rw [hlk i (by omega), List.getD_eq_getElem?_getD, List.getD_eq_getElem?_getD,
          List.getElem?_append_left hi]
      · intro i hi
        rw [hhk i (by omega), List.getD_eq_getElem?_getD, List.getD_eq_getElem?_getD,
          List.getElem?_append_left hi]

/-- C9 (stream length).  On an input of `2n` or `2n + 1` bytes `process`
passes every assertion and returns having written exactly `n` bytes to the low
stream and `n` to the high stream; the `i`-th byte of each stream comes from
the `i`-th pair of the input, one byte of the pair to each stream; and the
result is the one for the first `2n` bytes alone, so a trailing odd byte
changes neither stream and neither model. -/
theorem stream_length (coo : Nat → Nat → Nat) (istream : List Nat) (n : Nat)
    (hb : ∀ x ∈ istream, x < 256)
    (hlen : istream.length = 2 * n ∨ istream.length = 2 * n + 1) :
    ∃ st : Split, process coo istream = some st ∧
      st.lstream.length = n ∧ st.hstream.length = n ∧
      (∀ i, i < n →
        (st.lstream.getD i 0 = istream.getD (2 * i) 0 ∧
         st.hstream.getD i 0 = istream.getD (2 * i + 1) 0) ∨
        (st.lstream.getD i 0 = istream.getD (2 * i + 1) 0 ∧
         st.hstream.getD i 0 = istream.getD (2 * i) 0)) ∧
      process coo (istream.take (2 * n)) = some st := by
  obtain ⟨st0, hst0⟩ : ∃ st0 : Split, st0
      = { coo := coo, freq := init_freq, semi0 := 0, lstream := [], hstream := [] } := ⟨_, rfl⟩
  have hf0 : st0.freq = init_freq := by rw [hst0]
  have hl0 : st0.lstream = [] := by rw [hst0]
  have hh0 : st0.hstream = [] := by rw [hst0]
  obtain ⟨st, h1, h2, -, -, hl, hh, hp, -, -⟩ :=
    process_loop_spec n istream st0 (by omega) hb (by rw [hf0]; exact init_freq_ok)
      (by rw [hf0]; exact init_freq_injective)
  rw [hl0] at hl hp
  rw [hh0] at hh hp
  rw [hst0] at h1 h2
  simp only [List.length_nil, Nat.zero_add] at hl hh hp
  exact ⟨st, h1, hl, hh, hp, h2⟩

theorem stream_length_witness :
    (∀ x ∈ [0x41, 0x42, 0x41, 0x43, 0x44], x < 256) ∧
    ([0x41, 0x42, 0x41, 0x43, 0x44].length = 2 * 2 ∨
      [0x41, 0x42, 0x41, 0x43, 0x44].length = 2 * 2 + 1) ∧
    ∃ st : Split, process (fun _ _ => 0) [0x41, 0x42, 0x41, 0x43, 0x44] = some st ∧
      st.lstream.length = 2 ∧ st.hstream.length = 2 ∧
      (∀ i, i < 2 →
        (st.lstream.getD i 0 = [0x41, 0x42, 0x41, 0x43, 0x44].getD (2 * i) 0 ∧
         st.hstream.getD i 0 = [0x41, 0x42, 0x41, 0x43, 0x44].getD (2 * i + 1) 0) ∨
        (st.lstream.getD i 0 = [0x41, 0x42, 0x41, 0x43, 0x44].getD (2 * i + 1) 0 ∧
         st.hstream.getD i 0 = [0x41, 0x42, 0x41, 0x43, 0x44].getD (2 * i) 0)) ∧
      process (fun _ _ => 0) ([0x41, 0x42, 0x41, 0x43, 0x44].take (2 * 2)) = some st :=
  ⟨by decide, by decide,
   stream_length (fun _ _ => 0) [0x41, 0x42, 0x41, 0x43, 0x44] 2 (by decide) (by decide)⟩

theorem process_loop_nil (st : Split) : process_loop [] st = some st := rfl

theorem process_loop_cons (p0 p1 : Nat) (rest : List Nat) (st st1 : Split)
    (h : process_step st p0 p1 = some st1) :
    process_loop (p0 :: p1 :: rest) st = process_loop rest st1 := by
  simp only [process_loop, h]

/-- The first two passes of `process`, on the bytes `p0 p1 p2 p3`: what is
written and counted. -/
theorem process_two_pairs (coo : Nat → Nat → Nat) (p0 p1 p2 p3 : Nat)
    (h0 : p0 < 256) (h1 : p1 < 256) (h2 : p2 < 256) (h3 : p3 < 256) :
    ∃ out1 out2 : Nat × Nat, ∃ st1 st2 : Split,
      transform init_freq (is_in_order_coo coo (p0, p1)) (p0, p1) = some out1 ∧
      process coo [p0, p1] = some st1 ∧ process coo [p0, p1, p2, p3] = some st2 ∧
      st1.lstream = [out1.1] ∧ st1.hstream = [out1.2] ∧
      st1.coo = update_model_coo (update_model_coo coo (0, p0)) (p0, p1) ∧
      st2.lstream = [out1.1, out2.1] ∧ st2.hstream = [out1.2, out2.2] ∧
      st2.coo = update_model_coo (update_model_coo st1.coo (p1, p2)) (p2, p3) := by
  obtain ⟨st0, hst0⟩ : ∃ st0 : Split, st0
      = { coo := coo, freq := init_freq, semi0 := 0, lstream := [], hstream := [] } := ⟨_, rfl⟩
  have hf0 : st0.freq = init_freq := by rw [hst0]
  have hp : ∀ s, process coo s = process_loop s st0 := by intro s; rw [hst0]; rfl
  obtain ⟨out1, freq1, hout1, -, -, hok1, hinj1, hstep1⟩ :=
    process_step_spec st0 p0 p1 h0 h1 (by rw [hf0]; exact init_freq_ok)
      (by rw [hf0]; exact init_freq_injective)
  obtain ⟨st1, hst1⟩ : ∃ st1 : Split, st1
      = { coo := update_model_coo (update_model_coo st0.coo (st0.semi0, p0)) (p0, p1),
          freq := freq1, semi0 := p1,
          lstream := st0.lstream ++ [out1.1], hstream := st0.hstream ++ [out1.2] } := ⟨_, rfl⟩
  rw [← hst1] at hstep1
  have hf1 : st1.freq = freq1 := by rw [hst1]
  obtain ⟨out2, freq2, -, -, -, -, -, hstep2⟩ :=
    process_step_spec st1 p2 p3 h2 h3 (by rw [hf1]; exact hok1) (by rw [hf1]; exact hinj1)
  obtain ⟨st2, hst2⟩ : ∃ st2 : Split, st2
      = { coo := update_model_coo (update_model_coo st1.coo (st1.semi0, p2)) (p2, p3),
          freq := freq2, semi0 := p3,
          lstream := st1.lstream ++ [out2.1], hstream := st1.hstream ++ [out2.2] } := ⟨_, rfl⟩
  rw [← hst2] at hstep2
  have hl1 : st1.lstream = [out1.1] := by rw [hst1, hst0]; rfl
  have hh1 : st1.hstream = [out1.2] := by rw [hst1, hst0]; rfl
  have hs1 : st1.semi0 = p1 := by rw [hst1]
  refine ⟨out1, out2, st1, st2, ?_, ?_, ?_, hl1, hh1, ?_, ?_, ?_, ?_⟩
  · rw [hf0, hst0] at hout1; exact hout1
  · rw [hp, process_loop_cons p0 p1 [] st0 st1 hstep1, process_loop_nil]
  · rw [hp, process_loop_cons p0 p1 [p2, p3] st0 st1 hstep1,
      process_loop_cons p2 p3 [] st1 st2 hstep2, process_loop_nil]
  · rw [hst1, hst0]
  · rw [hst2]; simp only; rw [hl1]; rfl
  · rw [hst2]; simp only; rw [hh1]; rfl
  · rw [hst2]; simp only; rw [hs1]

/-- C10 (scenario).  On the bytes `41 42 41 43` from an all-zero co-occurrence
table and the identity ranks: the Direct decision for the first pair is 0,
`transform` leaves the pair unswapped, the first low byte is `41` and the
first high byte `42`, `count(41, 42)` is 1 after the first pair, and after the
second pair the straddle pair is recorded: `count(42, 41)` is 1. -/
theorem scenario_ABAC :
    is_in_order_coo (fun _ _ => 0) (0x41, 0x42) = 0 ∧
    transform init_freq 0 (0x41, 0x42) = some (0x41, 0x42) ∧
    (∃ st1 : Split, process (fun _ _ => 0) [0x41, 0x42] = some st1 ∧
      st1.lstream = [0x41] ∧ st1.hstream = [0x42] ∧ st1.coo 0x41 0x42 = 1) ∧
    (∃ st2 : Split, process (fun _ _ => 0) [0x41, 0x42, 0x41, 0x43] = some st2 ∧
      st2.lstream.head? = some 0x41 ∧ st2.hstream.head? = some 0x42 ∧
      st2.lstream.length = 2 ∧ st2.hstream.length = 2 ∧
      st2.coo 0x41 0x42 = 1 ∧ st2.coo 0x42 0x41 = 1) := by
  have hd : is_in_order_coo (fun _ _ => 0) (0x41, 0x42) = 0 := by decide
  have ht : transform init_freq 0 (0x41, 0x42) = some (0x41, 0x42) := by decide
  obtain ⟨out1, out2, st1, st2, hout1, hp1, hp2, hl1, hh1, hc1, hl2, hh2, hc2⟩ :=
    process_two_pairs (fun _ _ => 0) 0x41 0x42 0x41 0x43
      (by decide) (by decide) (by decide) (by decide)
  rw [hd, ht, Option.some.injEq] at hout1
  rw [← hout1] at hl1 hh1 hl2 hh2
  refine ⟨hd, ht, ⟨st1, hp1, hl1, hh1, ?_⟩, ⟨st2, hp2, ?_, ?_, ?_, ?_, ?_, ?_⟩⟩
  · rw [hc1]; simp [update_model_coo]
  · rw [hl2]; rfl
  · rw [hh2]; rfl
  · rw [hl2]; rfl
  · rw [hh2]; rfl
  · rw [hc2, hc1]; simp [update_model_coo]
  · rw [hc2, hc1]; simp [update_model_coo]

/-! ## Writing zero bits, the accumulator invariant, reading past the code -/

theorem shl32_zero (S : ShiftSem) (c : Nat) : shl32 S 0 c = 0 := by
  simp [shl32]

theorem write_bits_zero_loop (S : ShiftSem) (fuel : Nat) :
    ∀ (bio : Bio) (n : Nat),
      bio_write_bits_loop S fuel bio 0 n = bio_write_zero_bits_loop fuel bio n := by
  induction fuel with
  | zero =>
    intro bio n
    cases n <;> simp [bio_write_bits_loop, bio_write_zero_bits_loop]
  | succ fuel ih =>
    intro bio n
    cases n with
    | zero => simp [bio_write_bits_loop, bio_write_zero_bits_loop]
    | succ n =>
      simp only [bio_write_bits_loop, bio_write_zero_bits_loop, Nat.zero_and, shl32_zero,
        Nat.or_zero, shr32_zero, ih]

theorem runW_some (S : ShiftSem) (ops : List WOp) :
    ∀ (bio bio1 : Bio), WriteOk bio → runW S ops bio = some bio1 →
      Appends bio bio1 (encode S bio.wpos ops) (bitsLen S ops) := by
  induction ops with
  | nil =>
    intro bio bio1 hok h
    simp only [runW, Option.some.injEq] at h
    subst h
    exact appends_refl bio hok
  | cons op ops ih =>
    intro bio bio1 hok h
    simp only [runW] at h
    cases h1 : op.run S bio with
    | none => rw [h1] at h; simp at h
    | some b1 =>
      rw [h1] at h
      have ha := wop_run_some S bio b1 op hok h1
      have hb := ih b1 bio1 ha.1 h
      rw [ha.2.2.1] at hb
      have hc := appends_trans ha hb
      simp only [encode, bitsLen, wpos_mod bio hok.2.2.1]
      exact hc

theorem appends_bit {bio bio1 : Bio} {x n : Nat} (hok : WriteOk bio)
    (h : Appends bio bio1 x n) (j : Nat) :
    bio1.bit j = if j < bio.wpos then bio.bit j else x.testBit (j - bio.wpos) := by
  rw [bit_eq_testBit bio1 h.1, bit_eq_testBit bio hok, h.2.1, Nat.add_comm,
    Nat.testBit_mul_pow_two_add _ hok.wstream_lt]

theorem testBit_of_lt (b c j : Nat) (hb : b < 2 ^ c) (hj : c ≤ j) : b.testBit j = false :=
  Nat.testBit_lt_two_pow (Nat.lt_of_lt_of_le hb (Nat.pow_le_pow_right (by decide) hj))

theorem expects_append (S : ShiftSem) (l1 : List WOp) :
    ∀ (p : Nat) (l2 : List WOp),
      expects S p (l1 ++ l2) = expects S p l1 ++ expects S (p + bitsLen S l1) l2 := by
  induction l1 with
  | nil => intro p l2; simp [expects, bitsLen]
  | cons op l1 ih =>
    intro p l2
    show expects S p (op :: (l1 ++ l2)) = _
    simp only [expects, ih, bitsLen, List.cons_append, Nat.add_assoc]

/-- Claim C14: `bio_write_zero_bits(n)` and `bio_write_bits(0, n)` give the
same result in every state, be it a new state or the failure of a flush past
the buffer; from a write state with fewer than 32 pending bits, `n ≤ 32` and
room in the buffer, both return the same new state: accumulator, bit count,
cursor and buffer are the same. -/
theorem write_zero_bits_eq_write_bits_zero (S : ShiftSem) :
    (∀ (bio : Bio) (n : Nat), bio_write_zero_bits bio n = bio_write_bits S bio 0 n) ∧
    (∀ (bio : Bio) (n : Nat), WriteOk bio → n ≤ 32 →
      (bio.wpos + n) / 32 ≤ bio.buf.length →
      ∃ bio1, bio_write_zero_bits bio n = some bio1 ∧ bio_write_bits S bio 0 n = some bio1 ∧
        bio1.wpos = bio.wpos + n) := by
  have h1 : ∀ (bio : Bio) (n : Nat), bio_write_zero_bits bio n = bio_write_bits S bio 0 n := by
    intro bio n
    simp only [bio_write_zero_bits, bio_write_bits, write_bits_zero_loop]
  refine ⟨h1, fun bio n hok hn hcap => ?_⟩
  obtain ⟨bio1, hb, ha⟩ := (write_zero_bits_spec bio n hn hok).1 hcap
  exact ⟨bio1, hb, by rw [← h1, hb], ha.2.2.1⟩

theorem write_zero_bits_eq_write_bits_zero_witness :
    WriteOk (bio_open bio0 [7, 7] Mode.BIO_MODE_WRITE) ∧ 5 ≤ 32 ∧
    ((bio_open bio0 [7, 7] Mode.BIO_MODE_WRITE).wpos + 5) / 32 ≤ [7, 7].length ∧
    ∃ bio1, bio_write_zero_bits (bio_open bio0 [7, 7] Mode.BIO_MODE_WRITE) 5 = some bio1 ∧
      bio_write_bits ShiftSem.modular (bio_open bio0 [7, 7] Mode.BIO_MODE_WRITE) 0 5
        = some bio1 ∧
      bio1.wpos = (bio_open bio0 [7, 7] Mode.BIO_MODE_WRITE).wpos + 5 :=
  ⟨open_write_ok bio0 [7, 7], by decide, by decide,
   (write_zero_bits_eq_write_bits_zero ShiftSem.modular).2
     (bio_open bio0 [7, 7] Mode.BIO_MODE_WRITE) 5 (open_write_ok bio0 [7, 7])
     (by decide) (by decide)⟩

/-- Claim C18: in every state reached from `bio_open` in write mode by calls of
the write primitives the bit count is below 32 and every bit of the accumulator
at position `c` or above is zero; the bits appended by `bio_write_zero_bits`
are zero in the stream whatever is written after them, they are read back as
the value 0, and the bits at position `c` or above of the word that `bio_close`
flushes are zero. -/
theorem accumulator_invariant (S : ShiftSem) (z : Bio) (buf : List Nat) :
    (∀ (ops : List WOp) (bio : Bio),
      runW S ops (bio_open z buf Mode.BIO_MODE_WRITE) = some bio →
      bio.c < 32 ∧ (∀ j, bio.c ≤ j → bio.b.testBit j = false) ∧
      (∀ (n : Nat) (bio1 : Bio) (ops2 : List WOp) (bio2 : Bio),
        bio_write_zero_bits bio n = some bio1 → runW S ops2 bio1 = some bio2 →
        ∀ j, bio.wpos ≤ j → j < bio.wpos + n → bio2.bit j = false) ∧
      (∀ (bio1 : Bio), bio_close bio = some bio1 → 0 < bio.c →
        bio1.buf.getD (bio.ptr / 4) 0 = bio.b ∧
        ∀ j, bio.c ≤ j → (bio1.buf.getD (bio.ptr / 4) 0).testBit j = false)) ∧
    (∀ (z1 : Bio) (pre post : List WOp) (n : Nat),
      (∀ w ∈ buf, w < 2 ^ 32) → (∀ op ∈ pre ++ WOp.zero_bits n :: post, op.valid) →
      bitsLen S (pre ++ WOp.zero_bits n :: post) < 32 * buf.length →
      write_then_read S z z1 buf (pre ++ WOp.zero_bits n :: post)
          ((pre ++ WOp.zero_bits n :: post).map WOp.reader)
        = some (expects S 0 pre ++ 0 :: expects S (bitsLen S pre + n) post)) := by
  refine ⟨fun ops bio hreach => ?_, fun z1 pre post n hbuf hv hcap => ?_⟩
  · have hok := runW_ok S ops _ bio (open_write_ok z buf) hreach
    refine ⟨hok.2.2.1, fun j hj => testBit_of_lt _ _ _ hok.2.2.2.1 hj, ?_, ?_⟩
    · intro n bio1 ops2 bio2 hz hrun j hj1 hj2
      have ha : Appends bio bio1 0 n := by
        have := wop_run_some S bio bio1 (WOp.zero_bits n) hok hz
        simpa [WOp.val, WOp.len] using this
      have hb := runW_some S ops2 bio1 bio2 ha.1 hrun
      rw [appends_bit ha.1 hb, if_pos (by rw [ha.2.2.1]; exact hj2), appends_bit hok ha,
        if_neg (by omega)]
      simp
    · intro bio1 hc hpos
      have hflush : bio_flush_buffer bio = some bio1 := by
        simpa [bio_close, hok.1, hpos] using hc
      simp only [bio_flush_buffer] at hflush
      split at hflush
      · simp only [Option.some.injEq] at hflush
        subst hflush
        rename_i hlt
        have hget : (bio.buf.set (bio.ptr / 4) bio.b).getD (bio.ptr / 4) 0 = bio.b := by
          simp [List.getD_eq_getElem?_getD, hlt]
        refine ⟨hget, fun j hj => ?_⟩
        rw [hget]
        exact testBit_of_lt _ _ _ hok.2.2.2.1 hj
      · simp at hflush
  · rw [round_trip S z z1 buf _ hbuf hv hcap, expects_append]
    simp only [expects, WOp.expect, WOp.len, Nat.zero_add]

theorem accumulator_invariant_witness :
    runW ShiftSem.modular [WOp.bits 5 3] (bio_open bio0 [7, 7] Mode.BIO_MODE_WRITE)
      = some { mode := Mode.BIO_MODE_WRITE, ptr := 0, b := 5, c := 3, buf := [7, 7] } ∧
    (3 < 32 ∧ ∀ j, 3 ≤ j → Nat.testBit 5 j = false) ∧
    (∀ w ∈ [7, 7], w < 2 ^ 32) ∧
    (∀ op ∈ [WOp.bits 5 3] ++ WOp.zero_bits 4 :: [WOp.nonzero_bit], op.valid) ∧
    bitsLen ShiftSem.modular ([WOp.bits 5 3] ++ WOp.zero_bits 4 :: [WOp.nonzero_bit])
      < 32 * [7, 7].length ∧
    write_then_read ShiftSem.modular bio0 bio0 [7, 7]
        ([WOp.bits 5 3] ++ WOp.zero_bits 4 :: [WOp.nonzero_bit])
        (([WOp.bits 5 3] ++ WOp.zero_bits 4 :: [WOp.nonzero_bit]).map WOp.reader)
      = some (expects ShiftSem.modular 0 [WOp.bits 5 3]
          ++ 0 :: expects ShiftSem.modular (bitsLen ShiftSem.modular [WOp.bits 5 3] + 4)
            [WOp.nonzero_bit]) :=
  ⟨by decide,
   ⟨((accumulator_invariant ShiftSem.modular bio0 [7, 7]).1 [WOp.bits 5 3]
      { mode := Mode.BIO_MODE_WRITE, ptr := 0, b := 5, c := 3, buf := [7, 7] } (by decide)).1,
    ((accumulator_invariant ShiftSem.modular bio0 [7, 7]).1 [WOp.bits 5 3]
      { mode := Mode.BIO_MODE_WRITE, ptr := 0, b := 5, c := 3, buf := [7, 7] }
      (by decide)).2.1⟩,
   by decide, by simp [WOp.valid], by decide,
   (accumulator_invariant ShiftSem.modular bio0 [7, 7]).2 bio0 [WOp.bits 5 3]
     [WOp.nonzero_bit] 4 (by decide) (by simp [WOp.valid]) (by decide)⟩

/-- Claim C20, at `k = 0` and `N = 31`: `bio_write_gr` and `bio_close` write
one word (the cursor ends at byte 4), yet `bio_read_gr` reloads a second word.
In a buffer of that one word the reload falls outside the buffer; with one
more word in the buffer the value 31 comes back and the cursor ends at byte 8,
the word of index 1 in the accumulator. -/
theorem read_gr_reloads_unwritten_word (S : ShiftSem) :
    bio_write_gr S (bio_open bio0 [7] Mode.BIO_MODE_WRITE) 0 31
      = some { mode := Mode.BIO_MODE_WRITE, ptr := 4, b := 0, c := 0, buf := [2 ^ 31] } ∧
    bio_close { mode := Mode.BIO_MODE_WRITE, ptr := 4, b := 0, c := 0, buf := [2 ^ 31] }
      = some { mode := Mode.BIO_MODE_WRITE, ptr := 4, b := 0, c := 0, buf := [2 ^ 31] } ∧
    bio_read_gr S (bio_open bio0 [2 ^ 31] Mode.BIO_MODE_READ) 0 = none ∧
    bio_read_gr S (bio_open bio0 [2 ^ 31, 7] Mode.BIO_MODE_READ) 0
      = some (31, { mode := Mode.BIO_MODE_READ, ptr := 8, b := 7, c := 0,
                    buf := [2 ^ 31, 7] }) := by
  cases S <;> decide

/-! ## The depth and the result of `inc_freq` -/

theorem inc_freq_depth (fuel : Nat) :
    ∀ (f : List Nat) (j : Nat) (g : List Nat), inc_freq_fuel fuel f j = some g →
      1 ≤ (inc_freq_trace fuel f j).length ∧ (inc_freq_trace fuel f j).length ≤ fuel ∧
      inc_freq_fuel (inc_freq_trace fuel f j).length f j = some g ∧
      ∀ m, m < (inc_freq_trace fuel f j).length → inc_freq_fuel m f j = none := by
  induction fuel with
  | zero => intro f j g h; simp [inc_freq_fuel] at h
  | succ fuel ih =>
    intro f j g h
    cases hfind : inc_freq_find j ((rd f j + 1) % 2 ^ 64) (f.take 256) 0 with
    | none =>
      simp only [inc_freq_fuel, hfind] at h
      simp only [inc_freq_trace, hfind, List.length_singleton, inc_freq_fuel, h]
      refine ⟨Nat.le_refl _, by omega, trivial, fun m hm => ?_⟩
      have : m = 0 := by omega
      subst this
      rfl
    | some i =>
      simp only [inc_freq_fuel, hfind] at h
      obtain ⟨h1, h2, h3, h4⟩ := ih _ j g h
      simp only [inc_freq_trace, hfind, List.length_cons]
      refine ⟨by omega, by omega, ?_, fun m hm => ?_⟩
      · simp only [inc_freq_fuel, hfind]
        exact h3
      · cases m with
        | zero => rfl
        | succ m =>
          simp only [inc_freq_fuel, hfind]
          exact h4 m (by omega)

theorem find_eq_none (f : List Nat) (j v : Nat) (hl : f.length = 256)
    (h : ∀ i, i < 256 → i ≠ j → rd f i ≠ v) :
    inc_freq_find j v (f.take 256) 0 = none := by
  cases hfind : inc_freq_find j v (f.take 256) 0 with
  | none => rfl
  | some i =>
    obtain ⟨h1, h2, h3⟩ := find_some_spec f j v i hl hfind
    exact absurd h3 (h i h1 h2)

/-- The result of `inc_freq(s)` when the first free rank `m` above the rank of
`s` is a `size_t`. -/
theorem inc_freq_fuel_result (fuel : Nat) :
    ∀ (f : List Nat) (s m : Nat) (g : List Nat), s < 256 → FreqOk f → Injective256 f →
      rd f s < m → m < 2 ^ 64 →
      (∀ t, t < 256 → t ≠ s → rd f t ≠ m) →
      (∀ k, rd f s < k → k < m → ∃ t, t < 256 ∧ t ≠ s ∧ rd f t = k) →
      inc_freq_fuel fuel f s = some g →
      rd g s = m ∧
      ∀ t, t < 256 → t ≠ s →
        rd g t = if rd f s < rd f t ∧ rd f t < m then rd f t - 1 else rd f t := by
  induction fuel with
  | zero => intro f s m g _ _ _ _ _ _ _ h; simp [inc_freq_fuel] at h
  | succ fuel ih =>
    intro f s m g hs hok hinj hrm hm hfree hocc h
    have hnew : (rd f s + 1) % 2 ^ 64 = rd f s + 1 := Nat.mod_eq_of_lt (by omega)
    cases hfind : inc_freq_find s ((rd f s + 1) % 2 ^ 64) (f.take 256) 0 with
    | none =>
      simp only [inc_freq_fuel, hfind, Option.some.injEq] at h
      subst h
      have hnone := find_none_spec f s _ hok.1 hfind
      rw [hnew] at hnone
      have hm1 : m = rd f s + 1 := by
        by_contra hne
        obtain ⟨t, ht1, ht2, ht3⟩ := hocc (rd f s + 1) (by omega) (by omega)
        exact hnone t ht1 ht2 ht3
      refine ⟨?_, fun t ht hts => ?_⟩
      · rw [rd_set, if_pos ⟨rfl, by rw [hok.1]; exact hs⟩, hnew, hm1]
      · rw [rd_set, if_neg (fun hc => hts hc.1), if_neg (by omega)]
    | some i =>
      simp only [inc_freq_fuel, hfind] at h
      obtain ⟨hi1, hi2, hi3⟩ := find_some_spec f s _ i hok.1 hfind
      rw [hnew] at hi3
      have hil : i < f.length := by rw [hok.1]; exact hi1
      have hsl : s < f.length := by rw [hok.1]; exact hs
      have hsw : ∀ k, rd (swap_freq f i s) k
          = if k = s then rd f i else if k = i then rd f s else rd f k :=
        fun k => rd_swap f i s k hil hsl
      have hss : rd (swap_freq f i s) s = rd f s + 1 := by rw [hsw, if_pos rfl, hi3]
      have hm2 : rd f s + 1 < m := by
        have := hfree i hi1 hi2
        omega
      obtain ⟨hg1, hg2⟩ := ih (swap_freq f i s) s m g hs (swap_freq_ok f i s hi1 hs hok)
        (swap_freq_injective f i s hi1 hs hok.1 hinj) (by rw [hss]; exact hm2) hm
        (fun t ht hts => by
          rw [hsw, if_neg hts]
          split
          · omega
          · exact hfree t ht hts)
        (fun k hk1 hk2 => by
          rw [hss] at hk1
          obtain ⟨t, ht1, ht2, ht3⟩ := hocc k (by omega) hk2
          refine ⟨t, ht1, ht2, ?_⟩
          rw [hsw, if_neg ht2, if_neg (fun hc => by rw [hc, hi3] at ht3; omega), ht3])
        h
      refine ⟨hg1, fun t ht hts => ?_⟩
      rw [hg2 t ht hts, hss, hsw, if_neg hts]
      by_cases hti : t = i
      · rw [if_pos hti, hti, hi3, if_neg (by omega), if_pos ⟨by omega, hm2⟩]
        omega
      · rw [if_neg hti]
        have hne : rd f t ≠ rd f s + 1 := by
          rw [← hi3]
          exact hinj t ht i hi1 hti
        by_cases hc : rd f s < rd f t ∧ rd f t < m
        · rw [if_pos hc, if_pos ⟨by omega, hc.2⟩]
        · rw [if_neg hc, if_neg (fun hc2 => hc ⟨by omega, hc2.2⟩)]

theorem inc_freq_of_free (f : List Nat) (j : Nat)
    (h : inc_freq_find j ((rd f j + 1) % 2 ^ 64) (f.take 256) 0 = none) :
    inc_freq f j = some (f.set j ((rd f j + 1) % 2 ^ 64)) := by
  show inc_freq_fuel (255 + 1) f j = _
  simp only [inc_freq_fuel, h]

theorem rd_top_rank_freq (i : Nat) (hi : i < 256) :
    rd top_rank_freq i = if i = 0 then 2 ^ 64 - 1 else i := by
  unfold top_rank_freq
  rw [rd_set]
  by_cases h : i = 0
  · rw [if_pos ⟨h, by rw [init_freq_ok.1]; decide⟩, if_pos h]
  · rw [if_neg (fun hc => h hc.1), if_neg h, rd_init_freq i hi]

/-- Claim C11: for every table of 256 ranks (pairwise distinct or not) and every
symbol `j < 256` the call `inc_freq(j)` returns, and it makes `n ≤ 256` calls
of `inc_freq`, the first one included: a bound `m < n` on the depth of the
recursion is exhausted, and under every bound `m ≥ n` the call returns the same
table after passing through exactly `n` calls. -/
theorem inc_freq_invocations (f : List Nat) (j : Nat) (hj : j < 256) (hok : FreqOk f) :
    ∃ n g, 1 ≤ n ∧ n ≤ 256 ∧ inc_freq f j = some g ∧
      (∀ m, m < n → inc_freq_fuel m f j = none) ∧
      (∀ m, n ≤ m → inc_freq_fuel m f j = some g ∧ (inc_freq_trace m f j).length = n) := by
  obtain ⟨g, hg⟩ := inc_freq_total f j hj hok
  obtain ⟨h1, h2, h3, h4⟩ := inc_freq_depth 256 f j g hg
  have hn := (inc_freq_fuel_mono _ f j g 256 h2 h3).2
  refine ⟨(inc_freq_trace 256 f j).length, g, h1, h2, hg, h4, fun m hm => ?_⟩
  obtain ⟨h5, h6⟩ := inc_freq_fuel_mono _ f j g m hm h3
  exact ⟨h5, by rw [h6, ← hn]⟩

theorem inc_freq_invocations_witness :
    65 < 256 ∧ FreqOk init_freq ∧
    ∃ n g, 1 ≤ n ∧ n ≤ 256 ∧ inc_freq init_freq 65 = some g ∧
      (∀ m, m < n → inc_freq_fuel m init_freq 65 = none) ∧
      (∀ m, n ≤ m → inc_freq_fuel m init_freq 65 = some g ∧
        (inc_freq_trace m init_freq 65).length = n) :=
  ⟨by decide, init_freq_ok, inc_freq_invocations init_freq 65 (by decide) init_freq_ok⟩

/-- Claim C15 as stated fails where the rank of the symbol is the largest
`size_t`: in a table of pairwise distinct ranks where symbol 0 has rank
`2 ^ 64 - 1` and no other symbol has rank 0, `inc_freq(0)` leaves symbol 0 with
rank 0, which is neither the least free integer above its rank nor an
increase. -/
theorem inc_freq_wraps_at_top_rank :
    FreqOk top_rank_freq ∧ Injective256 top_rank_freq ∧ rd top_rank_freq 0 = 2 ^ 64 - 1 ∧
    ∃ g, inc_freq top_rank_freq 0 = some g ∧ rd g 0 = 0 ∧ ¬ rd top_rank_freq 0 < rd g 0 := by
  have hok : FreqOk top_rank_freq := set_freq_ok init_freq 0 _ (by decide) init_freq_ok
  have hinj : Injective256 top_rank_freq :=
    set_freq_injective init_freq 0 _ init_freq_injective (fun i hi _ => by
      rw [rd_init_freq i hi]
      have : (256 : Nat) < 2 ^ 64 - 1 := by decide
      omega)
  have h0 : rd top_rank_freq 0 = 2 ^ 64 - 1 := by
    rw [rd_top_rank_freq 0 (by decide), if_pos rfl]
  have hfind : inc_freq_find 0 ((rd top_rank_freq 0 + 1) % 2 ^ 64) (top_rank_freq.take 256) 0
      = none := by
    apply find_eq_none _ _ _ hok.1
    intro i hi hne
    rw [rd_top_rank_freq i hi, if_neg hne, h0]
    have : (2 ^ 64 - 1 + 1) % 2 ^ 64 = 0 := by decide
    omega
  have hnew : (rd top_rank_freq 0 + 1) % 2 ^ 64 = 0 := by rw [h0]; decide
  refine ⟨hok, hinj, h0, top_rank_freq.set 0 0, ?_, ?_, ?_⟩
  · rw [inc_freq_of_free _ _ hfind, hnew]
  · rw [rd_set, if_pos ⟨rfl, by rw [hok.1]; decide⟩]
  · rw [rd_set, if_pos ⟨rfl, by rw [hok.1]; decide⟩]
    omega

/-- Claim C15, amended: let the ranks be pairwise distinct, `r` the rank of `s`
and `m` the least integer above `r` that is not the rank of another symbol, and
let `m` be a `size_t` (`m < 2 ^ 64`).  Then `inc_freq(s)` returns, `s` has rank
`m` afterwards, every symbol with a rank strictly between `r` and `m` has lost
one, and every other rank is as before.  The rank of `s` has grown, and two
symbols other than `s` compare as they did before. -/
theorem inc_freq_promotes (f : List Nat) (s m : Nat) (hs : s < 256) (hok : FreqOk f)
    (hinj : Injective256 f) (hrm : rd f s < m) (hm : m < 2 ^ 64)
    (hfree : ∀ t, t < 256 → t ≠ s → rd f t ≠ m)
    (hocc : ∀ k, rd f s < k → k < m → ∃ t, t < 256 ∧ t ≠ s ∧ rd f t = k) :
    ∃ g, inc_freq f s = some g ∧ rd g s = m ∧
      (∀ t, t < 256 → t ≠ s →
        rd g t = if rd f s < rd f t ∧ rd f t < m then rd f t - 1 else rd f t) ∧
      rd f s < rd g s ∧
      (∀ t u, t < 256 → u < 256 → t ≠ s → u ≠ s → (rd g t < rd g u ↔ rd f t < rd f u)) := by
  obtain ⟨g, hg⟩ := inc_freq_total f s hs hok
  obtain ⟨h1, h2⟩ := inc_freq_fuel_result 256 f s m g hs hok hinj hrm hm hfree hocc hg
  refine ⟨g, hg, h1, h2, by rw [h1]; exact hrm, fun t u ht hu hts hus => ?_⟩
  rw [h2 t ht hts, h2 u hu hus]
  have e1 := hinj t ht s hs hts
  have e2 := hinj u hu s hs hus
  have e3 := hfree t ht hts
  have e4 := hfree u hu hus
  split <;> split <;> constructor <;> intro h <;> omega

theorem inc_freq_promotes_witness :
    ∃ g, inc_freq init_freq 65 = some g ∧ rd g 65 = 256 ∧
      (∀ t, t < 256 → t ≠ 65 →
        rd g t = if rd init_freq 65 < rd init_freq t ∧ rd init_freq t < 256
          then rd init_freq t - 1 else rd init_freq t) ∧
      rd init_freq 65 < rd g 65 ∧
      (∀ t u, t < 256 → u < 256 → t ≠ 65 → u ≠ 65 →
        (rd g t < rd g u ↔ rd init_freq t < rd init_freq u)) :=
  inc_freq_promotes init_freq 65 256 (by decide) init_freq_ok init_freq_injective
    (by rw [rd_init_freq 65 (by decide)]; decide) (by decide)
    (fun t ht _ => by rw [rd_init_freq t ht]; omega)
    (fun k hk1 hk2 => by
      rw [rd_init_freq 65 (by decide)] at hk1
      exact ⟨k, hk2, by omega, rd_init_freq k hk2⟩)

/-! ## What `process` counts, what it emits, and its assertions -/

theorem adj_count_le (a b : Nat) (l : List Nat) :
    ∀ x, adj_count a b (x :: l) ≤ l.length := by
  induction l with
  | nil => intro x; simp [adj_count]
  | cons y rest ih =>
    intro x
    have := ih y
    simp only [adj_count, List.length_cons]
    split <;> omega

theorem update_model_coo_eq (coo : Nat → Nat → Nat) (x y a b : Nat) (h : coo a b < 2 ^ 64) :
    update_model_coo coo (x, y) a b = (coo a b + if x = a ∧ y = b then 1 else 0) % 2 ^ 64 := by
  unfold update_model_coo
  by_cases hc : a = x ∧ b = y
  · rw [if_pos hc, if_pos ⟨hc.1.symm, hc.2.symm⟩]
  · rw [if_neg hc, if_neg (fun h2 => hc ⟨h2.1.symm, h2.2.symm⟩), Nat.add_zero,
      Nat.mod_eq_of_lt h]

theorem update_model_coo_lt (coo : Nat → Nat → Nat) (p : Nat × Nat)
    (h : ∀ a b, coo a b < 2 ^ 64) : ∀ a b, update_model_coo coo p a b < 2 ^ 64 := by
  intro a b
  unfold update_model_coo
  split
  · exact Nat.mod_lt _ (Nat.two_pow_pos _)
  · exact h a b

/-- The counts after the loop of `process`: each count has grown, in `size_t`
arithmetic, by the number of times its pair of bytes is adjacent in the bytes
consumed with `semi[0]` put in front of them. -/
theorem process_loop_coo (n : Nat) :
    ∀ (s : List Nat) (st : Split), s.length / 2 = n → (∀ x ∈ s, x < 256) →
      FreqOk st.freq → Injective256 st.freq → (∀ a b, st.coo a b < 2 ^ 64) →
      ∃ st1 : Split, process_loop s st = some st1 ∧
        ∀ a b, st1.coo a b
          = (st.coo a b + adj_count a b (st.semi0 :: s.take (2 * n))) % 2 ^ 64 := by
  induction n with
  | zero =>
    intro s st hn _ _ _ hlt
    have hs : s.length < 2 := by omega
    have h1 : process_loop s st = some st := by
      match s, hs with
      | [], _ => rfl
      | [_], _ => rfl
    refine ⟨st, h1, fun a b => ?_⟩
    simp only [Nat.mul_zero, List.take_zero, adj_count, Nat.add_zero]
    exact (Nat.mod_eq_of_lt (hlt a b)).symm
  | succ n ih =>
    intro s st hn hb hok hinj hlt
    match s, hn, hb with
    | [], hn, _ => simp only [List.length_nil] at hn; omega
    | [_], hn, _ => simp only [List.length_singleton] at hn; omega
    | p0 :: p1 :: rest, hn, hb =>
      have h0 : p0 < 256 := hb p0 (by simp)
      have h1 : p1 < 256 := hb p1 (by simp)
      obtain ⟨out, freq1, -, -, -, hok1, hinj1, hstep⟩ :=
        process_step_spec st p0 p1 h0 h1 hok hinj
      have hrl : rest.length / 2 = n := by
        simp only [List.length_cons] at hn; omega
      have hlt1 := update_model_coo_lt _ (p0, p1) (update_model_coo_lt _ (st.semi0, p0) hlt)
      obtain ⟨st1, hr1, hr2⟩ :=
        ih rest
          { coo := update_model_coo (update_model_coo st.coo (st.semi0, p0)) (p0, p1),
            freq := freq1, semi0 := p1,
            lstream := st.lstream ++ [out.1], hstream := st.hstream ++ [out.2] }
          hrl (fun x hx => hb x (by simp [hx])) hok1 hinj1 hlt1
      refine ⟨st1, ?_, fun a b => ?_⟩
      · simp only [process_loop, hstep]; exact hr1
      · have e : 2 * (n + 1) = (2 * n + 1) + 1 := by ring
        rw [hr2 a b, e, List.take_succ_cons, List.take_succ_cons]
        simp only [adj_count]
        rw [update_model_coo_eq _ _ _ _ _ (update_model_coo_lt _ (st.semi0, p0) hlt a b),
          update_model_coo_eq _ _ _ _ _ (hlt a b)]
        simp only [Nat.add_mod, Nat.mod_mod, Nat.add_assoc]
        omega

theorem process_coo (s : List Nat) (hb : ∀ x ∈ s, x < 256) :
    ∃ st : Split, process (fun _ _ => 0) s = some st ∧
      ∀ a b, st.coo a b = adj_count a b (0 :: s.take (2 * (s.length / 2))) % 2 ^ 64 := by
  obtain ⟨st0, hst0⟩ : ∃ st0 : Split, st0
      = { coo := fun _ _ => 0, freq := init_freq, semi0 := 0, lstream := [], hstream := [] } :=
    ⟨_, rfl⟩
  have hf0 : st0.freq = init_freq := by rw [hst0]
  have hc0 : ∀ a b, st0.coo a b = 0 := by intro a b; rw [hst0]
  have hs0 : st0.semi0 = 0 := by rw [hst0]
  have hp : process (fun _ _ => 0) s = process_loop s st0 := by rw [hst0]; rfl
  obtain ⟨st1, h1, h2⟩ := process_loop_coo (s.length / 2) s st0 rfl hb
    (by rw [hf0]; exact init_freq_ok) (by rw [hf0]; exact init_freq_injective)
    (fun a b => by rw [hc0]; exact Nat.two_pow_pos _)
  refine ⟨st1, by rw [hp, h1], fun a b => ?_⟩
  rw [h2 a b, hc0, hs0, Nat.zero_add]

theorem process_loop_append (n : Nat) :
    ∀ (l1 l2 : List Nat) (st : Split), l1.length = 2 * n →
      process_loop (l1 ++ l2) st = (process_loop l1 st).bind (process_loop l2) := by
  induction n with
  | zero =>
    intro l1 l2 st h
    have : l1 = [] := List.eq_nil_of_length_eq_zero (by omega)
    subst this
    rfl
  | succ n ih =>
    intro l1 l2 st h
    match l1, h with
    | [], h => simp only [List.length_nil] at h; omega
    | [_], h => simp only [List.length_singleton] at h; omega
    | p0 :: p1 :: rest, h =>
      have hr : rest.length = 2 * n := by simp only [List.length_cons] at h; omega
      show process_loop (p0 :: p1 :: (rest ++ l2)) st = _
      cases hstep : process_step st p0 p1 with
      | none => simp only [process_loop, hstep, Option.bind]
      | some st1 =>
        simp only [process_loop, hstep]
        exact ih rest l2 st1 hr

theorem transform_tie (f : List Nat) (a b : Nat) (h : rd f a ≠ rd f b) :
    transform f 0 (a, b) = transform f 0 (b, a) := by
  unfold transform is_in_order_freq swap
  by_cases h1 : rd f a > rd f b
  · have h2 : ¬ rd f b > rd f a := by omega
    simp [h1, h2]
  · have h2 : rd f b > rd f a := by omega
    simp [h1, h2]

theorem adj_count_zero_cons (a b : Nat) (l : List Nat) :
    adj_count a b (0 :: l)
      = adj_count a b l + if a = 0 ∧ l.head? = some b then 1 else 0 := by
  cases l with
  | nil => simp [adj_count]
  | cons y r =>
    simp only [adj_count, List.head?_cons, Option.some.injEq]
    by_cases h : 0 = a ∧ y = b
    · rw [if_pos h, if_pos ⟨h.1.symm, h.2⟩]; omega
    · rw [if_neg h, if_neg (fun h2 => h ⟨h2.1.symm, h2.2⟩)]; omega

/-- Claim C12 as stated fails on the stream `0x41 0x42`: after `process` the
count of the pair `(0, 0x41)` is 1, though byte 0 occurs nowhere in the stream
and the number of positions where `0x41` follows `0` is 0. -/
theorem coo_counts_pair_before_stream :
    ∃ st : Split, process (fun _ _ => 0) [0x41, 0x42] = some st ∧ st.coo 0 0x41 = 1 ∧
      adj_count 0 0x41 [0x41, 0x42] = 0 := by
  obtain ⟨st, h1, h2⟩ := process_coo [0x41, 0x42] (by decide)
  refine ⟨st, h1, ?_, by decide⟩
  rw [h2]
  decide

/-- Claim C12, amended: started on an all-zero table, `process` returns on every
stream of bytes, and with `2n` bytes consumed the count of `(a, b)` is, in
`size_t` arithmetic, the number of positions where `b` follows `a` in the
consumed bytes with one zero byte put in front of them (the start value of
`semi[0]`): the adjacencies of the stream, and one more for the pair
`(0, s[0])`.  A stream shorter than `2 ^ 64` bytes gives that number itself. -/
theorem coo_counts_adjacencies_after_zero (s : List Nat) (hb : ∀ x ∈ s, x < 256) :
    ∃ st : Split, process (fun _ _ => 0) s = some st ∧
      (∀ a b, st.coo a b = adj_count a b (0 :: s.take (2 * (s.length / 2))) % 2 ^ 64) ∧
      (s.length < 2 ^ 64 → ∀ a b, st.coo a b
        = adj_count a b (s.take (2 * (s.length / 2)))
          + if a = 0 ∧ (s.take (2 * (s.length / 2))).head? = some b then 1 else 0) := by
  obtain ⟨st, h1, h2⟩ := process_coo s hb
  refine ⟨st, h1, h2, fun hlen a b => ?_⟩
  rw [h2, ← adj_count_zero_cons]
  apply Nat.mod_eq_of_lt
  have h3 := adj_count_le a b (s.take (2 * (s.length / 2))) 0
  have h4 : (s.take (2 * (s.length / 2))).length ≤ s.length := by
    rw [List.length_take]; exact Nat.min_le_right _ _
  omega

theorem coo_counts_adjacencies_after_zero_witness :
    (∀ x ∈ [0x41, 0x42, 0x41, 0x43], x < 256) ∧
    ∃ st : Split, process (fun _ _ => 0) [0x41, 0x42, 0x41, 0x43] = some st ∧
      (∀ a b, st.coo a b = adj_count a b
        (0 :: [0x41, 0x42, 0x41, 0x43].take (2 * ([0x41, 0x42, 0x41, 0x43].length / 2)))
          % 2 ^ 64) ∧
      ([0x41, 0x42, 0x41, 0x43].length < 2 ^ 64 → ∀ a b, st.coo a b
        = adj_count a b
            ([0x41, 0x42, 0x41, 0x43].take (2 * ([0x41, 0x42, 0x41, 0x43].length / 2)))
          + if a = 0 ∧ ([0x41, 0x42, 0x41, 0x43].take
              (2 * ([0x41, 0x42, 0x41, 0x43].length / 2))).head? = some b then 1 else 0) :=
  ⟨by decide, coo_counts_adjacencies_after_zero [0x41, 0x42, 0x41, 0x43] (by decide)⟩

/-- Claim C13, at the fresh state: the pairs `(1, 2)` and `(2, 1)` are distinct,
yet one pass of `process` on either emits the byte 1 to the low stream and the
byte 2 to the high stream, so the streams `1 2` and `2 1` are mapped to the
same pair of output streams. -/
theorem swapped_pairs_emit_same_output :
    ∃ st1 st2 : Split, process (fun _ _ => 0) [1, 2] = some st1 ∧
      process (fun _ _ => 0) [2, 1] = some st2 ∧
      st1.lstream = [1] ∧ st1.hstream = [2] ∧ st2.lstream = [1] ∧ st2.hstream = [2] := by
  obtain ⟨out1, -, st1, -, ht1, hp1, -, hl1, hh1, -⟩ :=
    process_two_pairs (fun _ _ => 0) 1 2 0 0 (by decide) (by decide) (by decide) (by decide)
  obtain ⟨out2, -, st2, -, ht2, hp2, -, hl2, hh2, -⟩ :=
    process_two_pairs (fun _ _ => 0) 2 1 0 0 (by decide) (by decide) (by decide) (by decide)
  have e1 : transform init_freq (is_in_order_coo (fun _ _ => 0) (1, 2)) (1, 2) = some (1, 2) := by
    decide
  have e2 : transform init_freq (is_in_order_coo (fun _ _ => 0) (2, 1)) (2, 1) = some (1, 2) := by
    decide
  rw [e1, Option.some.injEq] at ht1
  rw [e2, Option.some.injEq] at ht2
  subst ht1
  subst ht2
  exact ⟨st1, st2, hp1, hp2, hl1, hh1, hl2, hh2⟩

/-- Claim C19: let `process` have consumed the first `2k` bytes of a stream of
bytes (`pre`) and read the pair `(p0, p1)` next.  Then it has reached that pair
without a failed assertion, the ranks are pairwise distinct, the decision for
two equal bytes is 0, `transform` passes its two assertions (lines 183 and
188), the assertion of line 210 holds, the pass ends in a new state, and
`process` returns on the whole stream: no assertion fails in any pass.  The
table `process` starts from may be any table, the all-zero one included. -/
theorem process_assertions_hold (coo : Nat → Nat → Nat) (pre rest : List Nat)
    (p0 p1 k : Nat) (hk : pre.length = 2 * k)
    (hb : ∀ x ∈ pre ++ p0 :: p1 :: rest, x < 256) :
    ∃ (st st1 st2 : Split) (out : Nat × Nat),
      process coo pre = some st ∧ Injective256 st.freq ∧
      (p0 = p1 → is_in_order_coo st.coo (p0, p1) = 0) ∧
      transform st.freq (is_in_order_coo st.coo (p0, p1)) (p0, p1) = some out ∧
      is_in_order_freq st.freq out = is_in_order_coo st.coo (p0, p1) ∧
      process_step st p0 p1 = some st1 ∧
      process coo (pre ++ p0 :: p1 :: rest) = process_loop rest st1 ∧
      process coo (pre ++ p0 :: p1 :: rest) = some st2 := by
  obtain ⟨st0, hst0⟩ : ∃ st0 : Split, st0
      = { coo := coo, freq := init_freq, semi0 := 0, lstream := [], hstream := [] } := ⟨_, rfl⟩
  have hf0 : st0.freq = init_freq := by rw [hst0]
  have hp : ∀ s, process coo s = process_loop s st0 := by intro s; rw [hst0]; rfl
  have hbpre : ∀ x ∈ pre, x < 256 := fun x hx => hb x (List.mem_append_left _ hx)
  have h0 : p0 < 256 := hb p0 (by simp)
  have h1 : p1 < 256 := hb p1 (by simp)
  have hbrest : ∀ x ∈ rest, x < 256 := fun x hx => hb x (by simp [hx])
  obtain ⟨st, hst, -, hok, hinj, -⟩ := process_loop_spec (pre.length / 2) pre st0 rfl hbpre
    (by rw [hf0]; exact init_freq_ok) (by rw [hf0]; exact init_freq_injective)
  obtain ⟨out, freq1, hout, -, -, hok1, hinj1, hstep⟩ :=
    process_step_spec st p0 p1 h0 h1 hok hinj
  obtain ⟨st1, hst1⟩ : ∃ st1 : Split, st1
      = { coo := update_model_coo (update_model_coo st.coo (st.semi0, p0)) (p0, p1),
          freq := freq1, semi0 := p1,
          lstream := st.lstream ++ [out.1], hstream := st.hstream ++ [out.2] } := ⟨_, rfl⟩
  rw [← hst1] at hstep
  have hf1 : st1.freq = freq1 := by rw [hst1]
  obtain ⟨st2, hst2, -⟩ := process_loop_spec (rest.length / 2) rest st1 rfl hbrest
    (by rw [hf1]; exact hok1) (by rw [hf1]; exact hinj1)
  have hall : process coo (pre ++ p0 :: p1 :: rest) = process_loop rest st1 := by
    rw [hp, process_loop_append k pre _ st0 hk, hst]
    show process_loop (p0 :: p1 :: rest) st = _
    exact process_loop_cons p0 p1 rest st st1 hstep
  have hassert : is_in_order_freq st.freq out = is_in_order_coo st.coo (p0, p1) := by
    by_contra hne
    simp only [process_step, hout, if_neg hne] at hstep
    exact Option.noConfusion hstep
  refine ⟨st, st1, st2, out, by rw [hp, hst], hinj, fun he => ?_, hout, hassert, hstep, hall,
    by rw [hall, hst2]⟩
  rw [he]
  exact is_in_order_coo_self _ _

theorem process_assertions_hold_witness :
    [0x41, 0x42].length = 2 * 1 ∧ (∀ x ∈ [0x41, 0x42] ++ 0x41 :: 0x41 :: [7], x < 256) ∧
    ∃ (st st1 st2 : Split) (out : Nat × Nat),
      process (fun _ _ => 0) [0x41, 0x42] = some st ∧ Injective256 st.freq ∧
      (0x41 = 0x41 → is_in_order_coo st.coo (0x41, 0x41) = 0) ∧
      transform st.freq (is_in_order_coo st.coo (0x41, 0x41)) (0x41, 0x41) = some out ∧
      is_in_order_freq st.freq out = is_in_order_coo st.coo (0x41, 0x41) ∧
      process_step st 0x41 0x41 = some st1 ∧
      process (fun _ _ => 0) ([0x41, 0x42] ++ 0x41 :: 0x41 :: [7]) = process_loop [7] st1 ∧
      process (fun _ _ => 0) ([0x41, 0x42] ++ 0x41 :: 0x41 :: [7]) = some st2 :=
  ⟨by decide, by decide,
   process_assertions_hold (fun _ _ => 0) [0x41, 0x42] [7] 0x41 0x41 1 (by decide)
     (by decide)⟩

/-! ## The median policy and the ratio policy -/

theorem compar_le (l r : Rec) : compar l r ≤ 0 ↔ l.freq ≤ r.freq := by
  unfold compar
  by_cases h1 : l.freq > r.freq
  · rw [if_pos h1]
    constructor
    · intro h; omega
    · intro h; omega
  · rw [if_neg h1]
    by_cases h2 : l.freq < r.freq
    · rw [if_pos h2]
      constructor
      · intro _; omega
      · intro _; decide
    · rw [if_neg h2]
      constructor
      · intro _; omega
      · intro _; decide

theorem qsort_insertion_ok : IsQsort qsort_insertion := by
  intro input
  haveI : IsTotal Rec (fun l r => l.freq ≤ r.freq) := ⟨fun a b => Nat.le_total a.freq b.freq⟩
  haveI : IsTrans Rec (fun l r => l.freq ≤ r.freq) := ⟨fun _ _ _ h1 h2 => Nat.le_trans h1 h2⟩
  refine ⟨List.perm_insertionSort _ _, ?_⟩
  have hs := List.sorted_insertionSort (fun l r : Rec => l.freq ≤ r.freq) input
  exact List.Pairwise.imp (fun {a b} h => (compar_le a b).2 h) hs

theorem scan_eq (p1 : Nat) (l : List Rec) :
    is_above_median_scan p1 l = if ∃ r ∈ l, r.c = p1 then 1 else 0 := by
  induction l with
  | nil => simp [is_above_median_scan]
  | cons r rs ih =>
    simp only [is_above_median_scan, ih, List.mem_cons, exists_eq_or_imp]
    by_cases h : p1 = r.c
    · rw [if_pos h, if_pos (Or.inl h.symm)]
    · rw [if_neg h]
      by_cases h2 : ∃ a ∈ rs, a.c = p1
      · rw [if_pos h2, if_pos (Or.inr h2)]
      · rw [if_neg h2, if_neg (fun hc => hc.elim (fun e => h e.symm) h2)]

theorem mem_median_records (coo : Nat → Nat → Nat) (pair : Nat × Nat) (r : Rec) :
    r ∈ median_records coo pair ↔ r.c < 256 ∧ r.freq = coo pair.1 r.c := by
  unfold median_records
  simp only [List.mem_map, List.mem_range]
  constructor
  · rintro ⟨i, hi, rfl⟩
    exact ⟨hi, rfl⟩
  · rintro ⟨h1, h2⟩
    refine ⟨r.c, h1, ?_⟩
    cases r
    simp only [Rec.mk.injEq, true_and]
    exact h2.symm

theorem length_median_records (coo : Nat → Nat → Nat) (pair : Nat × Nat) :
    (median_records coo pair).length = 256 := by
  simp [median_records]

/-- A list of `n` different symbols that all satisfy `p` gives `n` records of
the array that satisfy `p` of their symbol. -/
theorem count_records (coo : Nat → Nat → Nat) (pair : Nat × Nat) (R : List Rec)
    (hperm : R.Perm (median_records coo pair)) (q : Rec → Bool) (xs : List Nat)
    (hnd : xs.Nodup) (hx : ∀ x ∈ xs, x < 256 ∧ q { c := x, freq := coo pair.1 x } = true) :
    xs.length ≤ (R.filter q).length := by
  have h1 : (R.filter q).length = ((median_records coo pair).filter q).length :=
    (hperm.filter q).length_eq
  rw [h1]
  have h2 : (xs.map (fun x => ({ c := x, freq := coo pair.1 x } : Rec))).Nodup := by
    apply List.Nodup.map _ hnd
    intro a b hab
    simp only [Rec.mk.injEq] at hab
    exact hab.1
  have h3 : xs.map (fun x => ({ c := x, freq := coo pair.1 x } : Rec))
      ⊆ (median_records coo pair).filter q := by
    intro r hr
    simp only [List.mem_map] at hr
    obtain ⟨x, hxm, rfl⟩ := hr
    rw [List.mem_filter]
    exact ⟨(mem_median_records coo pair _).2 ⟨(hx x hxm).1, rfl⟩, (hx x hxm).2⟩
  have h4 := (List.subperm_of_subset h2 h3).length_le
  rw [List.length_map] at h4
  exact h4

theorem is_above_median_spec (qsort : List Rec → List Rec) (hq : IsQsort qsort)
    (coo : Nat → Nat → Nat) (p0 p1 : Nat) (hp1 : p1 < 256) (xs : List Nat)
    (hnd : xs.Nodup) (hlen : 128 ≤ xs.length) :
    ((∀ x ∈ xs, x < 256 ∧ coo p0 x < coo p0 p1) → is_above_median qsort coo (p0, p1) = 0) ∧
    ((∀ x ∈ xs, x < 256 ∧ coo p0 p1 < coo p0 x) → is_above_median qsort coo (p0, p1) = 1) := by
  obtain ⟨hperm, hsort⟩ := hq (median_records coo (p0, p1))
  generalize hR : qsort (median_records coo (p0, p1)) = R at hperm hsort
  have hRlen : R.length = 256 := by rw [hperm.length_eq, length_median_records]
  have hsplit : R.take 128 ++ R.drop 128 = R := List.take_append_drop 128 R
  rw [← hsplit, List.pairwise_append] at hsort
  have hcross : ∀ a ∈ R.take 128, ∀ b ∈ R.drop 128, a.freq ≤ b.freq :=
    fun a ha b hb => (compar_le a b).1 (hsort.2.2 a ha b hb)
  have hmem : ∀ r ∈ R, r.c < 256 ∧ r.freq = coo p0 r.c :=
    fun r hr => (mem_median_records coo (p0, p1) r).1 (hperm.mem_iff.1 hr)
  have htl : (R.take 128).length = 128 := by rw [List.length_take]; omega
  have hdl : (R.drop 128).length = 128 := by rw [List.length_drop]; omega
  have hcount : ∀ q : Rec → Bool, (R.filter q).length
      = ((R.take 128).filter q).length + ((R.drop 128).filter q).length := by
    intro q
    rw [← List.length_append, ← List.filter_append, hsplit]
  unfold is_above_median
  rw [hR, scan_eq]
  constructor
  · intro hx
    rw [if_neg]
    rintro ⟨e, he, hec⟩
    have hef : e.freq = coo p0 p1 := by
      rw [(hmem e (List.mem_of_mem_take he)).2, hec]
    have hc := count_records coo (p0, p1) R hperm (fun r => decide (r.freq < coo p0 p1)) xs hnd
      (fun x hxm => ⟨(hx x hxm).1, by simpa using (hx x hxm).2⟩)
    rw [hcount] at hc
    have hd : (R.drop 128).filter (fun r => decide (r.freq < coo p0 p1)) = [] := by
      rw [List.filter_eq_nil_iff]
      intro b hb
      have := hcross e he b hb
      simp only [decide_eq_true_eq]
      omega
    have ht : ((R.take 128).filter (fun r => decide (r.freq < coo p0 p1))).length
        < (R.take 128).length :=
      List.length_filter_lt_length_iff_exists.2 ⟨e, he, by simp [hef]⟩
    rw [hd, List.length_nil] at hc
    omega
  · intro hx
    rw [if_pos]
    have he : ({ c := p1, freq := coo p0 p1 } : Rec) ∈ R :=
      hperm.mem_iff.2 ((mem_median_records coo (p0, p1) _).2 ⟨hp1, rfl⟩)
    rw [← hsplit, List.mem_append] at he
    rcases he with he | he
    · exact ⟨_, he, rfl⟩
    · exfalso
      have hc := count_records coo (p0, p1) R hperm (fun r => decide (coo p0 p1 < r.freq)) xs hnd
        (fun x hxm => ⟨(hx x hxm).1, by simpa using (hx x hxm).2⟩)
      rw [hcount] at hc
      have hd : (R.take 128).filter (fun r => decide (coo p0 p1 < r.freq)) = [] := by
        rw [List.filter_eq_nil_iff]
        intro a ha
        have := hcross a ha _ he
        simp only [decide_eq_true_eq]
        simp only at this
        omega
      have ht : ((R.drop 128).filter (fun r => decide (coo p0 p1 < r.freq))).length
          < (R.drop 128).length :=
        List.length_filter_lt_length_iff_exists.2 ⟨_, he, by simp⟩
      rw [hd, List.length_nil] at hc
      omega

/-- Claim C16, what the code does instead: whatever order `qsort` gives to
records with equal counts, when the count of `pair[1]` after `pair[0]` is
strictly greater than that of at least 128 symbols `is_above_median` returns
0, and when it is strictly smaller than that of at least 128 symbols
`is_above_median` returns 1.  The sort is ascending, so the 128 records
searched are those with the lowest counts. -/
theorem is_above_median_reports_lower_half (qsort : List Rec → List Rec) (hq : IsQsort qsort)
    (coo : Nat → Nat → Nat) (p0 p1 : Nat) (hp1 : p1 < 256) (xs : List Nat)
    (hnd : xs.Nodup) (hlen : 128 ≤ xs.length) :
    ((∀ x ∈ xs, x < 256 ∧ coo p0 x < coo p0 p1) → is_above_median qsort coo (p0, p1) = 0) ∧
    ((∀ x ∈ xs, x < 256 ∧ coo p0 p1 < coo p0 x) → is_above_median qsort coo (p0, p1) = 1) :=
  is_above_median_spec qsort hq coo p0 p1 hp1 xs hnd hlen

theorem is_above_median_reports_lower_half_witness :
    IsQsort qsort_insertion ∧ 255 < 256 ∧ (List.range 128).Nodup ∧
    128 ≤ (List.range 128).length ∧
    (∀ x ∈ List.range 128, x < 256 ∧ coo_ramp 0 x < coo_ramp 0 255) ∧
    is_above_median qsort_insertion coo_ramp (0, 255) = 0 :=
  have h : ∀ x ∈ List.range 128, x < 256 ∧ coo_ramp 0 x < coo_ramp 0 255 := fun x hx => by
    have := List.mem_range.1 hx
    show x < 256 ∧ x < 255
    omega
  ⟨qsort_insertion_ok, by decide, List.nodup_range 128, by simp, h,
   (is_above_median_reports_lower_half qsort_insertion qsort_insertion_ok coo_ramp 0 255
      (by decide) (List.range 128) (List.nodup_range 128) (by simp)).1 h⟩

theorem foldl_sum_mod (f : Nat → Nat) (M : Nat) (l : List Nat) :
    ∀ acc, acc < M →
      l.foldl (fun acc i => (acc + f i) % M) acc = (acc + (l.map f).sum) % M := by
  induction l with
  | nil => intro acc h; simp [Nat.mod_eq_of_lt h]
  | cons x rest ih =>
    intro acc h
    have hM : 0 < M := by omega
    simp only [List.foldl_cons, List.map_cons, List.sum_cons]
    rw [ih _ (Nat.mod_lt _ hM), Nat.add_mod, Nat.mod_mod, ← Nat.add_mod, Nat.add_assoc]

theorem sum_row_eq (coo : Nat → Nat → Nat) (a : Nat) :
    sum_row coo a = ((List.range 256).map (coo a)).sum % 2 ^ 64 := by
  unfold sum_row
  rw [foldl_sum_mod (coo a) (2 ^ 64) _ 0 (Nat.two_pow_pos _), Nat.zero_add]

theorem sum_map_zero (l : List Nat) : (l.map (fun _ => 0)).sum = 0 := by
  induction l with
  | nil => rfl
  | cons x rest ih => rw [List.map_cons, List.sum_cons, ih]

theorem sum_row_zero (a : Nat) : sum_row (fun _ _ => 0) a = 0 := by
  rw [sum_row_eq, sum_map_zero, Nat.zero_mod]

theorem compare_coo_pairs_zero_row (coo : Nat → Nat → Nat) (pair : Nat × Nat)
    (h : sum_row coo pair.1 = 0) : compare_coo_pairs coo pair = Outcome.division_by_zero := by
  simp only [compare_coo_pairs, h, if_true]

theorem compare_coo_pairs_value (coo : Nat → Nat → Nat) (pair : Nat × Nat) (v : Int)
    (h : compare_coo_pairs coo pair = Outcome.value v) :
    0 < sum_row coo pair.1 ∧ 0 < sum_row coo pair.2 ∧
    coo pair.2 pair.1 * sum_row coo pair.1 < 2 ^ 64 ∧
    coo pair.1 pair.2 * sum_row coo pair.2 < 2 ^ 64 ∧
    v = if coo pair.2 pair.1 * sum_row coo pair.1 > coo pair.1 pair.2 * sum_row coo pair.2
        then 1 else 0 := by
  simp only [compare_coo_pairs] at h
  split at h
  · exact Outcome.noConfusion h
  · rename_i h1
    split at h
    · exact Outcome.noConfusion h
    · rename_i h2
      split at h
      · exact Outcome.noConfusion h
      · rename_i h3
        split at h
        · exact Outcome.noConfusion h
        · rename_i h4
          have d1 : 0 < sum_row coo pair.1 := Nat.pos_of_ne_zero h1
          have d0 : 0 < sum_row coo pair.2 := Nat.pos_of_ne_zero h3
          have g1 : coo pair.2 pair.1 ≤ (2 ^ 64 - 1) / sum_row coo pair.1 := not_not.1 h2
          have g0 : coo pair.1 pair.2 ≤ (2 ^ 64 - 1) / sum_row coo pair.2 := not_not.1 h4
          have m1 : coo pair.2 pair.1 * sum_row coo pair.1 ≤ 2 ^ 64 - 1 :=
            (Nat.le_div_iff_mul_le d1).1 g1
          have m0 : coo pair.1 pair.2 * sum_row coo pair.2 ≤ 2 ^ 64 - 1 :=
            (Nat.le_div_iff_mul_le d0).1 g0
          have hp : (0 : Nat) < 2 ^ 64 := Nat.two_pow_pos _
          have l1 : coo pair.2 pair.1 * sum_row coo pair.1 < 2 ^ 64 := by omega
          have l0 : coo pair.1 pair.2 * sum_row coo pair.2 < 2 ^ 64 := by omega
          rw [Nat.mod_eq_of_lt l1, Nat.mod_eq_of_lt l0] at h
          simp only [Outcome.value.injEq] at h
          exact ⟨d1, d0, l1, l0, h.symm⟩

/-- Claim C17, on a fresh table: with every count zero the call
`compare_coo_pairs` on the pair `(0x41, 0x42)`, as on any pair, divides by the
row sum `D1 = 0` while evaluating its first guard; the same holds for every
table in which the row of `pair[0]` sums to zero.  Only when both row sums are
nonzero and both guards pass does the call return, and then neither product
exceeds the word and the value is the exact comparison of the products. -/
theorem compare_coo_pairs_divides_by_zero :
    compare_coo_pairs (fun _ _ => 0) (0x41, 0x42) = Outcome.division_by_zero ∧
    (∀ pair, compare_coo_pairs (fun _ _ => 0) pair = Outcome.division_by_zero) ∧
    (∀ coo pair, sum_row coo pair.1 = 0 →
      compare_coo_pairs coo pair = Outcome.division_by_zero) ∧
    (∀ coo pair v, compare_coo_pairs coo pair = Outcome.value v →
      0 < sum_row coo pair.1 ∧ 0 < sum_row coo pair.2 ∧
      coo pair.2 pair.1 * sum_row coo pair.1 < 2 ^ 64 ∧
      coo pair.1 pair.2 * sum_row coo pair.2 < 2 ^ 64 ∧
      v = if coo pair.2 pair.1 * sum_row coo pair.1 > coo pair.1 pair.2 * sum_row coo pair.2
          then 1 else 0) :=
  ⟨compare_coo_pairs_zero_row _ _ (sum_row_zero _),
   fun pair => compare_coo_pairs_zero_row _ pair (sum_row_zero _),
   compare_coo_pairs_zero_row, compare_coo_pairs_value⟩

theorem sum_row_const (c a : Nat) (h : 256 * c < 2 ^ 64) : sum_row (fun _ _ => c) a = 256 * c := by
  have hs : ∀ l : List Nat, (l.map (fun _ => c)).sum = l.length * c := by
    intro l
    induction l with
    | nil => simp
    | cons x rest ih => rw [List.map_cons, List.sum_cons, ih, List.length_cons]; ring
  rw [sum_row_eq, hs, List.length_range, Nat.mod_eq_of_lt h]

/-- Tables on which the call returns: every count is the same `c > 0`, so
both row sums are `256 * c`. -/
theorem compare_coo_pairs_const (c : Nat) (pair : Nat × Nat) (hc : 0 < c)
    (h : 256 * c * c < 2 ^ 64) : compare_coo_pairs (fun _ _ => c) pair = Outcome.value 0 := by
  have hp : (0 : Nat) < 2 ^ 64 := Nat.two_pow_pos _
  have h256 : 256 * c < 2 ^ 64 := by
    have : 256 * c * 1 ≤ 256 * c * c := Nat.mul_le_mul_left _ hc
    omega
  have hs : ∀ a, sum_row (fun _ _ => c) a = 256 * c := fun a => sum_row_const c a h256
  have hd : 256 * c ≠ 0 := by omega
  have hg : c ≤ (2 ^ 64 - 1) / (256 * c) := by
    rw [Nat.le_div_iff_mul_le (by omega)]
    have : c * (256 * c) = 256 * c * c := by ring
    omega
  simp only [compare_coo_pairs, hs, hd, hg, if_false, not_true_eq_false, gt_iff_lt,
    Nat.lt_irrefl]

end Xcomp
